import Mathlib

/-! zmap/zcertificate: a verification development

Shallow embedding of the certificate pipeline of `zmap/zcertificate`:

* `cmd/zcertificate/main.go`: `appendZLintToCertificate`, `processCertificate`,
  `writeOutput`, the sequential control flow of `main`, and the pipeline of
  `main` with its goroutines as a transition system;
* `cmd/main.go` / `main.go`: `WriteOutput`, `ReadCertificateBase64`,
  `ReadCertificatePEM`, `ProcessCertificate`, and the pipeline of the legacy
  `main` as a transition system;
* `zcertificate.go`: `ScannerSplitPEM`.

A Go byte slice is a list of byte values.  For a single goroutine, a channel is
the list of values received from it (for a consumer) or sent on it (for a
producer), in order; in the transition systems it is its buffer.  `log.Fatal`
ends the process: a run that reaches it is marked `exited`.
-/

namespace ZCertificate

/-- A Go byte slice: each element is a byte value (0..255). -/
abbrev Bytes := List Nat

/-- The bytes of an ASCII string literal. -/
def ascii (s : String) : Bytes :=
  s.data.map Char.toNat

/-! ## cmd/zcertificate/main.go: the worker -/

/-- The flags of `cmd/zcertificate/main.go` (the package-level `var` block). -/
structure Flags where
  outputFileName : String
  workers : Int
  numProcs : Int
  crashIfParseFail : Bool
  jsonIfParseFail : Bool
  format : String
deriving Repr, DecidableEq

/-- The anonymous struct that `appendZLintToCertificate` hands to `json.Marshal`.
A nil pointer, nil interface value is `none`. -/
structure OutputRecord (Cert Lint PErr : Type) where
  Raw : Bytes
  Parsed : Option Cert
  ZLint : Option Lint
  ParseError : Option PErr
deriving Repr, DecidableEq

/-- The JSON keys of an `OutputRecord`, by the struct tags
`raw,omitempty`, `parsed,omitempty`, `zlint,omitempty`, `error,omitempty`:
an empty slice, a nil pointer and a nil interface are omitted. -/
def OutputRecord.jsonKeys {Cert Lint PErr : Type} (r : OutputRecord Cert Lint PErr) :
    List String :=
  (if r.Raw.length = 0 then [] else ["raw"])
    ++ (if r.Parsed.isSome then ["parsed"] else [])
    ++ (if r.ZLint.isSome then ["zlint"] else [])
    ++ (if r.ParseError.isSome then ["error"] else [])

/-- The external collaborators of the worker: `x509.ParseCertificate`
(a certificate or a parse error), `zlint.LintCertificate` (a pointer to a result
set) and `json.Marshal` on the output struct (`none` when it returns an error). -/
structure Transform (Cert Lint PErr : Type) where
  ParseCertificate : Bytes → Except PErr Cert
  LintCertificate : Cert → Option Lint
  Marshal : OutputRecord Cert Lint PErr → Option Bytes

/-- Function `appendZLintToCertificate`: build the struct and marshal it. -/
def appendZLintToCertificate {Cert Lint PErr : Type} (T : Transform Cert Lint PErr)
    (raw : Bytes) (cert : Option Cert) (zl : Option Lint) (parseError : Option PErr) :
    Option Bytes :=
  T.Marshal { Raw := raw, Parsed := cert, ZLint := zl, ParseError := parseError }

/-- Log lines written by the worker. -/
inductive LogEntry (PErr : Type) where
  /-- Line `log.Errorf("could not parse certificate: %s", err)`; in `cmd/main.go`,
  line `log.Warnf("could not parse certificate with error: %s", err)`. -/
  | couldNotParse (err : PErr)
  /-- Line `log.Fatal(msg)`: logs and exits the process. -/
  | fatal (msg : String)
deriving Repr, DecidableEq

/-- What one iteration of the worker loop does. -/
inductive Step (PErr : Type) where
  /-- The `continue` statement: nothing is sent for this block. -/
  | skip (log : List (LogEntry PErr))
  /-- The send `out <- jsonResult`. -/
  | send (json : Bytes) (log : List (LogEntry PErr))
  /-- A call of `log.Fatal`: the process exits. -/
  | fatal (log : List (LogEntry PErr))
deriving Repr, DecidableEq

/-- Lines 68-83 of `processCertificate`: parse, apply the parse-failure policy, lint.
The result is either the step that ends the iteration early, or the arguments
`(raw, parsed, zlintResult, err)` of the call of `appendZLintToCertificate`, as
the struct it builds, with the log lines written so far. -/
def parseAndLint {Cert Lint PErr : Type} (fl : Flags) (T : Transform Cert Lint PErr)
    (raw : Bytes) : Except (Step PErr) (OutputRecord Cert Lint PErr × List (LogEntry PErr)) :=
  match T.ParseCertificate raw with
  | .error err =>
    if fl.crashIfParseFail then
      .error (.fatal [.couldNotParse err, .fatal "parsing errors are fatal"])
    else if !fl.jsonIfParseFail then
      .error (.skip [.couldNotParse err])
    else
      -- parsed == nil: zlintResult stays nil
      .ok ({ Raw := raw, Parsed := none, ZLint := none, ParseError := some err },
           [.couldNotParse err])
  | .ok parsed =>
    .ok ({ Raw := raw, Parsed := some parsed, ZLint := T.LintCertificate parsed,
           ParseError := none }, [])

/-- One iteration of the loop of `processCertificate`. -/
def processBlock {Cert Lint PErr : Type} (fl : Flags) (T : Transform Cert Lint PErr)
    (raw : Bytes) : Step PErr :=
  match parseAndLint fl T raw with
  | .error s => s
  | .ok (r, log) =>
    match appendZLintToCertificate T r.Raw r.Parsed r.ZLint r.ParseError with
    | none => .fatal (log ++ [.fatal "could not marshal output JSON"])
    | some jsonResult => .send jsonResult log

/-- A run of a goroutine: the values it sent, the log it wrote, and whether it
ended the process through `log.Fatal` (otherwise it returned). -/
structure Run (PErr : Type) where
  out : List Bytes
  log : List (LogEntry PErr)
  exited : Bool
deriving Repr, DecidableEq

/-- Function `processCertificate` on the blocks it receives from `in`, in order:
`for raw := range in` ends when the channel is closed and drained. -/
def processCertificate {Cert Lint PErr : Type} (fl : Flags) (T : Transform Cert Lint PErr) :
    List Bytes → Run PErr
  | [] => { out := [], log := [], exited := false }
  | raw :: rest =>
    match processBlock fl T raw with
    | .fatal log => { out := [], log := log, exited := true }
    | .skip log =>
      let r := processCertificate fl T rest
      { out := r.out, log := log ++ r.log, exited := r.exited }
    | .send json log =>
      let r := processCertificate fl T rest
      { out := json :: r.out, log := log ++ r.log, exited := r.exited }

/-! ## cmd/zcertificate/main.go: the sink -/

/-- What a call of `Write` does: it returns the count written and an error
(`none` for nil), with the stream in a new state, or it does not return. A
write to a broken pipe on file descriptor 1 or 2 (`os.Stdout`, the default
output, or `os.Stderr`) raises SIGPIPE, and a Go program that never calls
`signal.Notify`, as this one, is ended by it; on any other descriptor the write
returns the error `EPIPE`. -/
inductive WriteResult (σ WErr : Type) where
  | returned (stream : σ) (n : Nat) (err : Option WErr)
  | killed
deriving Repr, DecidableEq

/-- An `io.Writer`: `Write` on a stream state and a byte slice. -/
structure Writer (σ WErr : Type) where
  Write : σ → Bytes → WriteResult σ WErr

/-- A run of `writeOutput`: the last state of the stream, the arguments of the
calls of `Write` in order, and whether the process was ended. -/
structure SinkRun (σ : Type) where
  stream : σ
  calls : List Bytes
  exited : Bool

/-- Function `writeOutput` on the records it receives from `in`, in order: both
results of each `Write` that returns are discarded (`_, _ = out.Write(...)`); a
`Write` that does not return ends the run. -/
def writeOutput {σ WErr : Type} (w : Writer σ WErr) : σ → List Bytes → SinkRun σ
  | s, [] => { stream := s, calls := [], exited := false }
  | s, json :: rest =>
    match w.Write s json with
    | .killed => { stream := s, calls := [json], exited := true }
    | .returned s1 _ _ =>
      match w.Write s1 [10] with
      | .killed => { stream := s1, calls := [json, [10]], exited := true }
      | .returned s2 _ _ =>
        let r := writeOutput w s2 rest
        { stream := r.stream, calls := json :: [10] :: r.calls, exited := r.exited }

/-- An in-memory stream: `Write` appends all the bytes and returns no error. -/
def bufferWriter : Writer Bytes Unit where
  Write := fun s p => .returned (s ++ p) p.length none

/-- A stream that is broken for good: every `Write` writes nothing and returns
an error (a full disk, a closed file, a broken pipe on a created file). -/
def brokenWriter : Writer Bytes Unit where
  Write := fun s _ => .returned s 0 (some ())

/-- Standard output as a pipe whose reader goes away once the stream holds
`limit` bytes: until then `Write` appends, after that it raises SIGPIPE. -/
def pipeWriter (limit : Nat) : Writer Bytes Unit where
  Write := fun s p => if s.length < limit then .returned (s ++ p) p.length none else .killed

/-! ## cmd/main.go: the legacy sink -/

/-- The file system as `WriteOutput` sees it: the state of standard output and
`os.Create` (`none` when it returns an error). -/
structure FileSystem (σ : Type) where
  stdout : σ
  Create : String → Option σ

/-- Function `WriteOutput` of `cmd/main.go`: choose the stream by name, then
write each record and a newline, ignoring the results of `Write`. -/
def WriteOutput {σ WErr : Type} (w : Writer σ WErr) (fs : FileSystem σ)
    (records : List Bytes) (outputFileName : String) : Option (SinkRun σ) :=
  if outputFileName = "" ∨ outputFileName = "-" then
    some (writeOutput w fs.stdout records)
  else
    match fs.Create outputFileName with
    | none => none  -- log.Fatal("Unable to create output file: ", err)
    | some f => some (writeOutput w f records)

/-! ## cmd/zcertificate/main.go: the sequential control flow of `main` -/

/-- The three wait groups of `main`. -/
inductive WG where
  | readerWG | procWG | writerWG
deriving Repr, DecidableEq

/-- The two channels of `main`: queue A and queue B. -/
inductive Chan where
  | incomingCertBytes | outgoingJSONBytes
deriving Repr, DecidableEq

/-- The goroutines `main` starts. -/
inductive Goroutine where
  | BreakPEMAsync | BreakBase64ByLineAsync | writeOutput | processCertificate
deriving Repr, DecidableEq

/-- The effects of `main`, in program order. -/
inductive Action where
  | setLevel
  | gomaxprocs (n : Int)
  /-- A call of `log.Fatal` or `log.Fatalf`: logs and exits with a non-zero code. -/
  | fatal (msg : String)
  | info (msg : String)
  | useStdin
  | openInput (path : String)
  | useStdout
  | createOutput (path : String)
  | makeChan (c : Chan) (capacity : Int)
  /-- A runtime panic (`make` with a negative size). -/
  | runtimePanic
  | wgAdd (wg : WG) (n : Int)
  | go (g : Goroutine)
  | wgWait (wg : WG)
  | close (c : Chan)
  | closeOutput
  | closeInput
deriving Repr, DecidableEq

/-- What `main` reads besides the flags: the positional arguments and whether
`os.Open` and `os.Create` succeed on a path. -/
structure World where
  args : List String
  openOK : String → Bool
  createOK : String → Bool

/-- The message of the flag validation of `main`. -/
def bothPoliciesMsg : String :=
  "at most one of -json-parse-errors and -fatal-parse-errors may be specified"

/-- Lines 161-184 of `main`: the sink, the workers, and the shutdown order; then
the deferred closes, last deferred first. -/
def mainShutdown (fl : Flags) (inputOpened outputCreated : Bool) : List Action :=
  [.wgAdd .writerWG 1, .go .writeOutput, .wgAdd .procWG fl.workers]
  ++ List.replicate fl.workers.toNat (.go .processCertificate)
  ++ [.wgWait .readerWG, .close .incomingCertBytes,
      .wgWait .procWG, .close .outgoingJSONBytes,
      .wgWait .writerWG]
  ++ (if outputCreated then [.closeOutput] else [])
  ++ (if inputOpened then [.closeInput] else [])

/-- Lines 141-159 of `main`: the channels and the input reader, then the rest.
`strings.ToLower` agrees with ASCII lower-casing on every string it maps to
`pem` or `base64`. -/
def mainPipeline (fl : Flags) (inputOpened outputCreated : Bool) : List Action :=
  if fl.workers * 4 < 0 then
    [.runtimePanic]
  else
    [.makeChan .incomingCertBytes (fl.workers * 4),
     .makeChan .outgoingJSONBytes (fl.workers * 4),
     .wgAdd .readerWG 1]
    ++ (if fl.format.toLower = "pem" then
          Action.go .BreakPEMAsync :: mainShutdown fl inputOpened outputCreated
        else if fl.format.toLower = "base64" then
          Action.go .BreakBase64ByLineAsync :: mainShutdown fl inputOpened outputCreated
        else
          [.fatal "invalid --format"])

/-- Lines 126-139 of `main`: open the output stream, then run the pipeline. -/
def mainOutput (fl : Flags) (w : World) (inputOpened : Bool) : List Action :=
  if fl.outputFileName = "" ∨ fl.outputFileName = "-" then
    [.useStdout, .info "writing to stdout"] ++ mainPipeline fl inputOpened false
  else if w.createOK fl.outputFileName then
    [.createOutput fl.outputFileName, .info "writing to file"]
      ++ mainPipeline fl inputOpened true
  else
    [.createOutput fl.outputFileName, .fatal "unable to create output file"]

/-- Lines 110-124 of `main`: open the input stream, then go on. -/
def mainInput (fl : Flags) (w : World) : List Action :=
  match w.args with
  | [] => [.useStdin, .info "reading from stdin"] ++ mainOutput fl w false
  | arg0 :: _ =>
    if arg0 = "-" then
      [.useStdin, .info "reading from stdin"] ++ mainOutput fl w false
    else if w.openOK arg0 then
      [.openInput arg0, .info "reading from file"] ++ mainOutput fl w true
    else
      [.openInput arg0, .fatal "unable to open input file"]

/-- Function `main` of `cmd/zcertificate/main.go`: its effects in program order.
A trace that ends in `fatal` or `runtimePanic` is a run that stopped there. -/
def main (fl : Flags) (w : World) : List Action :=
  [.setLevel, .gomaxprocs fl.numProcs]
  ++ (if fl.jsonIfParseFail && fl.crashIfParseFail then
        [.fatal bothPoliciesMsg]
      else
        mainInput fl w)

/-- Whether an action opens a stream, creates a queue or starts a goroutine. -/
def Action.startsPipelineWork : Action → Bool
  | .useStdin | .openInput _ | .useStdout | .createOutput _ => true
  | .makeChan _ _ | .go _ => true
  | _ => false

/-! ## encoding/base64: `base64.StdEncoding`

`ReadCertificateBase64` calls `base64.StdEncoding.DecodeString` of the Go
standard library.  `StdEncoding` is the RFC 4648 alphabet with `=` padding and
without strict mode: the decoder skips `\r` and `\n` wherever they occur and does
not look at the unused low bits of the last sextet before the padding. -/

/-- The standard alphabet `encodeStd`: the character of a sextet. -/
def encodeStd (v : Nat) : Nat :=
  if v < 26 then 65 + v
  else if v < 52 then 97 + (v - 26)
  else if v < 62 then 48 + (v - 52)
  else if v = 62 then 43
  else 47

/-- The table `decodeMap` of `StdEncoding`: the sextet of a character of the
alphabet, `none` for every other byte (the table holds `0xff` there). -/
def decodeMap (c : Nat) : Option Nat :=
  if 65 ≤ c ∧ c ≤ 90 then some (c - 65)
  else if 97 ≤ c ∧ c ≤ 122 then some (c - 97 + 26)
  else if 48 ≤ c ∧ c ≤ 57 then some (c - 48 + 52)
  else if c = 43 then some 62
  else if c = 47 then some 63
  else none

/-- The padding character `=` of `StdEncoding`. -/
def padChar : Nat := 61

/-- Method `Encoding.Encode` of `StdEncoding`: three bytes give four characters;
a last group of one or two bytes gives two or three characters and padding. -/
def EncodeToString : Bytes → Bytes
  | [] => []
  | [b0] =>
    let val := b0 * 65536
    [encodeStd (val / 262144 % 64), encodeStd (val / 4096 % 64), padChar, padChar]
  | [b0, b1] =>
    let val := b0 * 65536 + b1 * 256
    [encodeStd (val / 262144 % 64), encodeStd (val / 4096 % 64),
     encodeStd (val / 64 % 64), padChar]
  | b0 :: b1 :: b2 :: rest =>
    let val := b0 * 65536 + b1 * 256 + b2
    encodeStd (val / 262144 % 64) :: encodeStd (val / 4096 % 64)
      :: encodeStd (val / 64 % 64) :: encodeStd (val % 64) :: EncodeToString rest

/-- The loops `for si < len(src) && (src[si] == '\n' || src[si] == '\r')` of
`decodeQuantum`: what is left of the source after the newlines. -/
def skipNewlines : Bytes → Bytes
  | [] => []
  | c :: rest => if c = 10 ∨ c = 13 then skipNewlines rest else c :: rest

/-- The end of `decodeQuantum`: the first `dlen - 1` bytes of the 24-bit value
of the sextets read (missing sextets are zero). The low bits that do not make a
whole byte are dropped without a check (`enc.strict` is false). -/
def quantumBytes (dbuf : List Nat) (dlen : Nat) : Bytes :=
  let val := dbuf.getD 0 0 * 262144 + dbuf.getD 1 0 * 4096 + dbuf.getD 2 0 * 64 + dbuf.getD 3 0
  [val / 65536 % 256, val / 256 % 256, val % 256].take (dlen - 1)

/-- Method `Encoding.Decode` of `StdEncoding` (the loop over `decodeQuantum`;
the 8- and 4-character fast paths compute the same): `dbuf` holds the sextets of
the quantum being read. `none` is a `CorruptInputError`. -/
def decodeQuanta : Bytes → List Nat → Option Bytes
  | [], dbuf => if dbuf.length = 0 then some [] else none
  | c :: rest, dbuf =>
    match decodeMap c with
    | some v =>
      if dbuf.length = 3 then
        (decodeQuanta rest []).map (fun tail => quantumBytes (dbuf ++ [v]) 4 ++ tail)
      else
        decodeQuanta rest (dbuf ++ [v])
    | none =>
      if c = 10 ∨ c = 13 then decodeQuanta rest dbuf
      else if c ≠ padChar then none
      else if dbuf.length < 2 then none  -- incorrect padding
      else if dbuf.length = 2 then
        -- "==" is expected, the first "=" is already consumed
        match skipNewlines rest with
        | [] => none  -- not enough padding
        | c2 :: rest2 =>
          if c2 ≠ padChar then none  -- incorrect padding
          else if skipNewlines rest2 ≠ [] then none  -- trailing garbage
          else some (quantumBytes dbuf 2)
      else
        if skipNewlines rest ≠ [] then none  -- trailing garbage
        else some (quantumBytes dbuf 3)

/-- Method `base64.StdEncoding.DecodeString`: the decoded bytes, or `none` when
it returns an error. -/
def DecodeString (s : Bytes) : Option Bytes :=
  decodeQuanta s []

/-! ## encoding/pem: `pem.Decode`

`ScannerSplitPEM` and `ReadCertificatePEM` call `pem.Decode` of the Go standard
library (the loop of Go 1.19 and later; the recursive `decodeError` of earlier
releases computes the same). -/

/-- The marker `pemStart = "\n-----BEGIN "`. -/
def pemStart : Bytes := [10, 45, 45, 45, 45, 45, 66, 69, 71, 73, 78, 32]

/-- The marker `pemEnd = "\n-----END "`. -/
def pemEnd : Bytes := [10, 45, 45, 45, 45, 45, 69, 78, 68, 32]

/-- The marker `pemEndOfLine = "-----"`. -/
def pemEndOfLine : Bytes := [45, 45, 45, 45, 45]

/-- The separator `colon = ":"`. -/
def colon : Bytes := [58]

/-- Function `bytes.HasPrefix`. -/
def HasPrefix (s pre : Bytes) : Bool := pre.isPrefixOf s

/-- Function `bytes.HasSuffix`. -/
def HasSuffix (s suf : Bytes) : Bool := suf.isSuffixOf s

/-- Function `bytes.Index`: the index of the first instance of `sep` in `s`,
`none` for `-1`. -/
def Index (sep : Bytes) : Bytes → Option Nat
  | [] => if sep.isPrefixOf [] then some 0 else none
  | c :: t => if sep.isPrefixOf (c :: t) then some 0 else (Index sep t).map (· + 1)

/-- Function `bytes.Cut`: the text before and after the first instance of `sep`. -/
def Cut (s sep : Bytes) : Option (Bytes × Bytes) :=
  (Index sep s).map (fun i => (s.take i, s.drop (i + sep.length)))

/-- Function `bytes.TrimRight(s, " \t")`. -/
def trimRightSpaceTab (s : Bytes) : Bytes :=
  (s.reverse.dropWhile (fun c => c = 32 ∨ c = 9)).reverse

/-- ASCII white space, as `bytes.TrimSpace` sees it. -/
def isSpace (c : Nat) : Bool :=
  c = 9 ∨ c = 10 ∨ c = 11 ∨ c = 12 ∨ c = 13 ∨ c = 32

/-- Function `bytes.TrimSpace` on ASCII text (applied to header keys and values
only). -/
def TrimSpace (s : Bytes) : Bytes :=
  ((s.dropWhile isSpace).reverse.dropWhile isSpace).reverse

/-- Function `getLine` of `encoding/pem`: the first line without its trailing
spaces, tabs and line end (`\n` or `\r\n`), and what follows the line end. -/
def getLine (data : Bytes) : Bytes × Bytes :=
  match data.dropWhile (fun c => c ≠ 10) with
  | [] => (trimRightSpaceTab data, [])
  | _ :: rest =>
    let line := data.takeWhile (fun c => c ≠ 10)
    (trimRightSpaceTab (if line.getLast? = some 13 then line.dropLast else line), rest)

/-- The line that `getLine` returns for the text `L` before a newline: without a
`\r` at its end, then without trailing spaces and tabs. -/
def lineBody (L : Bytes) : Bytes :=
  trimRightSpaceTab (if L.getLast? = some 13 then L.dropLast else L)

/-- Function `removeSpacesAndTabs` of `encoding/pem`. -/
def removeSpacesAndTabs (data : Bytes) : Bytes :=
  data.filter (fun b => ¬ (b = 32 ∨ b = 9))

/-- A `pem.Block` (`Typ` is its field `Type`); `Headers` is the map as the list
of its insertions. -/
structure Block where
  Typ : Bytes
  Headers : List (Bytes × Bytes)
  Bytes : Bytes
deriving Repr, DecidableEq

/-- The header loop of `pem.Decode`: lines with a colon are headers; the loop
stops at the first line without one and leaves it unread. `none` when the input
ends first (`return nil, data`). `fuel` bounds the iterations; each consumes a
byte, so `rest.length` is enough. -/
def parseHeaders : Nat → Bytes → List (Bytes × Bytes) → Option (List (Bytes × Bytes) × Bytes)
  | 0, _, _ => none
  | fuel + 1, rest, headers =>
    if rest.length = 0 then none
    else
      match Cut (getLine rest).1 colon with
      | none => some (headers, rest)
      | some (key, val) =>
        parseHeaders fuel (getLine rest).2 (headers ++ [(TrimSpace key, TrimSpace val)])

/-- What one iteration of the loop of `pem.Decode` does. -/
inductive Attempt where
  /-- No `-----BEGIN ` is left: `return nil, data`. -/
  | notFound
  /-- The input ended in the headers: `return nil, data`. -/
  | eof
  /-- A `continue`: the loop goes on from `rest`. -/
  | retry (rest : Bytes)
  /-- The `return p, rest`. -/
  | done (p : Block) (rest : Bytes)
deriving Repr, DecidableEq

/-- The `endIndex` and `endTrailerIndex` of `pem.Decode`: where the END marker
starts in `rest` and where it stops. Without headers the marker may stand at the
very start of `rest`, with no newline before it. `none` when `endIndex < 0`. -/
def findEnd (headers : List (Bytes × Bytes)) (rest : Bytes) : Option (Nat × Nat) :=
  if headers.length = 0 ∧ HasPrefix rest pemEnd.tail then
    some (0, pemEnd.length - 1)
  else
    (Index pemEnd rest).map (fun endIndex => (endIndex, endIndex + pemEnd.length))

/-- The part of an iteration of `pem.Decode` after the headers: find the END
line, check its type and that only white space follows on its line, and decode
the base64 body. -/
def decodeBody (typeLine : Bytes) (headers : List (Bytes × Bytes)) (rest : Bytes) : Attempt :=
  match findEnd headers rest with
  | none => .retry rest
  | some (endIndex, endTrailerIndex) =>
    let endTrailer := rest.drop endTrailerIndex
    let endTrailerLen := typeLine.length + pemEndOfLine.length
    if endTrailer.length < endTrailerLen then .retry rest
    else
      let restOfEndLine := endTrailer.drop endTrailerLen
      let endTrailer := endTrailer.take endTrailerLen
      if !HasPrefix endTrailer typeLine || !HasSuffix endTrailer pemEndOfLine then .retry rest
      else if (getLine restOfEndLine).1.length ≠ 0 then .retry rest
      else
        match decodeQuanta (removeSpacesAndTabs (rest.take endIndex)) [] with
        | none => .retry rest
        | some bytes =>
          .done { Typ := typeLine, Headers := headers, Bytes := bytes }
            (getLine (rest.drop (endIndex + pemEnd.length - 1))).2

/-- The start of an iteration of `pem.Decode`: skip to just after the next
`-----BEGIN `, which needs no newline before it at the very start of `rest`;
`none` when there is none. -/
def findStart (rest : Bytes) : Option Bytes :=
  if HasPrefix rest pemStart.tail then some (rest.drop (pemStart.length - 1))
  else (Cut rest pemStart).map (fun ba => ba.2)

/-- One iteration of the loop of `pem.Decode` on what is left of the input. -/
def attempt (rest : Bytes) : Attempt :=
  match findStart rest with
  | none => .notFound
  | some rest1 =>
    let typeLine := (getLine rest1).1
    let rest2 := (getLine rest1).2
    if !HasSuffix typeLine pemEndOfLine then .retry rest2
    else
      match parseHeaders rest2.length rest2 [] with
      | none => .eof
      | some (headers, rest3) =>
        decodeBody (typeLine.take (typeLine.length - pemEndOfLine.length)) headers rest3

/-- The loop of `pem.Decode`: `none` stands for `return nil, data`. `fuel`
bounds the iterations; each consumes a byte, so `rest.length + 1` is enough. -/
def decodeLoop : Nat → Bytes → Option (Block × Bytes)
  | 0, _ => none
  | fuel + 1, rest =>
    match attempt rest with
    | .notFound => none
    | .eof => none
    | .retry rest2 => decodeLoop fuel rest2
    | .done p rest2 => some (p, rest2)

/-- Function `pem.Decode`: the first block of `data` and the input after it, or
`nil` and `data`. -/
def Decode (data : Bytes) : Option Block × Bytes :=
  match decodeLoop (data.length + 1) data with
  | none => (none, data)
  | some (p, rest) => (some p, rest)

/-! ## zcertificate.go: `ScannerSplitPEM` -/

/-- Function `ScannerSplitPEM`: `(advance, token, err)`; `err` is always nil. -/
def ScannerSplitPEM (data : Bytes) (_atEOF : Bool) : Nat × Option Bytes × Option Unit :=
  match Decode data with
  | (some _, rest) =>
    let size := data.length - rest.length
    (size, some (data.take size), none)
  | (none, _) => (0, none, none)

/-! ## bufio: `bufio.Scanner` over a file

`ReadCertificatePEM` drives a `bufio.Scanner` of the Go standard library with
`ScannerSplitPEM` as its split function. The scanner holds a window of unread
bytes in a buffer that starts at 4096 bytes and doubles up to
`MaxScanTokenSize`; it reads from the file until the split function finds a
token, the file ends, or the buffer is full at its largest size. -/

/-- An `io.Reader` over a file: what is left of the content, and how many bytes
the next reads deliver at most (a read delivers at least one byte while content
is left, and never more than asked for; past the list, a read delivers all that
is asked for). -/
structure Reader where
  remaining : Bytes
  chunks : List Nat
deriving Repr, DecidableEq

/-- Method `Read` with room for `n` bytes: the bytes read, whether the result
is `io.EOF`, and the reader afterwards. -/
def Reader.Read (r : Reader) (n : Nat) : Bytes × Bool × Reader :=
  if r.remaining.length = 0 then ([], true, r)
  else
    let k := min n (max 1 (r.chunks.headD n))
    (r.remaining.take k, false, { remaining := r.remaining.drop k, chunks := r.chunks.tail })

/-- The value of `s.err` of a scanner. -/
inductive ScanErr where
  | EOF | ErrTooLong | ErrAdvanceTooFar | splitError
deriving Repr, DecidableEq

/-- The constant `bufio.MaxScanTokenSize`. -/
def MaxScanTokenSize : Nat := 64 * 1024

/-- The constant `startBufSize` of `bufio`. -/
def startBufSize : Nat := 4096

/-- A `bufio.Scanner`: its reader, the window `s.buf[s.start:s.end]` of unread
bytes, `s.start`, `len(s.buf)`, `s.err` and `s.empties`. -/
structure Scanner where
  r : Reader
  window : Bytes
  start : Nat
  bufLen : Nat
  err : Option ScanErr
  empties : Nat
deriving Repr, DecidableEq

/-- Function `bufio.NewScanner`. -/
def NewScanner (r : Reader) : Scanner :=
  { r := r, window := [], start := 0, bufLen := 0, err := none, empties := 0 }

/-- What one iteration of the loop of `Scan` does. -/
inductive ScanStep where
  /-- The `return true`, with `s.token`. -/
  | token (t : Bytes) (s : Scanner)
  /-- The `return false`. -/
  | stop (s : Scanner)
  /-- The loop goes round again. -/
  | more (s : Scanner)
  /-- The panic for too many empty tokens without progressing. -/
  | tooManyEmpties
deriving Repr, DecidableEq

/-- The read at the end of an iteration of `Scan`. -/
def Scanner.readMore (s : Scanner) : ScanStep :=
  match s.r.Read (s.bufLen - (s.start + s.window.length)) with
  | (chunk, eof, r2) =>
    .more { s with r := r2, window := s.window ++ chunk,
                   err := if eof then some .EOF else none }

/-- The shift in `Scan`: the window moves to the start of the buffer when it
ends at the end of the buffer or starts past the middle. -/
def Scanner.shift (s : Scanner) : Scanner :=
  if s.start > 0 ∧ (s.start + s.window.length = s.bufLen ∨ s.start > s.bufLen / 2) then
    { s with start := 0 }
  else s

/-- The resize in `Scan`: a new buffer of twice the size (`startBufSize` at
first), at most `MaxScanTokenSize`, with the window at its start. -/
def Scanner.grow (s : Scanner) : Scanner :=
  { s with
    bufLen := min (if s.bufLen * 2 = 0 then startBufSize else s.bufLen * 2) MaxScanTokenSize,
    start := 0 }

/-- The second half of an iteration of `Scan`, reached when the split function
gave no token: stop at end of file, else make room (shift the window, double a
full buffer, or give up with `ErrTooLong` when it is full at `MaxScanTokenSize`)
and read. -/
def Scanner.fill (s : Scanner) : ScanStep :=
  if s.err.isSome then .stop { s with start := 0, window := [] }
  else if s.shift.start + s.shift.window.length = s.shift.bufLen then
    if s.shift.bufLen ≥ MaxScanTokenSize then .stop { s.shift with err := some .ErrTooLong }
    else s.shift.grow.readMore
  else s.shift.readMore

/-- The largest number of consecutive empty tokens, `maxConsecutiveEmptyReads`. -/
def maxConsecutiveEmptyReads : Nat := 100

/-- One iteration of the loop of `Scan` with split function `split`: offer the
window to `split` when it is not empty or the input has ended; return a token,
or go on to `fill`. -/
def Scanner.step (split : Bytes → Bool → Nat × Option Bytes × Option Unit) (s : Scanner) :
    ScanStep :=
  if s.window.length > 0 ∨ s.err.isSome then
    match split s.window s.err.isSome with
    | (_, _, some _) => .stop { s with err := some .splitError }
    | (advance, token, none) =>
      if advance > s.window.length then .stop { s with err := some .ErrAdvanceTooFar }
      else
        let s1 := { s with start := s.start + advance, window := s.window.drop advance }
        match token with
        | some t =>
          if s.err.isNone ∨ advance > 0 then .token t { s1 with empties := 0 }
          else if s1.empties + 1 > maxConsecutiveEmptyReads then .tooManyEmpties
          else .token t { s1 with empties := s1.empties + 1 }
        | none => s1.fill
  else s.fill

/-- Method `Scan`: the token when it returns true. `fuel` bounds the
iterations; each reads a byte or ends, so the bytes left to read plus two are
enough. -/
def Scanner.Scan (split : Bytes → Bool → Nat × Option Bytes × Option Unit) :
    Nat → Scanner → Option Bytes × Scanner
  | 0, s => (none, s)
  | fuel + 1, s =>
    match s.step split with
    | .token t s2 => (some t, s2)
    | .stop s2 => (none, s2)
    | .more s2 => Scanner.Scan split fuel s2
    | .tooManyEmpties => (none, s)

/-! ## bufio: `bufio.ScanLines` -/

/-- Function `dropCR` of `bufio`: drop a final carriage return. -/
def dropCR (data : Bytes) : Bytes :=
  if data.getLast? = some 13 then data.dropLast else data

/-- Function `bufio.ScanLines`, the split function of a new `bufio.Scanner`:
the next line without its end-of-line marker, or, at the end of the input, what
is left as a last line. -/
def ScanLines (data : Bytes) (atEOF : Bool) : Nat × Option Bytes × Option Unit :=
  if atEOF ∧ data.length = 0 then (0, none, none)
  else if data.indexOf 10 < data.length then
    (data.indexOf 10 + 1, some (dropCR (data.take (data.indexOf 10))), none)
  else if atEOF then (data.length, some (dropCR data), none)
  else (0, none, none)

/-! ## cmd/main.go: `ReadCertificateBase64` -/

/-- A run of an input reader: the blocks sent on `out`, in order, and whether it
ended the process through `log.Fatal` (otherwise it returned). -/
structure ReaderRun where
  out : List Bytes
  exited : Bool
deriving Repr, DecidableEq

/-- The loop `for scanner.Scan()` of `ReadCertificateBase64`: the blocks sent on
`out`, and the scanner when `Scan` has returned false. A line that does not
decode is logged and skipped. `fuel` bounds the tokens. -/
def scanBase64 : Nat → Scanner → List Bytes × Scanner
  | 0, s => ([], s)
  | fuel + 1, s =>
    match Scanner.Scan ScanLines (s.r.remaining.length + 2) s with
    | (none, s2) => ([], s2)
    | (some token, s2) =>
      match DecodeString token with
      | none => scanBase64 fuel s2  -- log.Warnf, continue
      | some certBytes => (certBytes :: (scanBase64 fuel s2).1, (scanBase64 fuel s2).2)

/-- Method `Err` of a scanner: the first error that is not `io.EOF`. -/
def Scanner.Err (s : Scanner) : Option ScanErr :=
  if s.err = some .EOF then none else s.err

/-- Function `ReadCertificateBase64` on a file (`none` when `os.Open` returns an
error) whose content is delivered in reads of at most `chunks` bytes: each line
the scanner yields is decoded and sent, or logged and skipped when it does not
decode; an error of the scanner, and a file that does not open, end the process
with `log.Fatal`. -/
def ReadCertificateBase64 (file : Option Bytes) (chunks : List Nat) : ReaderRun :=
  match file with
  | none => { out := [], exited := true }  -- log.Fatal("error reading file: ", err)
  | some content =>
    let r := scanBase64 (content.length + 1) (NewScanner { remaining := content, chunks := chunks })
    { out := r.1, exited := r.2.Err.isSome }  -- log.Fatal("error with scanning file: ", err)

/-- The content of a file of lines, each ended by a newline, and a last line
without one (empty when the file ends with a newline). -/
def fileOfLines (lines : List Bytes) (last : Bytes) : Bytes :=
  lines.flatMap (fun l => l ++ [10]) ++ last

/-! ## cmd/main.go: `ReadCertificatePEM` -/

/-- The loop `for scanner.Scan()` of `ReadCertificatePEM`: the blocks sent on
`out`. A token that `pem.Decode` rejects is logged and skipped. `fuel` bounds
the tokens. -/
def scanPEM : Nat → Scanner → List Bytes
  | 0, _ => []
  | fuel + 1, s =>
    match Scanner.Scan ScannerSplitPEM (s.r.remaining.length + 2) s with
    | (none, _) => []
    | (some token, s2) =>
      match (Decode token).1 with
      | none => scanPEM fuel s2
      | some certBytes => certBytes.Bytes :: scanPEM fuel s2

/-- Function `ReadCertificatePEM` on a file that opens, with content `file`
delivered in reads of at most `chunks` bytes: the blocks sent on `out`, in
order. -/
def ReadCertificatePEM (file : Bytes) (chunks : List Nat) : List Bytes :=
  scanPEM (file.length + 1) (NewScanner { remaining := file, chunks := chunks })

/-! ## Well-formed PEM input

The words of the claim about `ReadCertificatePEM`, made precise: a stream of
conforming blocks, each on lines of its own, with junk between them. -/

/-- Bytes without a BEGIN marker: `-----BEGIN ` neither starts them nor follows
a newline in them. -/
def Junk (j : Bytes) : Prop :=
  HasPrefix j pemStart.tail = false ∧ Index pemStart j = none

/-- A conforming block, from its BEGIN line to the last dash of its END line:
`-----BEGIN typ-----`, a newline, the body, `-----END typ-----`. -/
def blockCore (typ body : Bytes) : Bytes :=
  pemStart.tail ++ typ ++ pemEndOfLine ++ 10 :: (body ++ pemEnd.tail ++ typ ++ pemEndOfLine)

/-- A conforming block of a stream with the junk in front of it. -/
structure Piece where
  junk : Bytes
  typ : Bytes
  body : Bytes
  payload : Bytes
deriving Repr, DecidableEq

/-- The junk in front of the block has no BEGIN marker and ends at a line end;
the type has no newline and no colon; the body is lines without a dash or a
colon and its base64 text decodes to the payload; the junk and the block fit in
the scanner's largest buffer. -/
def Piece.Conforming (pc : Piece) : Prop :=
  Junk pc.junk ∧ (pc.junk = [] ∨ pc.junk.getLast? = some 10) ∧
  10 ∉ pc.typ ∧ 58 ∉ pc.typ ∧
  45 ∉ pc.body ∧ 58 ∉ pc.body ∧ (pc.body = [] ∨ pc.body.getLast? = some 10) ∧
  decodeQuanta (removeSpacesAndTabs pc.body.dropLast) [] = some pc.payload ∧
  pc.junk.length + (blockCore pc.typ pc.body).length + 1 ≤ MaxScanTokenSize

/-- The stream of some pieces, each block followed by a newline, and the
trailing junk after the last. -/
def pemStream : List Piece → Bytes → Bytes
  | [], trailing => trailing
  | pc :: rest, trailing =>
    pc.junk ++ blockCore pc.typ pc.body ++ 10 :: pemStream rest trailing

/-- The scanner has `W` left to deliver: its window followed by what its reader
still holds. It has met no error, or the end of the file with nothing left to
read; the window lies within the buffer, which is no larger than
`MaxScanTokenSize`. -/
def Scanner.Holds (s : Scanner) (W : Bytes) : Prop :=
  s.window ++ s.r.remaining = W ∧
  (s.err = none ∨ (s.err = some .EOF ∧ s.r.remaining = [])) ∧
  s.start + s.window.length ≤ s.bufLen ∧ s.bufLen ≤ MaxScanTokenSize

/-! ## cmd/zcertificate/main.go: the pipeline of `main` as a transition system

Lines 141-184 of `main` and the goroutines it starts, one atomic step at a time.
A channel is its buffer and the number of times it was closed; a `WaitGroup` is
its counter. A send on a closed channel, a second close and a negative counter
are runtime panics; `log.Fatal` exits the process. -/

/-- Where `main` stands, from line 147 (`readerWG.Add(1)`) on. -/
inductive MainPc where
  /-- Line `readerWG.Add(1)`. -/
  | addReader
  /-- The `go` statement of the input reader. -/
  | goReader
  /-- Line `writerWG.Add(1)`. -/
  | addWriter
  /-- Line `go writeOutput(...)`. -/
  | goWriter
  /-- Line `procWG.Add(workers)`. -/
  | addProc
  /-- The loop of `go processCertificate(...)`, with `started` workers so far. -/
  | goWorkers (started : Nat)
  /-- Line `readerWG.Wait()`. -/
  | waitReader
  /-- Line `close(incomingCertBytes)`. -/
  | closeA
  /-- Line `procWG.Wait()`. -/
  | waitProc
  /-- Line `close(outgoingJSONBytes)`. -/
  | closeB
  /-- Line `writerWG.Wait()`. -/
  | waitWriter
  /-- The end of `main`. -/
  | returned
deriving Repr, DecidableEq

/-- The position of a program point in `main`. -/
def MainPc.rank : MainPc → Nat
  | .addReader => 0
  | .goReader => 1
  | .addWriter => 2
  | .goWriter => 3
  | .addProc => 4
  | .goWorkers _ => 5
  | .waitReader => 6
  | .closeA => 7
  | .waitProc => 8
  | .closeB => 9
  | .waitWriter => 10
  | .returned => 11

/-- Modelled from the spec: the Segmenter (`zcertificate.BreakPEMAsync` and
`BreakBase64ByLineAsync`, which are not among the sources) puts the blocks of
its input on queue A, in order, and signals completion once, with `wg.Done()`,
when it returns, or ends the process; `ReadCertificatePEM` and
`ReadCertificateBase64` of `cmd/main.go` have this shape. -/
inductive SegPc where
  | notStarted
  | running (todo : List Bytes)
  | finished
deriving Repr, DecidableEq

/-- Where a `processCertificate` goroutine stands: at the receive of its
`range` loop, in the body with a block, at the send of a record, or returned
(`wg.Done()` called). -/
inductive WorkerPc where
  | receiving
  | working (raw : Bytes)
  | sending (json : Bytes)
  | finished
deriving Repr, DecidableEq

/-- Where the `writeOutput` goroutine stands. -/
inductive SinkPc where
  | notStarted
  | receiving
  | writing (json : Bytes)
  | finished
deriving Repr, DecidableEq

/-- The record the sink has received and not yet written. -/
def SinkPc.holding : SinkPc → List Bytes
  | .writing json => [json]
  | _ => []

/-- The state of the pipeline. `putA`, `takenA`, `putB` and `takenB` record
every value sent on and received from the two channels, in order, and
`written` the records the sink has written, each with its newline. -/
structure Pipeline where
  mainPc : MainPc
  seg : SegPc
  workers : List WorkerPc
  sink : SinkPc
  queueA : List Bytes
  queueB : List Bytes
  closesA : Nat
  closesB : Nat
  readerWG : Nat
  procWG : Nat
  writerWG : Nat
  putA : List Bytes
  takenA : List Bytes
  putB : List Bytes
  takenB : List Bytes
  written : List Bytes
  exited : Bool
  panicked : Bool
deriving Repr, DecidableEq

/-- The state at line 147, with both channels made and nothing started. -/
def Pipeline.init : Pipeline :=
  { mainPc := .addReader, seg := .notStarted, workers := [], sink := .notStarted,
    queueA := [], queueB := [], closesA := 0, closesB := 0,
    readerWG := 0, procWG := 0, writerWG := 0,
    putA := [], takenA := [], putB := [], takenB := [], written := [],
    exited := false, panicked := false }

/-- The number of workers that have returned. -/
def finishedCount : List WorkerPc → Nat
  | [] => 0
  | w :: ws => (if w = .finished then 1 else 0) + finishedCount ws

/-- One atomic step of one goroutine of the pipeline of `main` under the flags
`fl`, where `input` is the sequence of blocks the Segmenter sends.

A buffered channel of capacity `workers * 4` accepts a send while it holds fewer
values than its capacity and blocks the sender otherwise; a receive takes the
oldest value, blocks on an empty open channel, and ends the `range` loop on an
empty closed channel. With `workers = 0` the channels are unbuffered, queue A
has no receiver and queue B has no sender, so a send blocks. `Wait` returns when
the counter is zero. The steps into `panicked` are the runtime panics: a send on
a closed channel, the close of a closed channel, a negative `WaitGroup`
counter. The steps into `exited` are the calls of `log.Fatal`; the deferred
`wg.Done()` does not run then. -/
inductive Move {Cert Lint PErr : Type} (fl : Flags) (T : Transform Cert Lint PErr)
    (input : List Bytes) : Pipeline → Pipeline → Prop where
  | mainAddReader (s : Pipeline) (h : s.mainPc = .addReader) :
      Move fl T input s { s with mainPc := .goReader, readerWG := s.readerWG + 1 }
  | mainGoReader (s : Pipeline) (h : s.mainPc = .goReader)
      (hf : fl.format.toLower = "pem" ∨ fl.format.toLower = "base64") :
      Move fl T input s { s with mainPc := .addWriter, seg := .running input }
  | mainInvalidFormat (s : Pipeline) (h : s.mainPc = .goReader)
      (hf : ¬ (fl.format.toLower = "pem" ∨ fl.format.toLower = "base64")) :
      Move fl T input s { s with exited := true }
  | mainAddWriter (s : Pipeline) (h : s.mainPc = .addWriter) :
      Move fl T input s { s with mainPc := .goWriter, writerWG := s.writerWG + 1 }
  | mainGoWriter (s : Pipeline) (h : s.mainPc = .goWriter) :
      Move fl T input s { s with mainPc := .addProc, sink := .receiving }
  | mainAddProc (s : Pipeline) (h : s.mainPc = .addProc) :
      Move fl T input s { s with mainPc := .goWorkers 0, procWG := s.procWG + fl.workers.toNat }
  | mainGoWorker (s : Pipeline) (k : Nat) (h : s.mainPc = .goWorkers k)
      (hk : k < fl.workers.toNat) :
      Move fl T input s
        { s with mainPc := .goWorkers (k + 1), workers := s.workers ++ [.receiving] }
  | mainLoopEnd (s : Pipeline) (k : Nat) (h : s.mainPc = .goWorkers k)
      (hk : ¬ k < fl.workers.toNat) :
      Move fl T input s { s with mainPc := .waitReader }
  | mainWaitReader (s : Pipeline) (h : s.mainPc = .waitReader) (hwg : s.readerWG = 0) :
      Move fl T input s { s with mainPc := .closeA }
  | mainCloseA (s : Pipeline) (h : s.mainPc = .closeA) (hc : s.closesA = 0) :
      Move fl T input s { s with mainPc := .waitProc, closesA := s.closesA + 1 }
  | mainCloseAClosed (s : Pipeline) (h : s.mainPc = .closeA) (hc : s.closesA ≠ 0) :
      Move fl T input s { s with panicked := true }
  | mainWaitProc (s : Pipeline) (h : s.mainPc = .waitProc) (hwg : s.procWG = 0) :
      Move fl T input s { s with mainPc := .closeB }
  | mainCloseB (s : Pipeline) (h : s.mainPc = .closeB) (hc : s.closesB = 0) :
      Move fl T input s { s with mainPc := .waitWriter, closesB := s.closesB + 1 }
  | mainCloseBClosed (s : Pipeline) (h : s.mainPc = .closeB) (hc : s.closesB ≠ 0) :
      Move fl T input s { s with panicked := true }
  | mainWaitWriter (s : Pipeline) (h : s.mainPc = .waitWriter) (hwg : s.writerWG = 0) :
      Move fl T input s { s with mainPc := .returned }
  | segPut (s : Pipeline) (x : Bytes) (rest : List Bytes) (h : s.seg = .running (x :: rest))
      (hc : s.closesA = 0) (hroom : s.queueA.length < (fl.workers * 4).toNat) :
      Move fl T input s
        { s with seg := .running rest, queueA := s.queueA ++ [x], putA := s.putA ++ [x] }
  | segPutClosed (s : Pipeline) (x : Bytes) (rest : List Bytes)
      (h : s.seg = .running (x :: rest)) (hc : s.closesA ≠ 0) :
      Move fl T input s { s with panicked := true }
  | segDone (s : Pipeline) (h : s.seg = .running []) (hwg : s.readerWG ≠ 0) :
      Move fl T input s { s with seg := .finished, readerWG := s.readerWG - 1 }
  | segDoneNegative (s : Pipeline) (h : s.seg = .running []) (hwg : s.readerWG = 0) :
      Move fl T input s { s with panicked := true }
  | segFatal (s : Pipeline) (todo : List Bytes) (h : s.seg = .running todo) :
      Move fl T input s { s with exited := true }
  | workerTake (s : Pipeline) (i : Nat) (x : Bytes) (rest : List Bytes)
      (hw : s.workers[i]? = some .receiving) (hq : s.queueA = x :: rest) :
      Move fl T input s
        { s with workers := s.workers.set i (.working x), queueA := rest,
                 takenA := s.takenA ++ [x] }
  | workerReturn (s : Pipeline) (i : Nat) (hw : s.workers[i]? = some .receiving)
      (hq : s.queueA = []) (hc : s.closesA ≠ 0) (hwg : s.procWG ≠ 0) :
      Move fl T input s
        { s with workers := s.workers.set i .finished, procWG := s.procWG - 1 }
  | workerReturnNegative (s : Pipeline) (i : Nat) (hw : s.workers[i]? = some .receiving)
      (hq : s.queueA = []) (hc : s.closesA ≠ 0) (hwg : s.procWG = 0) :
      Move fl T input s { s with panicked := true }
  | workerSkip (s : Pipeline) (i : Nat) (raw : Bytes) (log : List (LogEntry PErr))
      (hw : s.workers[i]? = some (.working raw)) (hwork : processBlock fl T raw = .skip log) :
      Move fl T input s { s with workers := s.workers.set i .receiving }
  | workerResult (s : Pipeline) (i : Nat) (raw json : Bytes) (log : List (LogEntry PErr))
      (hw : s.workers[i]? = some (.working raw)) (hwork : processBlock fl T raw = .send json log) :
      Move fl T input s { s with workers := s.workers.set i (.sending json) }
  | workerFatal (s : Pipeline) (i : Nat) (raw : Bytes) (log : List (LogEntry PErr))
      (hw : s.workers[i]? = some (.working raw)) (hwork : processBlock fl T raw = .fatal log) :
      Move fl T input s { s with exited := true }
  | workerPut (s : Pipeline) (i : Nat) (json : Bytes)
      (hw : s.workers[i]? = some (.sending json)) (hc : s.closesB = 0)
      (hroom : s.queueB.length < (fl.workers * 4).toNat) :
      Move fl T input s
        { s with workers := s.workers.set i .receiving, queueB := s.queueB ++ [json],
                 putB := s.putB ++ [json] }
  | workerPutClosed (s : Pipeline) (i : Nat) (json : Bytes)
      (hw : s.workers[i]? = some (.sending json)) (hc : s.closesB ≠ 0) :
      Move fl T input s { s with panicked := true }
  | sinkTake (s : Pipeline) (json : Bytes) (rest : List Bytes) (hs : s.sink = .receiving)
      (hq : s.queueB = json :: rest) :
      Move fl T input s
        { s with sink := .writing json, queueB := rest, takenB := s.takenB ++ [json] }
  | sinkWrite (s : Pipeline) (json : Bytes) (hs : s.sink = .writing json) :
      Move fl T input s { s with sink := .receiving, written := s.written ++ [json] }
  | sinkReturn (s : Pipeline) (hs : s.sink = .receiving) (hq : s.queueB = [])
      (hc : s.closesB ≠ 0) (hwg : s.writerWG ≠ 0) :
      Move fl T input s { s with sink := .finished, writerWG := s.writerWG - 1 }
  | sinkReturnNegative (s : Pipeline) (hs : s.sink = .receiving) (hq : s.queueB = [])
      (hc : s.closesB ≠ 0) (hwg : s.writerWG = 0) :
      Move fl T input s { s with panicked := true }

/-- The states the pipeline can reach: a goroutine moves only while the process
has neither exited nor panicked. -/
inductive Reachable {Cert Lint PErr : Type} (fl : Flags) (T : Transform Cert Lint PErr)
    (input : List Bytes) : Pipeline → Prop where
  | init (hmake : ¬ fl.workers * 4 < 0) : Reachable fl T input Pipeline.init
  | step (s s2 : Pipeline) (hr : Reachable fl T input s) (hlive : s.exited = false)
      (hok : s.panicked = false) (hm : Move fl T input s s2) : Reachable fl T input s2

/-- The invariant of the pipeline. -/
def PipelineInv (fl : Flags) (input : List Bytes) (s : Pipeline) : Prop :=
  s.panicked = false ∧
  s.readerWG = (if 1 ≤ s.mainPc.rank ∧ s.seg ≠ .finished then 1 else 0) ∧
  (s.seg = .notStarted ↔ s.mainPc.rank ≤ 1) ∧
  s.writerWG = (if 3 ≤ s.mainPc.rank ∧ s.sink ≠ .finished then 1 else 0) ∧
  (s.sink = .notStarted ↔ s.mainPc.rank ≤ 3) ∧
  s.procWG + finishedCount s.workers = (if 5 ≤ s.mainPc.rank then fl.workers.toNat else 0) ∧
  (s.mainPc.rank < 5 → s.workers = []) ∧
  (∀ k, s.mainPc = .goWorkers k → s.workers.length = k ∧ k ≤ fl.workers.toNat) ∧
  (5 < s.mainPc.rank → s.workers.length = fl.workers.toNat) ∧
  s.closesA = (if 8 ≤ s.mainPc.rank then 1 else 0) ∧
  s.closesB = (if 10 ≤ s.mainPc.rank then 1 else 0) ∧
  (7 ≤ s.mainPc.rank → s.seg = .finished) ∧
  (9 ≤ s.mainPc.rank → finishedCount s.workers = s.workers.length) ∧
  (11 ≤ s.mainPc.rank → s.sink = .finished) ∧
  (0 < finishedCount s.workers → s.closesA = 1 ∧ s.queueA = []) ∧
  (s.sink = .finished → s.closesB = 1 ∧ s.queueB = []) ∧
  s.putA = s.takenA ++ s.queueA ∧
  s.putB = s.takenB ++ s.queueB ∧
  (∀ todo, s.seg = .running todo → s.putA ++ todo = input) ∧
  (s.seg = .notStarted → s.putA = []) ∧
  (s.seg = .finished → s.putA = input) ∧
  s.takenB = s.written ++ s.sink.holding ∧
  s.queueA.length ≤ (fl.workers * 4).toNat ∧
  s.queueB.length ≤ (fl.workers * 4).toNat

/-! ## cmd/main.go: the pipeline of the legacy `main` as a transition system

Function `main` of `cmd/main.go` (and of `main.go`, which has the same `main`)
from the first `make` on, and the goroutines it starts. It differs from
`cmd/zcertificate/main.go` in the capacity of the channels (`channelSize`), in
`procWG.Add(1)` before each worker, and in closing queue A (`certs`) from a
goroutine of its own, so that `main` goes on to `procWG.Wait()` at once. -/

/-- The flags of `cmd/main.go` (the `var` block). -/
structure LegacyFlags where
  inPath : String
  outPath : String
  numCertThreads : Int
  prettyPrint : Bool
  numProcs : Int
  channelSize : Int
  crashIfParseFail : Bool
  format : String
deriving Repr, DecidableEq

/-- The external collaborators of the legacy worker: `x509.ParseCertificate`,
`zlint.ZLintResultTestHandler` (its `ZLint` field) and `json.Marshal` on the
struct `{Raw: cert.Raw, Parsed: cert, ZLint: lintResult}` (`none` when it
returns an error). -/
structure LegacyTransform (Cert Lint PErr : Type) where
  ParseCertificate : Bytes → Except PErr Cert
  ZLintResultTestHandler : Cert → Option Lint
  Marshal : Cert → Option Lint → Option Bytes

/-- One iteration of the loop of `ProcessCertificate` of `cmd/main.go`: a block
that does not parse ends the process under `crashIfParseFail` and is logged and
dropped otherwise; a block that parses is linted, marshalled and sent. -/
def ProcessCertificateBlock {Cert Lint PErr : Type} (lf : LegacyFlags)
    (T : LegacyTransform Cert Lint PErr) (raw : Bytes) : Step PErr :=
  match T.ParseCertificate raw with
  | .error err =>
    if lf.crashIfParseFail then
      .fatal [.fatal "could not parse certificate with error"]
    else
      .skip [.couldNotParse err]
  | .ok parsed =>
    match T.Marshal parsed (T.ZLintResultTestHandler parsed) with
    | none => .fatal [.fatal "could not parse JSON."]
    | some jsonResult => .send jsonResult []

/-- Where the legacy `main` stands, from `readerWG.Add(1)` on. -/
inductive LegacyMainPc where
  /-- Line `readerWG.Add(1)`. -/
  | addReader
  /-- Line `writerWG.Add(1)`. -/
  | addWriter
  /-- The `go` statement of the input reader. -/
  | goReader
  /-- Line `go WriteOutput(...)`. -/
  | goWriter
  /-- The loop test `i < numCertThreads`, with `started` workers so far, and
  line `procWG.Add(1)`. -/
  | loopAdd (started : Nat)
  /-- Line `go ProcessCertificate(...)` of the loop. -/
  | loopGo (started : Nat)
  /-- The `go func() { readerWG.Wait(); close(certs) }()` statement. -/
  | goCloser
  /-- Line `procWG.Wait()`. -/
  | waitProc
  /-- Line `close(jsonOut)`. -/
  | closeB
  /-- Line `writerWG.Wait()`. -/
  | waitWriter
  /-- The end of `main`: the process ends. -/
  | returned
deriving Repr, DecidableEq

/-- The position of a program point in the legacy `main`. -/
def LegacyMainPc.rank : LegacyMainPc → Nat
  | .addReader => 0
  | .addWriter => 1
  | .goReader => 2
  | .goWriter => 3
  | .loopAdd _ => 4
  | .loopGo _ => 4
  | .goCloser => 5
  | .waitProc => 6
  | .closeB => 7
  | .waitWriter => 8
  | .returned => 9

/-- The calls of `procWG.Add(1)` whose worker is not started yet. -/
def LegacyMainPc.pending : LegacyMainPc → Nat
  | .loopGo _ => 1
  | _ => 0

/-- Where the goroutine `func() { readerWG.Wait(); close(certs) }` stands. -/
inductive CloserPc where
  | notStarted
  | waitReader
  | closeA
  | finished
deriving Repr, DecidableEq

/-- Where the `WriteOutput` goroutine stands: before it has chosen its stream,
at the receive of its `range` loop, at the two calls of `Write`, or returned. -/
inductive LegacySinkPc where
  | notStarted
  | opening
  | receiving
  | writing (json : Bytes)
  | finished
deriving Repr, DecidableEq

/-- The record the legacy sink has received and not yet written. -/
def LegacySinkPc.holding : LegacySinkPc → List Bytes
  | .writing json => [json]
  | _ => []

/-- The state of the legacy pipeline; the reader goroutine (`ReadCertificatePEM`
or `ReadCertificateBase64`) sends its blocks in order and calls the deferred
`wg.Done()` when it returns, or ends the process with `log.Fatal`. -/
structure LegacyPipeline where
  mainPc : LegacyMainPc
  closer : CloserPc
  seg : SegPc
  workers : List WorkerPc
  sink : LegacySinkPc
  queueA : List Bytes
  queueB : List Bytes
  closesA : Nat
  closesB : Nat
  readerWG : Nat
  procWG : Nat
  writerWG : Nat
  putA : List Bytes
  takenA : List Bytes
  putB : List Bytes
  takenB : List Bytes
  written : List Bytes
  exited : Bool
  panicked : Bool
deriving Repr, DecidableEq

/-- The state at `readerWG.Add(1)`, with both channels made and nothing started. -/
def LegacyPipeline.init : LegacyPipeline :=
  { mainPc := .addReader, closer := .notStarted, seg := .notStarted, workers := [],
    sink := .notStarted, queueA := [], queueB := [], closesA := 0, closesB := 0,
    readerWG := 0, procWG := 0, writerWG := 0,
    putA := [], takenA := [], putB := [], takenB := [], written := [],
    exited := false, panicked := false }

/-- One atomic step of one goroutine of the legacy pipeline, where `input` is
the sequence of blocks the reader sends. The channels have capacity
`channelSize`; on an unbuffered channel (`channelSize = 0`) a send and a receive
that are both ready happen together. -/
inductive LegacyMove {Cert Lint PErr : Type} (lf : LegacyFlags)
    (T : LegacyTransform Cert Lint PErr) (input : List Bytes) :
    LegacyPipeline → LegacyPipeline → Prop where
  | mainAddReader (s : LegacyPipeline) (h : s.mainPc = .addReader) :
      LegacyMove lf T input s { s with mainPc := .addWriter, readerWG := s.readerWG + 1 }
  | mainAddWriter (s : LegacyPipeline) (h : s.mainPc = .addWriter) :
      LegacyMove lf T input s { s with mainPc := .goReader, writerWG := s.writerWG + 1 }
  | mainGoReader (s : LegacyPipeline) (h : s.mainPc = .goReader)
      (hf : lf.format = "pem" ∨ lf.format = "base64") :
      LegacyMove lf T input s { s with mainPc := .goWriter, seg := .running input }
  | mainInvalidFormat (s : LegacyPipeline) (h : s.mainPc = .goReader)
      (hf : ¬ (lf.format = "pem" ∨ lf.format = "base64")) :
      LegacyMove lf T input s { s with exited := true }
  | mainGoWriter (s : LegacyPipeline) (h : s.mainPc = .goWriter) :
      LegacyMove lf T input s { s with mainPc := .loopAdd 0, sink := .opening }
  | mainLoopAdd (s : LegacyPipeline) (k : Nat) (h : s.mainPc = .loopAdd k)
      (hk : (k : Int) < lf.numCertThreads) :
      LegacyMove lf T input s { s with mainPc := .loopGo k, procWG := s.procWG + 1 }
  | mainLoopGo (s : LegacyPipeline) (k : Nat) (h : s.mainPc = .loopGo k) :
      LegacyMove lf T input s
        { s with mainPc := .loopAdd (k + 1), workers := s.workers ++ [.receiving] }
  | mainLoopEnd (s : LegacyPipeline) (k : Nat) (h : s.mainPc = .loopAdd k)
      (hk : ¬ (k : Int) < lf.numCertThreads) :
      LegacyMove lf T input s { s with mainPc := .goCloser }
  | mainGoCloser (s : LegacyPipeline) (h : s.mainPc = .goCloser) :
      LegacyMove lf T input s { s with mainPc := .waitProc, closer := .waitReader }
  | mainWaitProc (s : LegacyPipeline) (h : s.mainPc = .waitProc) (hwg : s.procWG = 0) :
      LegacyMove lf T input s { s with mainPc := .closeB }
  | mainCloseB (s : LegacyPipeline) (h : s.mainPc = .closeB) (hc : s.closesB = 0) :
      LegacyMove lf T input s { s with mainPc := .waitWriter, closesB := s.closesB + 1 }
  | mainCloseBClosed (s : LegacyPipeline) (h : s.mainPc = .closeB) (hc : s.closesB ≠ 0) :
      LegacyMove lf T input s { s with panicked := true }
  | mainWaitWriter (s : LegacyPipeline) (h : s.mainPc = .waitWriter) (hwg : s.writerWG = 0) :
      LegacyMove lf T input s { s with mainPc := .returned }
  | closerWait (s : LegacyPipeline) (h : s.closer = .waitReader) (hwg : s.readerWG = 0) :
      LegacyMove lf T input s { s with closer := .closeA }
  | closerClose (s : LegacyPipeline) (h : s.closer = .closeA) (hc : s.closesA = 0) :
      LegacyMove lf T input s { s with closer := .finished, closesA := s.closesA + 1 }
  | closerCloseClosed (s : LegacyPipeline) (h : s.closer = .closeA) (hc : s.closesA ≠ 0) :
      LegacyMove lf T input s { s with panicked := true }
  | segPut (s : LegacyPipeline) (x : Bytes) (rest : List Bytes)
      (h : s.seg = .running (x :: rest)) (hc : s.closesA = 0)
      (hroom : s.queueA.length < lf.channelSize.toNat) :
      LegacyMove lf T input s
        { s with seg := .running rest, queueA := s.queueA ++ [x], putA := s.putA ++ [x] }
  | segHandOver (s : LegacyPipeline) (x : Bytes) (rest : List Bytes) (i : Nat)
      (h : s.seg = .running (x :: rest)) (hc : s.closesA = 0)
      (hcap : lf.channelSize.toNat = 0) (hw : s.workers[i]? = some .receiving) :
      LegacyMove lf T input s
        { s with seg := .running rest, workers := s.workers.set i (.working x),
                 putA := s.putA ++ [x], takenA := s.takenA ++ [x] }
  | segPutClosed (s : LegacyPipeline) (x : Bytes) (rest : List Bytes)
      (h : s.seg = .running (x :: rest)) (hc : s.closesA ≠ 0) :
      LegacyMove lf T input s { s with panicked := true }
  | segDone (s : LegacyPipeline) (h : s.seg = .running []) (hwg : s.readerWG ≠ 0) :
      LegacyMove lf T input s { s with seg := .finished, readerWG := s.readerWG - 1 }
  | segDoneNegative (s : LegacyPipeline) (h : s.seg = .running []) (hwg : s.readerWG = 0) :
      LegacyMove lf T input s { s with panicked := true }
  | segFatal (s : LegacyPipeline) (todo : List Bytes) (h : s.seg = .running todo) :
      LegacyMove lf T input s { s with exited := true }
  | workerTake (s : LegacyPipeline) (i : Nat) (x : Bytes) (rest : List Bytes)
      (hw : s.workers[i]? = some .receiving) (hq : s.queueA = x :: rest) :
      LegacyMove lf T input s
        { s with workers := s.workers.set i (.working x), queueA := rest,
                 takenA := s.takenA ++ [x] }
  | workerReturn (s : LegacyPipeline) (i : Nat) (hw : s.workers[i]? = some .receiving)
      (hq : s.queueA = []) (hc : s.closesA ≠ 0) (hwg : s.procWG ≠ 0) :
      LegacyMove lf T input s
        { s with workers := s.workers.set i .finished, procWG := s.procWG - 1 }
  | workerReturnNegative (s : LegacyPipeline) (i : Nat)
      (hw : s.workers[i]? = some .receiving) (hq : s.queueA = []) (hc : s.closesA ≠ 0)
      (hwg : s.procWG = 0) :
      LegacyMove lf T input s { s with panicked := true }
  | workerSkip (s : LegacyPipeline) (i : Nat) (raw : Bytes) (log : List (LogEntry PErr))
      (hw : s.workers[i]? = some (.working raw))
      (hwork : ProcessCertificateBlock lf T raw = .skip log) :
      LegacyMove lf T input s { s with workers := s.workers.set i .receiving }
  | workerResult (s : LegacyPipeline) (i : Nat) (raw json : Bytes)
      (log : List (LogEntry PErr)) (hw : s.workers[i]? = some (.working raw))
      (hwork : ProcessCertificateBlock lf T raw = .send json log) :
      LegacyMove lf T input s { s with workers := s.workers.set i (.sending json) }
  | workerFatal (s : LegacyPipeline) (i : Nat) (raw : Bytes) (log : List (LogEntry PErr))
      (hw : s.workers[i]? = some (.working raw))
      (hwork : ProcessCertificateBlock lf T raw = .fatal log) :
      LegacyMove lf T input s { s with exited := true }
  | workerPut (s : LegacyPipeline) (i : Nat) (json : Bytes)
      (hw : s.workers[i]? = some (.sending json)) (hc : s.closesB = 0)
      (hroom : s.queueB.length < lf.channelSize.toNat) :
      LegacyMove lf T input s
        { s with workers := s.workers.set i .receiving, queueB := s.queueB ++ [json],
                 putB := s.putB ++ [json] }
  | workerHandOver (s : LegacyPipeline) (i : Nat) (json : Bytes)
      (hw : s.workers[i]? = some (.sending json)) (hc : s.closesB = 0)
      (hcap : lf.channelSize.toNat = 0) (hs : s.sink = .receiving) :
      LegacyMove lf T input s
        { s with workers := s.workers.set i .receiving, sink := .writing json,
                 putB := s.putB ++ [json], takenB := s.takenB ++ [json] }
  | workerPutClosed (s : LegacyPipeline) (i : Nat) (json : Bytes)
      (hw : s.workers[i]? = some (.sending json)) (hc : s.closesB ≠ 0) :
      LegacyMove lf T input s { s with panicked := true }
  | sinkOpen (s : LegacyPipeline) (hs : s.sink = .opening) :
      LegacyMove lf T input s { s with sink := .receiving }
  | sinkCreateFails (s : LegacyPipeline) (hs : s.sink = .opening)
      (hname : ¬ (lf.outPath = "" ∨ lf.outPath = "-")) :
      LegacyMove lf T input s { s with exited := true }
  | sinkTake (s : LegacyPipeline) (json : Bytes) (rest : List Bytes)
      (hs : s.sink = .receiving) (hq : s.queueB = json :: rest) :
      LegacyMove lf T input s
        { s with sink := .writing json, queueB := rest, takenB := s.takenB ++ [json] }
  | sinkWrite (s : LegacyPipeline) (json : Bytes) (hs : s.sink = .writing json) :
      LegacyMove lf T input s { s with sink := .receiving, written := s.written ++ [json] }
  | sinkReturn (s : LegacyPipeline) (hs : s.sink = .receiving) (hq : s.queueB = [])
      (hc : s.closesB ≠ 0) (hwg : s.writerWG ≠ 0) :
      LegacyMove lf T input s { s with sink := .finished, writerWG := s.writerWG - 1 }
  | sinkReturnNegative (s : LegacyPipeline) (hs : s.sink = .receiving) (hq : s.queueB = [])
      (hc : s.closesB ≠ 0) (hwg : s.writerWG = 0) :
      LegacyMove lf T input s { s with panicked := true }

/-- The states the legacy pipeline can reach: `main` gets to `readerWG.Add(1)`
when `prettyPrint` is off and `make` does not panic; a goroutine moves only
while the process has not exited, panicked or ended with the return of `main`. -/
inductive LegacyReachable {Cert Lint PErr : Type} (lf : LegacyFlags)
    (T : LegacyTransform Cert Lint PErr) (input : List Bytes) : LegacyPipeline → Prop where
  | init (hpretty : lf.prettyPrint = false) (hmake : ¬ lf.channelSize < 0) :
      LegacyReachable lf T input LegacyPipeline.init
  | step (s s2 : LegacyPipeline) (hr : LegacyReachable lf T input s)
      (hlive : s.exited = false) (hok : s.panicked = false) (hrun : s.mainPc ≠ .returned)
      (hm : LegacyMove lf T input s s2) : LegacyReachable lf T input s2

/-- The invariant of the legacy pipeline. -/
def LegacyInv (lf : LegacyFlags) (input : List Bytes) (s : LegacyPipeline) : Prop :=
  s.panicked = false ∧
  s.readerWG = (if 1 ≤ s.mainPc.rank ∧ s.seg ≠ .finished then 1 else 0) ∧
  (s.seg = .notStarted ↔ s.mainPc.rank ≤ 2) ∧
  s.writerWG = (if 2 ≤ s.mainPc.rank ∧ s.sink ≠ .finished then 1 else 0) ∧
  (s.sink = .notStarted ↔ s.mainPc.rank ≤ 3) ∧
  s.procWG + finishedCount s.workers = s.workers.length + s.mainPc.pending ∧
  (s.mainPc.rank < 4 → s.workers = []) ∧
  (∀ k, s.mainPc = .loopAdd k →
    s.workers.length = k ∧ k ≤ lf.numCertThreads.toNat) ∧
  (∀ k, s.mainPc = .loopGo k →
    s.workers.length = k ∧ k < lf.numCertThreads.toNat) ∧
  (4 < s.mainPc.rank → s.workers.length = lf.numCertThreads.toNat) ∧
  s.closesA = (if s.closer = .finished then 1 else 0) ∧
  s.closesB = (if 8 ≤ s.mainPc.rank then 1 else 0) ∧
  (s.closer = .notStarted ↔ s.mainPc.rank < 6) ∧
  (s.closer = .closeA ∨ s.closer = .finished → s.seg = .finished) ∧
  (7 ≤ s.mainPc.rank → finishedCount s.workers = s.workers.length) ∧
  (9 ≤ s.mainPc.rank → s.sink = .finished) ∧
  (0 < finishedCount s.workers → s.closesA = 1 ∧ s.queueA = []) ∧
  (s.sink = .finished → s.closesB = 1 ∧ s.queueB = []) ∧
  s.putA = s.takenA ++ s.queueA ∧
  s.putB = s.takenB ++ s.queueB ∧
  (∀ todo, s.seg = .running todo → s.putA ++ todo = input) ∧
  (s.seg = .notStarted → s.putA = []) ∧
  (s.seg = .finished → s.putA = input) ∧
  s.takenB = s.written ++ s.sink.holding ∧
  s.queueA.length ≤ lf.channelSize.toNat ∧
  s.queueB.length ≤ lf.channelSize.toNat

/-! ## Concrete instances used to evaluate the definitions -/

/-- The default flag values of `cmd/zcertificate/main.go`. -/
def defaultFlags : Flags :=
  { outputFileName := "-", workers := 1, numProcs := 0,
    crashIfParseFail := false, jsonIfParseFail := false, format := "pem" }

/-- A transform whose parser accepts every block and whose `json.Marshal`
always returns an error. -/
def marshalFails : Transform Unit Unit Unit where
  ParseCertificate := fun _ => .ok ()
  LintCertificate := fun _ => some ()
  Marshal := fun _ => none

/-- A transform whose parser accepts exactly the blocks that start with byte
`48` (an ASN.1 SEQUENCE tag), and whose `json.Marshal` returns the raw bytes
followed by one byte per field present (`1`, `2`, `3` for parsed, zlint, error). -/
def toyTransform : Transform Unit Unit Unit where
  ParseCertificate := fun raw => if raw.head? = some 48 then .ok () else .error ()
  LintCertificate := fun _ => some ()
  Marshal := fun r =>
    some (r.Raw ++ (if r.Parsed.isSome then [1] else [])
      ++ (if r.ZLint.isSome then [2] else [])
      ++ (if r.ParseError.isSome then [3] else []))

/-- The records of a sequence, each followed by a single newline byte,
concatenated in order. -/
def newlineDelimited : List Bytes → Bytes
  | [] => []
  | r :: rest => r ++ 10 :: newlineDelimited rest

/-- Two conforming blocks, the first after a line of junk. -/
def twoPieces : List Piece :=
  [{ junk := ascii "x\n", typ := ascii "X", body := ascii "QUJD\n", payload := [65, 66, 67] },
   { junk := [], typ := ascii "X", body := ascii "QUJE\n", payload := [65, 66, 68] }]

/-- The state after a complete run of the pipeline with one worker on the single
block `[48, 7]`. -/
def completedRun : Pipeline :=
  { mainPc := .returned, seg := .finished, workers := [.finished], sink := .finished,
    queueA := [], queueB := [], closesA := 1, closesB := 1,
    readerWG := 0, procWG := 0, writerWG := 0,
    putA := [[48, 7]], takenA := [[48, 7]], putB := [[48, 7, 1, 2]], takenB := [[48, 7, 1, 2]],
    written := [[48, 7, 1, 2]], exited := false, panicked := false }

/-- The default flag values of `cmd/main.go`, with the input file `certs.pem`. -/
def legacyDefaultFlags : LegacyFlags :=
  { inPath := "certs.pem", outPath := "-", numCertThreads := 1, prettyPrint := false,
    numProcs := 0, channelSize := 1000, crashIfParseFail := false, format := "pem" }

/-- The same flag values with `-threads 0`. -/
def legacyNoThreads : LegacyFlags :=
  { legacyDefaultFlags with numCertThreads := 0 }

/-- A legacy transform whose parser accepts exactly the blocks that start with
byte `48`, the certificate being its raw bytes, and whose `json.Marshal` returns
the raw bytes followed by `1` and, with a lint result, `2`. -/
def legacyToyTransform : LegacyTransform Bytes Unit Unit where
  ParseCertificate := fun raw => if raw.head? = some 48 then .ok raw else .error ()
  ZLintResultTestHandler := fun _ => some ()
  Marshal := fun cert zl => some (cert ++ [1] ++ (if zl.isSome then [2] else []))

/-- The state after a complete run of the legacy pipeline with one worker on
the single block `[48, 7]`. -/
def legacyCompletedRun : LegacyPipeline :=
  { mainPc := .returned, closer := .finished, seg := .finished, workers := [.finished],
    sink := .finished, queueA := [], queueB := [], closesA := 1, closesB := 1,
    readerWG := 0, procWG := 0, writerWG := 0,
    putA := [[48, 7]], takenA := [[48, 7]], putB := [[48, 7, 1, 2]], takenB := [[48, 7, 1, 2]],
    written := [[48, 7, 1, 2]], exited := false, panicked := false }

/-- The state after a complete run of the legacy pipeline with `-threads 0` on
the single block `[48, 7]`: `main` has returned, both queues are closed, and
the block is still in queue A. -/
def legacyNoThreadsRun : LegacyPipeline :=
  { mainPc := .returned, closer := .finished, seg := .finished, workers := [],
    sink := .finished, queueA := [[48, 7]], queueB := [], closesA := 1, closesB := 1,
    readerWG := 0, procWG := 0, writerWG := 0,
    putA := [[48, 7]], takenA := [], putB := [], takenB := [],
    written := [], exited := false, panicked := false }

/-! # Theorems -/

/-! ## The worker -/

theorem processCertificate_cons_send {Cert Lint PErr : Type} (fl : Flags)
    (T : Transform Cert Lint PErr) (raw : Bytes) (rest : List Bytes) (json : Bytes)
    (log : List (LogEntry PErr)) (h : processBlock fl T raw = .send json log) :
    processCertificate fl T (raw :: rest) =
      { out := json :: (processCertificate fl T rest).out,
        log := log ++ (processCertificate fl T rest).log,
        exited := (processCertificate fl T rest).exited } := by
  simp [processCertificate, h]

theorem processCertificate_cons_skip {Cert Lint PErr : Type} (fl : Flags)
    (T : Transform Cert Lint PErr) (raw : Bytes) (rest : List Bytes)
    (log : List (LogEntry PErr)) (h : processBlock fl T raw = .skip log) :
    processCertificate fl T (raw :: rest) =
      { out := (processCertificate fl T rest).out,
        log := log ++ (processCertificate fl T rest).log,
        exited := (processCertificate fl T rest).exited } := by
  simp [processCertificate, h]

theorem processCertificate_cons_fatal {Cert Lint PErr : Type} (fl : Flags)
    (T : Transform Cert Lint PErr) (raw : Bytes) (rest : List Bytes)
    (log : List (LogEntry PErr)) (h : processBlock fl T raw = .fatal log) :
    processCertificate fl T (raw :: rest) = { out := [], log := log, exited := true } := by
  simp [processCertificate, h]

/-- C3, as stated, fails: a block that parses but whose record `json.Marshal`
rejects puts no record on the output queue and ends the process. -/
theorem processCertificate_parse_ok_no_record :
    marshalFails.ParseCertificate [48] = .ok () ∧
    defaultFlags.crashIfParseFail = false ∧ defaultFlags.jsonIfParseFail = false ∧
    (processCertificate defaultFlags marshalFails [[48]]).out = [] ∧
    (processCertificate defaultFlags marshalFails [[48]]).exited = true :=
  ⟨rfl, rfl, rfl, by decide, by decide⟩

/-- C3, amended: with the two policy flags not both set, a block that parses is
linted and, when its record marshals, exactly one record is put and the loop goes
on (when it does not marshal, the process ends without a record); a block that
fails to parse is dropped and the loop goes on when neither flag is set, yields
exactly one record (when it marshals) under `jsonIfParseFail`, and ends the
process with no record for it or any later block under `crashIfParseFail`. -/
theorem processCertificate_policy {Cert Lint PErr : Type} (fl : Flags)
    (T : Transform Cert Lint PErr) (raw : Bytes) (rest : List Bytes)
    (hflags : ¬ (fl.crashIfParseFail = true ∧ fl.jsonIfParseFail = true)) :
    (∀ parsed, T.ParseCertificate raw = .ok parsed →
      (∀ json, T.Marshal { Raw := raw, Parsed := some parsed,
                           ZLint := T.LintCertificate parsed, ParseError := none } = some json →
        processCertificate fl T (raw :: rest) =
          { out := json :: (processCertificate fl T rest).out,
            log := (processCertificate fl T rest).log,
            exited := (processCertificate fl T rest).exited }) ∧
      (T.Marshal { Raw := raw, Parsed := some parsed,
                   ZLint := T.LintCertificate parsed, ParseError := none } = none →
        processCertificate fl T (raw :: rest) =
          { out := [], log := [.fatal "could not marshal output JSON"], exited := true })) ∧
    (∀ err, T.ParseCertificate raw = .error err →
      (fl.crashIfParseFail = false → fl.jsonIfParseFail = false →
        processCertificate fl T (raw :: rest) =
          { out := (processCertificate fl T rest).out,
            log := .couldNotParse err :: (processCertificate fl T rest).log,
            exited := (processCertificate fl T rest).exited }) ∧
      (fl.jsonIfParseFail = true →
        (∀ json, T.Marshal { Raw := raw, Parsed := none, ZLint := none,
                             ParseError := some err } = some json →
          processCertificate fl T (raw :: rest) =
            { out := json :: (processCertificate fl T rest).out,
              log := .couldNotParse err :: (processCertificate fl T rest).log,
              exited := (processCertificate fl T rest).exited }) ∧
        (T.Marshal { Raw := raw, Parsed := none, ZLint := none,
                     ParseError := some err } = none →
          processCertificate fl T (raw :: rest) =
            { out := [],
              log := [.couldNotParse err, .fatal "could not marshal output JSON"],
              exited := true })) ∧
      (fl.crashIfParseFail = true →
        processCertificate fl T (raw :: rest) =
          { out := [], log := [.couldNotParse err, .fatal "parsing errors are fatal"],
            exited := true })) := by
  refine ⟨fun parsed hp => ⟨fun json hm => ?_, fun hm => ?_⟩,
    fun err hp => ⟨fun hc hj => ?_, fun hj => ⟨fun json hm => ?_, fun hm => ?_⟩, fun hc => ?_⟩⟩
  · have h : processBlock fl T raw = .send json [] := by
      simp [processBlock, parseAndLint, hp, appendZLintToCertificate, hm]
    simp [processCertificate_cons_send fl T raw rest json [] h]
  · have h : processBlock fl T raw = .fatal [.fatal "could not marshal output JSON"] := by
      simp [processBlock, parseAndLint, hp, appendZLintToCertificate, hm]
    exact processCertificate_cons_fatal fl T raw rest _ h
  · have h : processBlock fl T raw = .skip [.couldNotParse err] := by
      simp [processBlock, parseAndLint, hp, hc, hj]
    simp [processCertificate_cons_skip fl T raw rest _ h]
  · have hc : fl.crashIfParseFail = false := by
      cases hcr : fl.crashIfParseFail
      · rfl
      · exact absurd ⟨hcr, hj⟩ hflags
    have h : processBlock fl T raw = .send json [.couldNotParse err] := by
      simp [processBlock, parseAndLint, hp, hc, hj, appendZLintToCertificate, hm]
    simp [processCertificate_cons_send fl T raw rest json _ h]
  · have hc : fl.crashIfParseFail = false := by
      cases hcr : fl.crashIfParseFail
      · rfl
      · exact absurd ⟨hcr, hj⟩ hflags
    have h : processBlock fl T raw =
        .fatal [.couldNotParse err, .fatal "could not marshal output JSON"] := by
      simp [processBlock, parseAndLint, hp, hc, hj, appendZLintToCertificate, hm]
    exact processCertificate_cons_fatal fl T raw rest _ h
  · have h : processBlock fl T raw =
        .fatal [.couldNotParse err, .fatal "parsing errors are fatal"] := by
      simp [processBlock, parseAndLint, hp, hc]
    exact processCertificate_cons_fatal fl T raw rest _ h

/-- C3, amended, at a concrete input: under `jsonIfParseFail` the block `[7]`,
which the toy parser rejects, yields exactly one record and the loop goes on. -/
theorem processCertificate_policy_witness :
    ¬ (({ defaultFlags with jsonIfParseFail := true } : Flags).crashIfParseFail = true ∧
       ({ defaultFlags with jsonIfParseFail := true } : Flags).jsonIfParseFail = true) ∧
    processCertificate { defaultFlags with jsonIfParseFail := true } toyTransform [[7], [48, 1]] =
      { out := [7, 3] ::
          (processCertificate { defaultFlags with jsonIfParseFail := true } toyTransform
            [[48, 1]]).out,
        log := .couldNotParse () ::
          (processCertificate { defaultFlags with jsonIfParseFail := true } toyTransform
            [[48, 1]]).log,
        exited :=
          (processCertificate { defaultFlags with jsonIfParseFail := true } toyTransform
            [[48, 1]]).exited } :=
  ⟨by decide,
   ((processCertificate_policy { defaultFlags with jsonIfParseFail := true } toyTransform
      [7] [[48, 1]] (by decide)).2 () rfl).2.1 rfl |>.1 [7, 3] rfl⟩

/-- Under the emit-error-json policy, with marshalling succeeding, every
iteration of the worker loop sends. -/
theorem processBlock_emit_sends {Cert Lint PErr : Type} (fl : Flags)
    (T : Transform Cert Lint PErr) (raw : Bytes)
    (hj : fl.jsonIfParseFail = true) (hc : fl.crashIfParseFail = false)
    (hm : ∀ r, (T.Marshal r).isSome = true) :
    ∃ json log, processBlock fl T raw = .send json log := by
  unfold processBlock parseAndLint appendZLintToCertificate
  cases hp : T.ParseCertificate raw with
  | error err =>
    simp only [hc, hj]
    obtain ⟨j, hjs⟩ := Option.isSome_iff_exists.mp
      (hm { Raw := raw, Parsed := none, ZLint := none, ParseError := some err })
    simp [hjs]
  | ok parsed =>
    obtain ⟨j, hjs⟩ := Option.isSome_iff_exists.mp
      (hm { Raw := raw, Parsed := some parsed, ZLint := T.LintCertificate parsed,
            ParseError := none })
    simp [hjs]

/-- C4: with `jsonIfParseFail` set, `crashIfParseFail` unset and `json.Marshal`
succeeding, the worker loop on N blocks puts exactly N records on the output
queue and returns: the i-th record is the one sent for the i-th block, whatever
the parse outcome. -/
theorem processCertificate_emit_error_json_count {Cert Lint PErr : Type} (fl : Flags)
    (T : Transform Cert Lint PErr) (blocks : List Bytes)
    (hj : fl.jsonIfParseFail = true) (hc : fl.crashIfParseFail = false)
    (hm : ∀ r, (T.Marshal r).isSome = true) :
    (processCertificate fl T blocks).out.length = blocks.length ∧
    (processCertificate fl T blocks).exited = false ∧
    List.Forall₂ (fun raw json => ∃ log, processBlock fl T raw = .send json log)
      blocks (processCertificate fl T blocks).out := by
  induction blocks with
  | nil => simp [processCertificate]
  | cons raw rest ih =>
    obtain ⟨json, log, h⟩ := processBlock_emit_sends fl T raw hj hc hm
    rw [processCertificate_cons_send fl T raw rest json log h]
    exact ⟨by simp [ih.1], ih.2.1, List.Forall₂.cons ⟨log, h⟩ ih.2.2⟩

/-- C4 at a concrete input: three blocks, the second of which does not parse,
give three records. -/
theorem processCertificate_emit_error_json_count_witness :
    (processCertificate { defaultFlags with jsonIfParseFail := true } toyTransform
        [[48, 5], [7], [48]]).out.length = [[48, 5], [7], [48]].length ∧
    (processCertificate { defaultFlags with jsonIfParseFail := true } toyTransform
        [[48, 5], [7], [48]]).exited = false ∧
    List.Forall₂
      (fun raw json => ∃ log,
        processBlock { defaultFlags with jsonIfParseFail := true } toyTransform raw
          = .send json log)
      [[48, 5], [7], [48]]
      (processCertificate { defaultFlags with jsonIfParseFail := true } toyTransform
        [[48, 5], [7], [48]]).out :=
  processCertificate_emit_error_json_count { defaultFlags with jsonIfParseFail := true }
    toyTransform [[48, 5], [7], [48]] rfl rfl (fun _ => rfl)

/-- C5: for a block whose parse fails under the emit-error-json policy, the
struct the worker hands to `appendZLintToCertificate` holds the raw bytes and the
parse error and nil for the parsed certificate and the lint result, so its JSON
has the key `error` and neither `parsed` nor `zlint`; the record sent is the
marshalling of that struct; and under every flag setting, a struct built for a
block whose parse failed has no lint result. -/
theorem parse_failure_record {Cert Lint PErr : Type} (fl : Flags)
    (T : Transform Cert Lint PErr) (raw : Bytes) (err : PErr)
    (hp : T.ParseCertificate raw = .error err)
    (hj : fl.jsonIfParseFail = true) (hc : fl.crashIfParseFail = false) :
    parseAndLint fl T raw =
      .ok ({ Raw := raw, Parsed := none, ZLint := none, ParseError := some err },
           [.couldNotParse err]) ∧
    (∀ json, processBlock fl T raw = .send json [.couldNotParse err] ↔
      appendZLintToCertificate T raw none none (some err) = some json) ∧
    (∀ json log, processBlock fl T raw = .send json log →
      T.Marshal { Raw := raw, Parsed := none, ZLint := none, ParseError := some err }
        = some json) ∧
    "error" ∈ ({ Raw := raw, Parsed := none, ZLint := none, ParseError := some err } :
      OutputRecord Cert Lint PErr).jsonKeys ∧
    "parsed" ∉ ({ Raw := raw, Parsed := none, ZLint := none, ParseError := some err } :
      OutputRecord Cert Lint PErr).jsonKeys ∧
    "zlint" ∉ ({ Raw := raw, Parsed := none, ZLint := none, ParseError := some err } :
      OutputRecord Cert Lint PErr).jsonKeys ∧
    (∀ (fl2 : Flags) r log, parseAndLint fl2 T raw = .ok (r, log) →
      r.ZLint = none ∧ r.Parsed = none ∧ r.Raw = raw ∧ r.ParseError = some err) := by
  have h1 : parseAndLint fl T raw =
      .ok ({ Raw := raw, Parsed := none, ZLint := none, ParseError := some err },
           [.couldNotParse err]) := by
    simp [parseAndLint, hp, hj, hc]
  refine ⟨h1, ?_, ?_, ?_, ?_, ?_, ?_⟩
  · intro json
    simp only [processBlock, h1]
    cases hm : appendZLintToCertificate T raw none none (some err) <;> simp
  · intro json log
    simp only [processBlock, h1, appendZLintToCertificate]
    cases hm : T.Marshal { Raw := raw, Parsed := none, ZLint := none, ParseError := some err }
    · simp
    · simp only [Step.send.injEq, Option.some.injEq]
      exact fun h => h.1
  · by_cases hr : raw.length = 0 <;> simp [OutputRecord.jsonKeys, hr]
  · by_cases hr : raw.length = 0 <;> simp [OutputRecord.jsonKeys, hr]
  · by_cases hr : raw.length = 0 <;> simp [OutputRecord.jsonKeys, hr]
  · intro fl2 r log h
    unfold parseAndLint at h
    rw [hp] at h
    by_cases hc2 : fl2.crashIfParseFail = true
    · simp [hc2] at h
    · by_cases hj2 : fl2.jsonIfParseFail = true
      · simp [hc2, hj2] at h
        obtain ⟨hr, -⟩ := h
        subst hr
        exact ⟨rfl, rfl, rfl, rfl⟩
      · simp [hc2, hj2] at h

/-- C5 at a concrete input: the block `[7]` does not parse; its record holds
`[7]` and the error only. -/
theorem parse_failure_record_witness :
    parseAndLint { defaultFlags with jsonIfParseFail := true } toyTransform [7] =
      .ok ({ Raw := [7], Parsed := none, ZLint := none, ParseError := some () },
           [.couldNotParse ()]) :=
  (parse_failure_record { defaultFlags with jsonIfParseFail := true } toyTransform [7] ()
    rfl rfl rfl).1

/-! ## The sink -/

/-- The calls of `Write` that `writeOutput` makes when every `Write` returns, and
its normal return, do not depend on what the calls return. -/
theorem writeOutput_calls {σ WErr : Type} (w : Writer σ WErr)
    (hret : ∀ s p, w.Write s p ≠ .killed) (s : σ) (records : List Bytes) :
    (writeOutput w s records).exited = false ∧
    (writeOutput w s records).calls = records.flatMap (fun json => [json, [10]]) := by
  induction records generalizing s with
  | nil => simp [writeOutput]
  | cons json rest ih =>
    simp only [writeOutput, List.flatMap_cons, List.cons_append, List.nil_append]
    cases h1 : w.Write s json with
    | killed => exact absurd h1 (hret _ _)
    | returned s1 n1 e1 =>
      simp only
      cases h2 : w.Write s1 [10] with
      | killed => exact absurd h2 (hret _ _)
      | returned s2 n2 e2 =>
        simp only
        exact ⟨(ih _).1, by rw [(ih _).2]⟩

/-- On a stream where every `Write` appends its argument, `writeOutput` appends
the records, each followed by one newline. -/
theorem writeOutput_content {σ WErr : Type} (w : Writer σ WErr) (content : σ → Bytes)
    (hw : ∀ s p, ∃ s2 n err, w.Write s p = .returned s2 n err ∧ content s2 = content s ++ p)
    (s : σ) (records : List Bytes) :
    content (writeOutput w s records).stream = content s ++ newlineDelimited records := by
  induction records generalizing s with
  | nil => simp [writeOutput, newlineDelimited]
  | cons json rest ih =>
    obtain ⟨s1, n1, e1, h1, c1⟩ := hw s json
    obtain ⟨s2, n2, e2, h2, c2⟩ := hw s1 [10]
    simp only [writeOutput, newlineDelimited, h1, h2]
    rw [ih, c2, c1]
    simp

/-- C6: on an output stream whose `Write` appends the bytes it is given,
`writeOutput` (and the legacy `WriteOutput` once its stream is chosen) adds to
the stream exactly the records in arrival order, each followed by one newline
byte, and nothing else; it calls `Write` once per record and once per newline
and returns. -/
theorem writeOutput_newline_delimited {σ WErr : Type} (w : Writer σ WErr)
    (content : σ → Bytes)
    (hw : ∀ s p, ∃ s2 n err, w.Write s p = .returned s2 n err ∧ content s2 = content s ++ p)
    (s : σ) (records : List Bytes) :
    content (writeOutput w s records).stream = content s ++ newlineDelimited records ∧
    (writeOutput w s records).calls = records.flatMap (fun json => [json, [10]]) ∧
    (writeOutput w s records).exited = false ∧
    (∀ (fs : FileSystem σ) (name : String) (r : SinkRun σ),
      WriteOutput w fs records name = some r →
      ∃ s0, (s0 = fs.stdout ∨ fs.Create name = some s0) ∧
        content r.stream = content s0 ++ newlineDelimited records) := by
  have hret : ∀ s p, w.Write s p ≠ .killed := by
    intro s p h
    obtain ⟨s2, n, err, h2, -⟩ := hw s p
    rw [h] at h2
    cases h2
  refine ⟨writeOutput_content w content hw s records, (writeOutput_calls w hret s records).2,
    (writeOutput_calls w hret s records).1, ?_⟩
  intro fs name r h
  unfold WriteOutput at h
  split at h
  · simp only [Option.some.injEq] at h
    subst h
    exact ⟨fs.stdout, Or.inl rfl, writeOutput_content w content hw _ records⟩
  · cases hc : fs.Create name with
    | none => simp [hc] at h
    | some f =>
      simp only [hc, Option.some.injEq] at h
      subst h
      exact ⟨f, Or.inr rfl, writeOutput_content w content hw _ records⟩

/-- C6 at a concrete input: two records written to an in-memory stream. -/
theorem writeOutput_newline_delimited_witness :
    (writeOutput bufferWriter [] [[123, 125], [91, 93]]).stream =
      [] ++ newlineDelimited [[123, 125], [91, 93]] :=
  (writeOutput_newline_delimited bufferWriter id (fun _ _ => ⟨_, _, _, rfl, rfl⟩) []
    [[123, 125], [91, 93]]).1

/-- C10, as stated, fails: on a stream whose every `Write` fails and returns an
error, `writeOutput` does not end the process at the first failure; it goes on
to call `Write` for the later record and returns normally. -/
theorem writeOutput_ignores_write_failure :
    brokenWriter.Write [] [1] = .returned [] 0 (some ()) ∧
    (writeOutput brokenWriter [] [[1], [2]]).calls = [[1], [10], [2], [10]] ∧
    (writeOutput brokenWriter [] [[1], [2]]).exited = false := by
  decide

/-- C10, amended: `writeOutput` discards what every `Write` returns. The calls
it makes are the first calls of the sequence record, newline, record, newline,
...; on a stream whose every `Write` returns, with an error or without, it makes
all of them and returns normally; it ends the process only at a `Write` that
itself does not return (SIGPIPE on a broken standard output), and then that
call is its last. -/
theorem writeOutput_write_failure {σ WErr : Type} (w : Writer σ WErr) (s : σ)
    (records : List Bytes) :
    (writeOutput w s records).calls <+: records.flatMap (fun json => [json, [10]]) ∧
    ((writeOutput w s records).exited = false →
      (writeOutput w s records).calls = records.flatMap (fun json => [json, [10]])) ∧
    ((writeOutput w s records).exited = true →
      ∃ before p, (writeOutput w s records).calls = before ++ [p] ∧
        w.Write (writeOutput w s records).stream p = .killed) ∧
    ((∀ s2 p, w.Write s2 p ≠ .killed) →
      (writeOutput w s records).exited = false ∧
      (writeOutput w s records).calls = records.flatMap (fun json => [json, [10]])) := by
  have hrun : ∀ s : σ,
      (writeOutput w s records).calls <+: records.flatMap (fun json => [json, [10]]) ∧
      ((writeOutput w s records).exited = false →
        (writeOutput w s records).calls = records.flatMap (fun json => [json, [10]])) ∧
      ((writeOutput w s records).exited = true →
        ∃ before p, (writeOutput w s records).calls = before ++ [p] ∧
          w.Write (writeOutput w s records).stream p = .killed) := by
    intro s
    induction records generalizing s with
    | nil => simp [writeOutput]
    | cons json rest ih =>
      simp only [writeOutput, List.flatMap_cons, List.cons_append, List.nil_append]
      cases h1 : w.Write s json with
      | killed =>
        refine ⟨?_, by simp, fun _ => ⟨[], json, rfl, h1⟩⟩
        exact ⟨[10] :: rest.flatMap (fun json => [json, [10]]), rfl⟩
      | returned s1 n1 e1 =>
        simp only
        cases h2 : w.Write s1 [10] with
        | killed =>
          refine ⟨?_, by simp, fun _ => ⟨[json], [10], rfl, h2⟩⟩
          exact ⟨rest.flatMap (fun json => [json, [10]]), rfl⟩
        | returned s2 n2 e2 =>
          simp only
          obtain ⟨ha, hb, hc⟩ := ih s2
          refine ⟨?_, ?_, ?_⟩
          · obtain ⟨t, ht⟩ := ha
            exact ⟨t, by simp [← ht]⟩
          · intro he
            rw [hb he]
          · intro he
            obtain ⟨before, p, hcalls, hk⟩ := hc he
            exact ⟨json :: [10] :: before, p, by rw [hcalls]; rfl, hk⟩
  obtain ⟨ha, hb, hc⟩ := hrun s
  exact ⟨ha, hb, hc, fun hret => writeOutput_calls w hret s records⟩

/-- C10, amended, at concrete inputs: a stream that returns an error from every
`Write` gets every call and the run returns; a standard output whose reader
goes away after the first record ends the process at the next `Write`, and the
third record is never written. -/
theorem writeOutput_write_failure_witness :
    ((writeOutput brokenWriter [] [[1], [2]]).exited = false ∧
      (writeOutput brokenWriter [] [[1], [2]]).calls = [[1], [10], [2], [10]]) ∧
    ((writeOutput (pipeWriter 2) [] [[1], [2], [3]]).exited = true ∧
      (writeOutput (pipeWriter 2) [] [[1], [2], [3]]).calls = [[1], [10], [2]] ∧
      ∃ before p, (writeOutput (pipeWriter 2) [] [[1], [2], [3]]).calls = before ++ [p] ∧
        (pipeWriter 2).Write (writeOutput (pipeWriter 2) [] [[1], [2], [3]]).stream p =
          .killed) :=
  ⟨(writeOutput_write_failure brokenWriter [] [[1], [2]]).2.2.2
      (fun _ _ h => WriteResult.noConfusion h),
   by decide, by decide,
   (writeOutput_write_failure (pipeWriter 2) [] [[1], [2], [3]]).2.2.1 (by decide)⟩

/-! ## The flag validation of `main` -/

theorem bothPoliciesMsg_not_in_mainPipeline (fl : Flags) (a b : Bool) :
    Action.fatal bothPoliciesMsg ∉ mainPipeline fl a b := by
  unfold mainPipeline mainShutdown
  have hne : ¬ (bothPoliciesMsg = "invalid --format") := by decide
  split
  · simp
  · split
    · cases a <;> cases b <;> simp [List.mem_replicate]
    · split
      · cases a <;> cases b <;> simp [List.mem_replicate]
      · simp [hne]

theorem bothPoliciesMsg_not_in_mainOutput (fl : Flags) (w : World) (a : Bool) :
    Action.fatal bothPoliciesMsg ∉ mainOutput fl w a := by
  unfold mainOutput
  have hne : ¬ (bothPoliciesMsg = "unable to create output file") := by decide
  have hp := bothPoliciesMsg_not_in_mainPipeline fl
  split
  · simp [hp]
  · split
    · simp [hp]
    · simp [hne]

theorem bothPoliciesMsg_not_in_mainInput (fl : Flags) (w : World) :
    Action.fatal bothPoliciesMsg ∉ mainInput fl w := by
  unfold mainInput
  have hne : ¬ (bothPoliciesMsg = "unable to open input file") := by decide
  have hp := bothPoliciesMsg_not_in_mainOutput fl w
  split
  · simp [hp]
  · split
    · simp [hp]
    · split
      · simp [hp]
      · simp [hne]

/-- C8: when both `jsonIfParseFail` and `crashIfParseFail` are set, `main` ends
with the fatal configuration error right after setting the log level and
GOMAXPROCS: no stream is opened, no queue is created and no goroutine is
started. When at most one is set, that fatal error is not raised: `main` goes on
to open its input. -/
theorem main_validates_policy_flags (fl : Flags) (w : World) :
    (fl.jsonIfParseFail = true ∧ fl.crashIfParseFail = true →
      main fl w = [.setLevel, .gomaxprocs fl.numProcs, .fatal bothPoliciesMsg] ∧
      ∀ a ∈ main fl w, a.startsPipelineWork = false) ∧
    (¬ (fl.jsonIfParseFail = true ∧ fl.crashIfParseFail = true) →
      main fl w = [.setLevel, .gomaxprocs fl.numProcs] ++ mainInput fl w ∧
      Action.fatal bothPoliciesMsg ∉ main fl w) := by
  constructor
  · rintro ⟨hj, hc⟩
    have hm : main fl w = [.setLevel, .gomaxprocs fl.numProcs, .fatal bothPoliciesMsg] := by
      simp [main, hj, hc]
    refine ⟨hm, ?_⟩
    intro a ha
    rw [hm] at ha
    simp only [List.mem_cons, List.mem_singleton, List.not_mem_nil, or_false] at ha
    rcases ha with rfl | rfl | rfl <;> rfl
  · intro h
    have hb : (fl.jsonIfParseFail && fl.crashIfParseFail) = false := by
      cases hj : fl.jsonIfParseFail <;> cases hc : fl.crashIfParseFail <;> simp_all
    have hm : main fl w = [.setLevel, .gomaxprocs fl.numProcs] ++ mainInput fl w := by
      simp [main, hb]
    refine ⟨hm, ?_⟩
    rw [hm]
    simp [bothPoliciesMsg_not_in_mainInput fl w]

/-! ## base64 -/

theorem decodeMap_encodeStd (v : Nat) (hv : v < 64) : decodeMap (encodeStd v) = some v := by
  interval_cases v <;> rfl

theorem decodeQuanta_sextet (v : Nat) (hv : v < 64) (rest : Bytes) (dbuf : List Nat) :
    decodeQuanta (encodeStd v :: rest) dbuf =
      if dbuf.length = 3 then
        (decodeQuanta rest []).map (fun tail => quantumBytes (dbuf ++ [v]) 4 ++ tail)
      else decodeQuanta rest (dbuf ++ [v]) := by
  simp only [decodeQuanta, decodeMap_encodeStd v hv]

theorem quantumBytes_four (b0 b1 b2 : Nat) (h0 : b0 < 256) (h1 : b1 < 256) (h2 : b2 < 256) :
    quantumBytes
      [(b0 * 65536 + b1 * 256 + b2) / 262144 % 64, (b0 * 65536 + b1 * 256 + b2) / 4096 % 64,
       (b0 * 65536 + b1 * 256 + b2) / 64 % 64, (b0 * 65536 + b1 * 256 + b2) % 64] 4
      = [b0, b1, b2] := by
  simp only [quantumBytes, List.getD_cons_zero, List.getD_cons_succ]
  simp only [Nat.add_one_sub_one, List.take_succ_cons, List.take_zero, List.cons.injEq, and_true]
  refine ⟨?_, ?_, ?_⟩ <;> omega

theorem quantumBytes_three (b0 b1 : Nat) (h0 : b0 < 256) (h1 : b1 < 256) :
    quantumBytes
      [(b0 * 65536 + b1 * 256) / 262144 % 64, (b0 * 65536 + b1 * 256) / 4096 % 64,
       (b0 * 65536 + b1 * 256) / 64 % 64] 3
      = [b0, b1] := by
  simp [quantumBytes]
  refine ⟨?_, ?_⟩ <;> omega

theorem quantumBytes_two (b0 : Nat) (h0 : b0 < 256) :
    quantumBytes [(b0 * 65536) / 262144 % 64, (b0 * 65536) / 4096 % 64] 2 = [b0] := by
  simp [quantumBytes]
  omega

theorem decodeQuanta_sextet_mod (x : Nat) (rest : Bytes) (dbuf : List Nat) :
    decodeQuanta (encodeStd (x % 64) :: rest) dbuf =
      if dbuf.length = 3 then
        (decodeQuanta rest []).map (fun tail => quantumBytes (dbuf ++ [x % 64]) 4 ++ tail)
      else decodeQuanta rest (dbuf ++ [x % 64]) :=
  decodeQuanta_sextet (x % 64) (Nat.mod_lt _ (by decide)) rest dbuf

theorem decodeQuanta_pad_two (d0 d1 : Nat) :
    decodeQuanta [padChar, padChar] [d0, d1] = some (quantumBytes [d0, d1] 2) := by
  simp [decodeQuanta, decodeMap, padChar, skipNewlines]

theorem decodeQuanta_pad_three (d0 d1 d2 : Nat) :
    decodeQuanta [padChar] [d0, d1, d2] = some (quantumBytes [d0, d1, d2] 3) := by
  simp [decodeQuanta, decodeMap, padChar, skipNewlines]

/-- Decoding the standard encoding of a byte sequence gives the sequence back. -/
theorem DecodeString_EncodeToString (bs : Bytes) (hb : ∀ b ∈ bs, b < 256) :
    DecodeString (EncodeToString bs) = some bs := by
  unfold DecodeString
  induction bs using EncodeToString.induct with
  | case1 => simp [EncodeToString, decodeQuanta]
  | case2 b0 =>
    have h0 : b0 < 256 := hb b0 (by simp)
    simp only [EncodeToString, decodeQuanta_sextet_mod, List.length_nil, List.length_cons,
      List.nil_append, List.cons_append, decodeQuanta_pad_two, quantumBytes_two b0 h0]
    simp
  | case3 b0 b1 =>
    have h0 : b0 < 256 := hb b0 (by simp)
    have h1 : b1 < 256 := hb b1 (by simp)
    simp only [EncodeToString, decodeQuanta_sextet_mod, List.length_nil, List.length_cons,
      List.nil_append, List.cons_append, decodeQuanta_pad_three,
      quantumBytes_three b0 b1 h0 h1]
    simp
  | case4 b0 b1 b2 rest ih =>
    have h0 : b0 < 256 := hb b0 (by simp)
    have h1 : b1 < 256 := hb b1 (by simp)
    have h2 : b2 < 256 := hb b2 (by simp)
    have hrest : ∀ b ∈ rest, b < 256 := fun b hmem => hb b (by simp [hmem])
    simp only [EncodeToString, decodeQuanta_sextet_mod, List.length_nil, List.length_cons,
      List.nil_append, List.cons_append, ih hrest, quantumBytes_four b0 b1 b2 h0 h1 h2]
    simp

theorem quantumBytes_lt (dbuf : List Nat) (dlen : Nat) : ∀ b ∈ quantumBytes dbuf dlen, b < 256 := by
  intro b hb
  have hmem := List.mem_of_mem_take hb
  simp only [List.mem_cons, List.mem_singleton, List.not_mem_nil, or_false] at hmem
  rcases hmem with h | h | h <;> subst h <;> exact Nat.mod_lt _ (by decide)

theorem decodeQuanta_lt (line : Bytes) :
    ∀ (dbuf : List Nat) (out : Bytes), decodeQuanta line dbuf = some out → ∀ b ∈ out, b < 256 := by
  induction line with
  | nil =>
    intro dbuf out h
    simp only [decodeQuanta] at h
    split at h
    · simp only [Option.some.injEq] at h
      subst h
      simp
    · simp at h
  | cons c rest ih =>
    intro dbuf out h
    simp only [decodeQuanta] at h
    split at h
    · split at h
      · cases hr : decodeQuanta rest [] with
        | none => simp [hr] at h
        | some tail =>
          simp only [hr, Option.map_some', Option.some.injEq] at h
          subst h
          intro b hb
          rcases List.mem_append.mp hb with hb | hb
          · exact quantumBytes_lt _ _ b hb
          · exact ih [] tail hr b hb
      · exact ih _ out h
    · split at h
      · exact ih _ out h
      · split at h
        · simp at h
        · split at h
          · simp at h
          · split at h
            · split at h
              · simp at h
              · split at h
                · simp at h
                · split at h
                  · simp at h
                  · simp only [Option.some.injEq] at h
                    subst h
                    exact quantumBytes_lt _ _
            · split at h
              · simp at h
              · simp only [Option.some.injEq] at h
                subst h
                exact quantumBytes_lt _ _

/-! ## `pem.Decode` and `ScannerSplitPEM` -/

theorem HasPrefix_iff (s pre : Bytes) : HasPrefix s pre = true ↔ pre <+: s := by
  simp [HasPrefix]

theorem HasSuffix_iff (s suf : Bytes) : HasSuffix s suf = true ↔ suf <:+ s := by
  simp [HasSuffix]

theorem HasPrefix_append (T X pre : Bytes) (h : HasPrefix T pre = true) :
    HasPrefix (T ++ X) pre = true := by
  rw [HasPrefix_iff] at *
  exact h.trans (List.prefix_append T X)

theorem HasPrefix_of_append (T X pre : Bytes) (h : HasPrefix (T ++ X) pre = true)
    (hl : pre.length ≤ T.length) : HasPrefix T pre = true := by
  rw [HasPrefix_iff] at *
  exact List.prefix_of_prefix_length_le h (List.prefix_append T X) hl

theorem HasPrefix_append_eq (T X pre : Bytes) (hl : pre.length ≤ T.length) :
    HasPrefix (T ++ X) pre = HasPrefix T pre := by
  cases h : HasPrefix T pre
  · cases h2 : HasPrefix (T ++ X) pre
    · rfl
    · rw [HasPrefix_of_append T X pre h2 hl] at h
      exact absurd h (by simp)
  · exact HasPrefix_append T X pre h

theorem Index_some_bound (sep : Bytes) : ∀ (s : Bytes) (i : Nat),
    Index sep s = some i → i + sep.length ≤ s.length := by
  intro s
  induction s with
  | nil =>
    intro i h
    simp only [Index] at h
    split at h
    · rename_i hp
      simp only [Option.some.injEq] at h
      subst h
      have := (List.isPrefixOf_iff_prefix.mp hp).length_le
      simpa using this
    · simp at h
  | cons c t ih =>
    intro i h
    simp only [Index] at h
    split at h
    · rename_i hp
      simp only [Option.some.injEq] at h
      subst h
      have := (List.isPrefixOf_iff_prefix.mp hp).length_le
      simpa using this
    · cases hk : Index sep t with
      | none => simp [hk] at h
      | some k =>
        simp only [hk, Option.map_some', Option.some.injEq] at h
        subst h
        have := ih k hk
        simp only [List.length_cons]
        omega

theorem Index_append_some (sep X : Bytes) : ∀ (T : Bytes) (i : Nat),
    Index sep T = some i → Index sep (T ++ X) = some i := by
  intro T
  induction T with
  | nil =>
    intro i h
    simp only [Index] at h
    split at h
    · rename_i hp
      simp only [Option.some.injEq] at h
      subst h
      have hsep : sep = [] := by simpa using List.isPrefixOf_iff_prefix.mp hp
      subst hsep
      cases X <;> simp [Index]
    · simp at h
  | cons c t ih =>
    intro i h
    simp only [Index] at h
    simp only [List.cons_append, Index]
    split at h
    · rename_i hp
      simp only [Option.some.injEq] at h
      subst h
      have hp2 : sep.isPrefixOf (c :: (t ++ X)) = true := HasPrefix_append (c :: t) X sep hp
      simp [hp2]
    · rename_i hp
      cases hk : Index sep t with
      | none => simp [hk] at h
      | some k =>
        simp only [hk, Option.map_some', Option.some.injEq] at h
        subst h
        have hb := Index_some_bound sep t k hk
        have hp2 : ¬ sep.isPrefixOf (c :: (t ++ X)) = true := by
          intro hc
          apply hp
          exact HasPrefix_of_append (c :: t) X sep hc (by simp only [List.length_cons]; omega)
        simp [hp2, ih k hk]

theorem Index_of_append (sep X : Bytes) : ∀ (T : Bytes) (i : Nat),
    Index sep (T ++ X) = some i → i + sep.length ≤ T.length → Index sep T = some i := by
  intro T
  induction T with
  | nil =>
    intro i h hl
    simp only [List.length_nil, Nat.le_zero_eq, Nat.add_eq_zero, List.length_eq_zero] at hl
    obtain ⟨rfl, rfl⟩ := hl
    simp [Index]
  | cons c t ih =>
    intro i h hl
    simp only [List.cons_append, Index, List.append_eq] at h
    simp only [Index]
    split at h
    · rename_i hp
      simp only [Option.some.injEq] at h
      subst h
      have hp2 : sep.isPrefixOf (c :: t) = true :=
        HasPrefix_of_append (c :: t) X sep hp (by simpa using hl)
      simp [hp2]
    · rename_i hp
      cases hk : Index sep (t ++ X) with
      | none => simp [hk] at h
      | some k =>
        simp only [hk, Option.map_some', Option.some.injEq] at h
        subst h
        have hp2 : ¬ sep.isPrefixOf (c :: t) = true := by
          intro hc
          exact hp (HasPrefix_append (c :: t) X sep hc)
        have := ih k hk (by simp only [List.length_cons] at hl; omega)
        simp [hp2, this]

theorem Index_some_drop (sep : Bytes) : ∀ (s : Bytes) (i : Nat),
    Index sep s = some i → sep <+: s.drop i := by
  intro s
  induction s with
  | nil =>
    intro i h
    simp only [Index] at h
    split at h
    · rename_i hp
      simp only [Option.some.injEq] at h
      subst h
      simpa using List.isPrefixOf_iff_prefix.mp hp
    · simp at h
  | cons c t ih =>
    intro i h
    simp only [Index] at h
    split at h
    · rename_i hp
      simp only [Option.some.injEq] at h
      subst h
      simpa using List.isPrefixOf_iff_prefix.mp hp
    · cases hk : Index sep t with
      | none => simp [hk] at h
      | some k =>
        simp only [hk, Option.map_some', Option.some.injEq] at h
        subst h
        simpa using ih k hk

theorem dropWhile_newline (L X : Bytes) (hL : 10 ∉ L) :
    (L ++ 10 :: X).dropWhile (fun c => c ≠ 10) = 10 :: X := by
  induction L with
  | nil => simp [List.dropWhile]
  | cons c t ih =>
    have hc : c ≠ 10 := fun h => hL (by simp [h])
    have ht : 10 ∉ t := fun h => hL (by simp [h])
    simpa [List.dropWhile, hc] using ih ht

theorem takeWhile_newline (L X : Bytes) (hL : 10 ∉ L) :
    (L ++ 10 :: X).takeWhile (fun c => c ≠ 10) = L := by
  induction L with
  | nil => simp [List.takeWhile]
  | cons c t ih =>
    have hc : c ≠ 10 := fun h => hL (by simp [h])
    have ht : 10 ∉ t := fun h => hL (by simp [h])
    simpa [List.takeWhile, hc] using ih ht

theorem dropWhile_no_newline (d : Bytes) (h : 10 ∉ d) :
    d.dropWhile (fun c => c ≠ 10) = [] := by
  induction d with
  | nil => simp
  | cons c t ih =>
    have hc : c ≠ 10 := fun h2 => h (by simp [h2])
    have ht : 10 ∉ t := fun h2 => h (by simp [h2])
    simpa [List.dropWhile, hc] using ih ht

theorem split_newline (d : Bytes) : 10 ∉ d ∨ ∃ L X, d = L ++ 10 :: X ∧ 10 ∉ L := by
  induction d with
  | nil => simp
  | cons c t ih =>
    by_cases hc : c = 10
    · exact Or.inr ⟨[], t, by simp [hc], by simp⟩
    · rcases ih with h | ⟨L, X, h, hL⟩
      · exact Or.inl (by simp [h, Ne.symm hc])
      · exact Or.inr ⟨c :: L, X, by simp [h], by simp [hL, Ne.symm hc]⟩

theorem getLine_newline (L X : Bytes) (hL : 10 ∉ L) :
    getLine (L ++ 10 :: X) = (lineBody L, X) := by
  simp only [getLine, dropWhile_newline L X hL, takeWhile_newline L X hL, lineBody]

theorem getLine_no_newline (d : Bytes) (h : 10 ∉ d) :
    getLine d = (trimRightSpaceTab d, []) := by
  simp only [getLine, dropWhile_no_newline d h]

theorem getLine_suffix (d : Bytes) : ∃ C, d = C ++ (getLine d).2 := by
  rcases split_newline d with h | ⟨L, X, rfl, hL⟩
  · exact ⟨d, by simp [getLine_no_newline d h]⟩
  · exact ⟨L ++ [10], by simp [getLine_newline L X hL]⟩

theorem getLine_snd_ne_nil (d : Bytes) (h : (getLine d).2 ≠ []) :
    ∃ L, 10 ∉ L ∧ d = L ++ 10 :: (getLine d).2 ∧
      ∀ X, getLine (L ++ 10 :: X) = ((getLine d).1, X) := by
  rcases split_newline d with hd | ⟨L, X, rfl, hL⟩
  · simp [getLine_no_newline d hd] at h
  · refine ⟨L, hL, by simp [getLine_newline L X hL], ?_⟩
    intro Y
    simp [getLine_newline _ _ hL]

theorem trimRightSpaceTab_isPrefix (l : Bytes) : trimRightSpaceTab l <+: l :=
  List.rdropWhile_prefix (fun c => decide (c = 32 ∨ c = 9)) l

theorem mem_trimRightSpaceTab (l : Bytes) (x : Nat) (h32 : x ≠ 32) (h9 : x ≠ 9) :
    x ∈ trimRightSpaceTab l ↔ x ∈ l := by
  constructor
  · exact fun h => (trimRightSpaceTab_isPrefix l).subset h
  · intro h
    induction l using List.reverseRecOn with
    | nil => simp at h
    | append_singleton t a ih =>
      by_cases ha : (a = 32 ∨ a = 9)
      · have : trimRightSpaceTab (t ++ [a]) = trimRightSpaceTab t :=
          List.rdropWhile_concat_pos (fun c => decide (c = 32 ∨ c = 9)) t a (by simpa using ha)
        rw [this]
        apply ih
        rcases List.mem_append.mp h with h | h
        · exact h
        · simp only [List.mem_singleton] at h
          subst h
          rcases ha with ha | ha
          · exact absurd ha h32
          · exact absurd ha h9
      · have : trimRightSpaceTab (t ++ [a]) = t ++ [a] :=
          List.rdropWhile_concat_neg (fun c => decide (c = 32 ∨ c = 9)) t a (by simpa using ha)
        rw [this]
        exact h

theorem getLine_fst_isPrefix (d : Bytes) : (getLine d).1 <+: d.takeWhile (fun c => c ≠ 10) := by
  rcases split_newline d with hd | ⟨L, X, rfl, hL⟩
  · rw [getLine_no_newline d hd]
    have : d.takeWhile (fun c => c ≠ 10) = d := by
      rw [List.takeWhile_eq_self_iff]
      intro x hx
      simpa using fun h : x = 10 => hd (h ▸ hx)
    rw [this]
    exact trimRightSpaceTab_isPrefix d
  · rw [getLine_newline L X hL, takeWhile_newline L X hL]
    unfold lineBody
    split
    · exact (trimRightSpaceTab_isPrefix _).trans (List.dropLast_prefix L)
    · exact trimRightSpaceTab_isPrefix _

theorem not_mem_takeWhile_newline (d : Bytes) : 10 ∉ d.takeWhile (fun c => c ≠ 10) := by
  intro h
  have := List.mem_takeWhile_imp h
  simp at this

theorem getLine_fst_no_newline (d : Bytes) : 10 ∉ (getLine d).1 :=
  fun h => not_mem_takeWhile_newline d ((getLine_fst_isPrefix d).subset h)

theorem mem_getLine_fst (d : Bytes) (x : Nat) (h32 : x ≠ 32) (h9 : x ≠ 9) (h13 : x ≠ 13) :
    x ∈ (getLine d).1 ↔ x ∈ d.takeWhile (fun c => c ≠ 10) := by
  constructor
  · exact fun h => (getLine_fst_isPrefix d).subset h
  · intro h
    rcases split_newline d with hd | ⟨L, X, rfl, hL⟩
    · rw [getLine_no_newline d hd, mem_trimRightSpaceTab _ _ h32 h9]
      exact (List.takeWhile_prefix _).subset h
    · rw [getLine_newline L X hL]
      rw [takeWhile_newline L X hL] at h
      unfold lineBody
      rw [mem_trimRightSpaceTab _ _ h32 h9]
      split
      · rename_i hlast
        have hne : L ≠ [] := by
          intro hnil
          simp [hnil] at hlast
        have hsplit := List.dropLast_append_getLast hne
        have hl13 : L.getLast hne = 13 := by
          have := List.getLast?_eq_getLast L hne
          rw [this] at hlast
          simpa using hlast
        rw [← hsplit] at h
        rcases List.mem_append.mp h with h | h
        · exact h
        · simp only [List.mem_singleton] at h
          rw [hl13] at h
          exact absurd h h13
      · exact h

theorem Index_colon_none (l : Bytes) : Index colon l = none ↔ 58 ∉ l := by
  induction l with
  | nil => simp [Index, colon]
  | cons c t ih =>
    simp only [Index, colon, List.isPrefixOf, List.mem_cons]
    by_cases hc : c = 58
    · simp [hc]
    · have : ¬ (58 = c) := fun h => hc h.symm
      simp [hc, this, ← ih, colon]

theorem Cut_colon_none (l : Bytes) : Cut l colon = none ↔ 58 ∉ l := by
  simp [Cut, Index_colon_none]

theorem Cut_getLine_none (d : Bytes) :
    Cut (getLine d).1 colon = none ↔ 58 ∉ d.takeWhile (fun c => c ≠ 10) := by
  rw [Cut_colon_none, mem_getLine_fst d 58 (by decide) (by decide) (by decide)]

theorem takeWhile_prefix_append (p : Nat → Bool) (T R : Bytes) :
    T.takeWhile p <+: (T ++ R).takeWhile p := by
  induction T with
  | nil => simp
  | cons c t ih =>
    simp only [List.cons_append, List.takeWhile]
    cases p c
    · simp
    · simpa using ih

theorem Cut_getLine_none_of_append (T R : Bytes) (h : Cut (getLine (T ++ R)).1 colon = none) :
    Cut (getLine T).1 colon = none := by
  rw [Cut_getLine_none] at *
  exact fun hm => h ((takeWhile_prefix_append _ T R).subset hm)

theorem parseHeaders_local : ∀ (fuel : Nat) (d : Bytes) (hd0 hd : List (Bytes × Bytes)) (r3 : Bytes),
    parseHeaders fuel d hd0 = some (hd, r3) →
    ∃ C, d = C ++ r3 ∧ r3 ≠ [] ∧ Cut (getLine r3).1 colon = none ∧
      ∀ (X : Bytes) (fuel2 : Nat), X ≠ [] → Cut (getLine X).1 colon = none →
        (C ++ X).length ≤ fuel2 → parseHeaders fuel2 (C ++ X) hd0 = some (hd, X) := by
  intro fuel
  induction fuel with
  | zero => intro d hd0 hd r3 h; simp [parseHeaders] at h
  | succ fuel ih =>
    intro d hd0 hd r3 h
    simp only [parseHeaders] at h
    split at h
    · simp at h
    · rename_i hne
      split at h
      · rename_i hcut
        simp only [Option.some.injEq, Prod.mk.injEq] at h
        obtain ⟨rfl, rfl⟩ := h
        refine ⟨[], by simp, by simpa using hne, hcut, ?_⟩
        intro X fuel2 hX hXc hlen
        cases fuel2 with
        | zero =>
          simp only [List.nil_append, Nat.le_zero_eq, List.length_eq_zero] at hlen
          exact absurd hlen hX
        | succ f =>
          have hXl : ¬ X.length = 0 := by simpa using hX
          simp [parseHeaders, hXl, hXc]
      · rename_i key val hcut
        obtain ⟨C, hC, hr3, hr3c, hloc⟩ := ih _ _ _ _ h
        have hsnd : (getLine d).2 ≠ [] := by
          rw [hC]
          simp [hr3]
        obtain ⟨L, hL, hd, hgl⟩ := getLine_snd_ne_nil d hsnd
        refine ⟨L ++ 10 :: C, ?_, hr3, hr3c, ?_⟩
        · rw [List.append_assoc, List.cons_append, ← hC]
          exact hd
        · intro X fuel2 hX hXc hlen
          cases fuel2 with
          | zero => simp at hlen
          | succ f =>
            have hne2 : ¬ (L ++ 10 :: C ++ X).length = 0 := by simp
            simp only [parseHeaders, hne2, if_false]
            rw [List.append_assoc, List.cons_append, hgl (C ++ X)]
            simp only [hcut]
            apply hloc X f hX hXc
            simp only [List.append_assoc, List.cons_append, List.length_append,
              List.length_cons] at hlen ⊢
            omega

theorem findStart_local (I r1 : Bytes) (h : findStart I = some r1) :
    ∃ C1, I = C1 ++ r1 ∧ 11 ≤ C1.length ∧ ∀ X, findStart (C1 ++ X) = some X := by
  unfold findStart at h
  split at h
  · rename_i hp
    simp only [Option.some.injEq] at h
    obtain ⟨t, ht⟩ := (HasPrefix_iff _ _).mp hp
    refine ⟨pemStart.tail, ?_, by decide, ?_⟩
    · rw [← h, ← ht]
      simp [pemStart]
    · intro X
      have : HasPrefix (pemStart.tail ++ X) pemStart.tail = true :=
        (HasPrefix_iff _ _).mpr (List.prefix_append _ _)
      simp only [findStart, this, if_true]
      simp [pemStart]
  · rename_i hp
    cases hi : Index pemStart I with
    | none => simp [Cut, hi] at h
    | some i =>
      simp only [Cut, hi, Option.map_some', Option.some.injEq] at h
      have hb := Index_some_bound pemStart I i hi
      have hlen : (I.take (i + pemStart.length)).length = i + pemStart.length := by
        simp only [List.length_take]
        omega
      have hI : I = I.take (i + pemStart.length) ++ r1 := by
        rw [← h]
        exact (List.take_append_drop _ _).symm
      refine ⟨I.take (i + pemStart.length), hI, ?_, ?_⟩
      · rw [hlen]
        simp [pemStart]
      · intro X
        have hC : Index pemStart (I.take (i + pemStart.length)) = some i := by
          apply Index_of_append pemStart r1
          · rw [← hI]; exact hi
          · rw [hlen]
        have hX := Index_append_some pemStart X _ _ hC
        have hpre : HasPrefix (I.take (i + pemStart.length) ++ X) pemStart.tail = false := by
          rw [HasPrefix_append_eq _ _ _ (by rw [hlen]; simp [pemStart])]
          cases hh : HasPrefix (I.take (i + pemStart.length)) pemStart.tail
          · rfl
          · exfalso
            apply hp
            rw [hI]
            exact HasPrefix_append _ _ _ hh
        simp only [findStart, hpre, Cut, hX, Option.map_some', Bool.false_eq_true, if_false,
          Option.some.injEq]
        rw [List.drop_append_of_le_length (by rw [hlen])]
        rw [List.drop_of_length_le (by rw [hlen])]
        simp

theorem decodeBody_retry (ty : Bytes) (hd : List (Bytes × Bytes)) (rest r : Bytes)
    (h : decodeBody ty hd rest = .retry r) : r = rest := by
  unfold decodeBody at h
  split at h
  · simpa using h.symm
  · simp only at h
    split at h
    · simpa using h.symm
    · split at h
      · simpa using h.symm
      · split at h
        · simpa using h.symm
        · split at h
          · simpa using h.symm
          · simp at h

theorem decodeBody_cases (ty : Bytes) (hd : List (Bytes × Bytes)) (rest : Bytes) :
    decodeBody ty hd rest = .retry rest ∨ ∃ p R, decodeBody ty hd rest = .done p R := by
  unfold decodeBody
  split
  · exact Or.inl rfl
  · simp only
    split
    · exact Or.inl rfl
    · split
      · exact Or.inl rfl
      · split
        · exact Or.inl rfl
        · split
          · exact Or.inl rfl
          · exact Or.inr ⟨_, _, rfl⟩

theorem decodeBody_eq_done_iff (ty : Bytes) (hd : List (Bytes × Bytes)) (rest : Bytes)
    (p : Block) (R : Bytes) :
    decodeBody ty hd rest = .done p R ↔
      ∃ e et bytes, findEnd hd rest = some (e, et) ∧
        ty.length + 5 ≤ (rest.drop et).length ∧
        HasPrefix ((rest.drop et).take (ty.length + 5)) ty = true ∧
        HasSuffix ((rest.drop et).take (ty.length + 5)) pemEndOfLine = true ∧
        (getLine ((rest.drop et).drop (ty.length + 5))).1 = [] ∧
        decodeQuanta (removeSpacesAndTabs (rest.take e)) [] = some bytes ∧
        p = { Typ := ty, Headers := hd, Bytes := bytes } ∧
        R = (getLine (rest.drop (e + 9))).2 := by
  have h5 : pemEndOfLine.length = 5 := rfl
  have h10 : pemEnd.length = 10 := rfl
  unfold decodeBody
  constructor
  · intro h
    split at h
    · simp at h
    · rename_i e et hfe
      simp only [h5, h10] at h
      split at h
      · simp at h
      · rename_i hlen
        split at h
        · simp at h
        · rename_i hchk
          split at h
          · simp at h
          · rename_i hline
            split at h
            · simp at h
            · rename_i bytes hb
              simp only [Attempt.done.injEq] at h
              refine ⟨e, et, bytes, hfe, by omega, ?_, ?_, ?_, hb, h.1.symm, ?_⟩
              · have := hchk; simp at this; exact this.1
              · have := hchk; simp at this; exact this.2
              · simpa using hline
              · rw [← h.2]; rfl
  · rintro ⟨e, et, bytes, hfe, hlen, hpre, hsuf, hline, hb, rfl, rfl⟩
    simp only [hfe, h5, h10]
    have hlen2 : ¬ (rest.drop et).length < ty.length + 5 := by omega
    simp only [hlen2, hpre, hsuf, hline, hb, if_false, Bool.not_true, Bool.or_self,
      Bool.false_eq_true, List.length_nil, ne_eq, not_true_eq_false]
    rfl

theorem getLine_append_of_mem (D R : Bytes) (h : 10 ∈ D) :
    getLine (D ++ R) = ((getLine D).1, (getLine D).2 ++ R) := by
  rcases split_newline D with hd | ⟨L, X, rfl, hL⟩
  · exact absurd h hd
  · rw [List.append_assoc, List.cons_append, getLine_newline L _ hL, getLine_newline L X hL]

theorem getLine_snd_append_no_newline (pre Z : Bytes) (h : 10 ∉ pre) :
    (getLine (pre ++ Z)).2 = (getLine Z).2 := by
  rcases split_newline Z with hz | ⟨L, X, rfl, hL⟩
  · have : 10 ∉ pre ++ Z := by simp [h, hz]
    rw [getLine_no_newline _ this, getLine_no_newline _ hz]
  · have hpl : 10 ∉ pre ++ L := by simp [h, hL]
    rw [← List.append_assoc, getLine_newline _ X hpl, getLine_newline L X hL]

theorem pemEnd_length : pemEnd.length = 10 := rfl

theorem pemEnd_tail_length : pemEnd.tail.length = 9 := rfl

theorem findEnd_cases (hd : List (Bytes × Bytes)) (rest : Bytes) (e et : Nat)
    (h : findEnd hd rest = some (e, et)) :
    (e = 0 ∧ et = 9 ∧ hd.length = 0 ∧ HasPrefix rest pemEnd.tail = true) ∨
    (et = e + 10 ∧ Index pemEnd rest = some e ∧
      ¬ (hd.length = 0 ∧ HasPrefix rest pemEnd.tail = true)) := by
  unfold findEnd at h
  split at h
  · rename_i hc
    simp only [Option.some.injEq, Prod.mk.injEq] at h
    exact Or.inl ⟨h.1.symm, h.2.symm, hc.1, hc.2⟩
  · rename_i hc
    cases hi : Index pemEnd rest with
    | none => simp [hi] at h
    | some i =>
      simp only [hi, Option.map_some', Option.some.injEq, Prod.mk.injEq] at h
      obtain ⟨rfl, rfl⟩ := h
      exact Or.inr ⟨rfl, rfl, hc⟩

theorem findEnd_special (hd : List (Bytes × Bytes)) (rest : Bytes) (h0 : hd.length = 0)
    (hp : HasPrefix rest pemEnd.tail = true) : findEnd hd rest = some (0, 9) := by
  simp only [findEnd, h0, hp, and_self, if_true]
  rfl

theorem findEnd_index (hd : List (Bytes × Bytes)) (rest : Bytes) (e : Nat)
    (hi : Index pemEnd rest = some e) (hc : ¬ (hd.length = 0 ∧ HasPrefix rest pemEnd.tail = true)) :
    findEnd hd rest = some (e, e + 10) := by
  simp only [findEnd, hc, if_false, hi, Option.map_some']
  rfl

theorem findEnd_bound (hd : List (Bytes × Bytes)) (rest : Bytes) (e et : Nat)
    (h : findEnd hd rest = some (e, et)) : e + 9 ≤ et ∧ et ≤ e + 10 ∧ et ≤ rest.length := by
  rcases findEnd_cases hd rest e et h with ⟨rfl, rfl, -, hp⟩ | ⟨rfl, hi, -⟩
  · have := ((HasPrefix_iff _ _).mp hp).length_le
    rw [pemEnd_tail_length] at this
    omega
  · have := Index_some_bound pemEnd rest e hi
    rw [pemEnd_length] at this
    omega

theorem findEnd_append (hd : List (Bytes × Bytes)) (T R : Bytes) (e et : Nat)
    (h : findEnd hd T = some (e, et)) : findEnd hd (T ++ R) = some (e, et) := by
  rcases findEnd_cases hd T e et h with ⟨rfl, rfl, h0, hp⟩ | ⟨rfl, hi, hc⟩
  · exact findEnd_special hd _ h0 (HasPrefix_append T R _ hp)
  · apply findEnd_index hd _ e (Index_append_some pemEnd R T e hi)
    have hb := Index_some_bound pemEnd T e hi
    rw [pemEnd_length] at hb
    rw [HasPrefix_append_eq T R _ (by rw [pemEnd_tail_length]; omega)]
    exact hc

theorem findEnd_of_append (hd : List (Bytes × Bytes)) (T R : Bytes) (e et : Nat)
    (h : findEnd hd (T ++ R) = some (e, et)) (hl : e + 10 ≤ T.length) :
    findEnd hd T = some (e, et) := by
  rcases findEnd_cases hd _ e et h with ⟨rfl, rfl, h0, hp⟩ | ⟨rfl, hi, hc⟩
  · exact findEnd_special hd _ h0 (HasPrefix_of_append T R _ hp (by
      rw [pemEnd_tail_length]; omega))
  · apply findEnd_index hd _ e (Index_of_append pemEnd R T e hi (by rw [pemEnd_length]; exact hl))
    intro hcc
    exact hc ⟨hcc.1, HasPrefix_append T R _ hcc.2⟩

/-- Extending the input of a successful `decodeBody` that ends in a newline does
not change its result. -/
theorem decodeBody_done_append (ty : Bytes) (hd : List (Bytes × Bytes)) (T R : Bytes)
    (p : Block) (r : Bytes) (h : decodeBody ty hd T = .done p r)
    (hT : T.getLast? = some 10) : decodeBody ty hd (T ++ R) = .done p (r ++ R) := by
  rw [decodeBody_eq_done_iff] at h ⊢
  obtain ⟨e, et, bytes, hfe, hlen, hpre, hsuf, hline, hb, hp, hr⟩ := h
  obtain ⟨hb1, hb2, hb3⟩ := findEnd_bound hd T e et hfe
  have hdropet : (T ++ R).drop et = T.drop et ++ R := List.drop_append_of_le_length hb3
  have hZ : 10 ∈ (T.drop et).drop (ty.length + 5) := by
    by_cases hz : (T.drop et).drop (ty.length + 5) = []
    · exfalso
      have htr : (T.drop et).take (ty.length + 5) = T.drop et := by
        have := List.take_append_drop (ty.length + 5) (T.drop et)
        rw [hz, List.append_nil] at this
        exact this
      rw [htr] at hsuf
      obtain ⟨x, hx⟩ := (HasSuffix_iff _ _).mp hsuf
      have hT2 : T = T.take et ++ x ++ pemEndOfLine := by
        rw [List.append_assoc, hx, List.take_append_drop]
      rw [hT2] at hT
      simp [pemEndOfLine] at hT
    · have hT2 : T = (T.take et ++ (T.drop et).take (ty.length + 5)) ++
          (T.drop et).drop (ty.length + 5) := by
        rw [List.append_assoc, List.take_append_drop, List.take_append_drop]
      rw [hT2, List.getLast?_append_of_ne_nil _ hz] at hT
      exact List.mem_of_getLast?_eq_some hT
  refine ⟨e, et, bytes, findEnd_append hd T R e et hfe, ?_, ?_, ?_, ?_, ?_, hp, ?_⟩
  · rw [hdropet, List.length_append]; omega
  · rw [hdropet, List.take_append_of_le_length hlen]; exact hpre
  · rw [hdropet, List.take_append_of_le_length hlen]; exact hsuf
  · rw [hdropet, List.drop_append_of_le_length hlen, getLine_append_of_mem _ _ hZ]
    exact hline
  · rw [List.take_append_of_le_length (by omega)]; exact hb
  · rw [List.drop_append_of_le_length (by omega)]
    have hmem : 10 ∈ T.drop (e + 9) := by
      have : (T.drop et).drop (ty.length + 5) = (T.drop (e + 9)).drop (et + (ty.length + 5) - (e + 9)) := by
        rw [List.drop_drop, List.drop_drop]
        congr 1
        omega
      rw [this] at hZ
      exact List.mem_of_mem_drop hZ
    rw [getLine_append_of_mem _ _ hmem, hr]

theorem trailer_eq (tr ty : Bytes) (hlen : tr.length = ty.length + 5)
    (hpre : HasPrefix tr ty = true) (hsuf : HasSuffix tr pemEndOfLine = true) :
    tr = ty ++ pemEndOfLine := by
  obtain ⟨s, hs⟩ := (HasPrefix_iff _ _).mp hpre
  obtain ⟨x, hx⟩ := (HasSuffix_iff _ _).mp hsuf
  have hsl : s.length = 5 := by
    have := congrArg List.length hs
    simp only [List.length_append] at this
    omega
  have hxl : x.length = ty.length := by
    have := congrArg List.length hx
    simp only [List.length_append, pemEndOfLine, List.length_cons, List.length_nil] at this
    omega
  have h2 : ty ++ s = x ++ pemEndOfLine := by rw [hs, hx]
  have := List.append_inj h2 hxl.symm
  rw [← hs, this.2]

/-- What follows the END marker up to the input after the trailer: the text
from the last byte of the marker on is a newline-free lead and the rest of the
END line. -/
theorem drop_end_eq (ty : Bytes) (hd : List (Bytes × Bytes)) (I : Bytes) (e et : Nat)
    (hty : 10 ∉ ty) (hfe : findEnd hd I = some (e, et))
    (hlen : ty.length + 5 ≤ (I.drop et).length)
    (hpre : HasPrefix ((I.drop et).take (ty.length + 5)) ty = true)
    (hsuf : HasSuffix ((I.drop et).take (ty.length + 5)) pemEndOfLine = true) :
    ∃ lead, 10 ∉ lead ∧ lead.length = et - (e + 9) + (ty.length + 5) ∧
      I.drop (e + 9) = lead ++ (I.drop et).drop (ty.length + 5) := by
  have htr := trailer_eq ((I.drop et).take (ty.length + 5)) ty
    (by rw [List.length_take]; omega) hpre hsuf
  have hsplit := List.take_append_drop (ty.length + 5) (I.drop et)
  rw [htr] at hsplit
  have hno : 10 ∉ ty ++ pemEndOfLine := by simp [hty, pemEndOfLine]
  rcases findEnd_cases hd I e et hfe with ⟨rfl, rfl, -, -⟩ | ⟨rfl, hi, -⟩
  · refine ⟨ty ++ pemEndOfLine, hno, by simp [pemEndOfLine], ?_⟩
    rw [hsplit]
  · obtain ⟨w, hw⟩ := Index_some_drop pemEnd I e hi
    have h9 : I.drop (e + 9) = 32 :: w := by
      rw [← List.drop_drop, ← hw]
      rfl
    have h10 : I.drop (e + 10) = w := by
      rw [← List.drop_drop, ← hw]
      rfl
    refine ⟨32 :: (ty ++ pemEndOfLine), ?_, ?_, ?_⟩
    · simp only [List.mem_cons, not_or]
      exact ⟨by decide, hno⟩
    · simp only [List.length_cons, List.length_append, pemEndOfLine, List.length_nil]
      omega
    · rw [h9, List.cons_append, hsplit, h10]

/-- A successful `decodeBody` that leaves `R` unread succeeds on the input
without `R`, leaving nothing; the input without `R` ends in a newline. -/
theorem decodeBody_done_of_append (ty : Bytes) (hd : List (Bytes × Bytes)) (T R : Bytes)
    (p : Block) (h : decodeBody ty hd (T ++ R) = .done p R) (hR : R ≠ [])
    (hty : 10 ∉ ty) : decodeBody ty hd T = .done p [] ∧ T.getLast? = some 10 := by
  rw [decodeBody_eq_done_iff] at h ⊢
  obtain ⟨e, et, bytes, hfe, hlen, hpre, hsuf, hline, hb, hp, hr⟩ := h
  obtain ⟨hb1, hb2, hb3⟩ := findEnd_bound hd _ e et hfe
  obtain ⟨lead, hlead, hleadlen, hdrop⟩ := drop_end_eq ty hd _ e et hty hfe hlen hpre hsuf
  -- the rest of the END line ends in a newline, followed by `R`
  have hR2 : R = (getLine (((T ++ R).drop et).drop (ty.length + 5))).2 := by
    have h1 := hr
    rw [hdrop, getLine_snd_append_no_newline _ _ hlead] at h1
    exact h1
  have hne : (getLine (((T ++ R).drop et).drop (ty.length + 5))).2 ≠ [] := by
    rw [← hR2]; exact hR
  obtain ⟨L, hL, hZ, hgl⟩ := getLine_snd_ne_nil _ hne
  rw [← hR2] at hZ
  -- lengths
  have hZlen := congrArg List.length hZ
  simp only [List.length_drop, List.length_append, List.length_cons] at hZlen hlen
  have hTlen : T.length = et + (ty.length + 5) + L.length + 1 := by omega
  have hdropet : (T ++ R).drop et = T.drop et ++ R :=
    List.drop_append_of_le_length (by omega)
  have hlenT : ty.length + 5 ≤ (T.drop et).length := by
    rw [List.length_drop]; omega
  have hZT : (T.drop et).drop (ty.length + 5) = L ++ [10] := by
    have h1 : ((T ++ R).drop et).drop (ty.length + 5) = (T.drop et).drop (ty.length + 5) ++ R := by
      rw [hdropet, List.drop_append_of_le_length hlenT]
    rw [h1] at hZ
    have h2 : (T.drop et).drop (ty.length + 5) ++ R = (L ++ [10]) ++ R := by
      rw [hZ]; simp
    exact List.append_cancel_right h2
  have hlast : T.getLast? = some 10 := by
    have hT2 : T = (T.take et ++ (T.drop et).take (ty.length + 5)) ++ (L ++ [10]) := by
      rw [← hZT, List.append_assoc, List.take_append_drop, List.take_append_drop]
    rw [hT2, ← List.append_assoc, List.getLast?_concat]
  refine ⟨⟨e, et, bytes, findEnd_of_append hd T R e et hfe (by omega), hlenT, ?_, ?_, ?_, ?_,
    hp, ?_⟩, hlast⟩
  · rw [hdropet, List.take_append_of_le_length hlenT] at hpre; exact hpre
  · rw [hdropet, List.take_append_of_le_length hlenT] at hsuf; exact hsuf
  · rw [hZT]
    have := hgl []
    rw [this]
    exact hline
  · rw [List.take_append_of_le_length (by omega)] at hb; exact hb
  · have h1 : (T ++ R).drop (e + 9) = T.drop (e + 9) ++ R :=
      List.drop_append_of_le_length (by omega)
    rw [h1, hZ] at hdrop
    have h2 : T.drop (e + 9) ++ R = (lead ++ L ++ [10]) ++ R := by
      rw [hdrop]; simp
    have h3 := List.append_cancel_right h2
    rw [h3, List.append_assoc]
    have hno : 10 ∉ lead ++ L := by simp [hlead, hL]
    have := getLine_newline (lead ++ L) [] hno
    simp only [List.append_assoc] at this
    rw [show lead ++ (L ++ [10]) = lead ++ (L ++ 10 :: []) from rfl, this]

theorem decodeBody_done_suffix (ty : Bytes) (hd : List (Bytes × Bytes)) (r3 : Bytes)
    (p : Block) (R : Bytes) (h : decodeBody ty hd r3 = .done p R) : ∃ T3, r3 = T3 ++ R := by
  rw [decodeBody_eq_done_iff] at h
  obtain ⟨e, et, bytes, -, -, -, -, -, -, -, hr⟩ := h
  obtain ⟨C, hC⟩ := getLine_suffix (r3.drop (e + 9))
  refine ⟨r3.take (e + 9) ++ C, ?_⟩
  rw [hr, List.append_assoc, ← hC, List.take_append_drop]

/-- The stages of one iteration of `pem.Decode` before the END line is looked
for depend only on the input they consume. -/
theorem attempt_stage (I : Bytes) :
    attempt I = .notFound ∨ attempt I = .eof ∨
    (∃ C r2, I = C ++ r2 ∧ C ≠ [] ∧ attempt I = .retry r2 ∧
      (r2 ≠ [] → ∀ X, attempt (C ++ X) = .retry X)) ∨
    (∃ C ty hd r3, I = C ++ r3 ∧ C ≠ [] ∧ 10 ∉ ty ∧ r3 ≠ [] ∧
      Cut (getLine r3).1 colon = none ∧ attempt I = decodeBody ty hd r3 ∧
      ∀ X, X ≠ [] → Cut (getLine X).1 colon = none → attempt (C ++ X) = decodeBody ty hd X) := by
  cases hfs : findStart I with
  | none => exact Or.inl (by simp [attempt, hfs])
  | some r1 =>
    obtain ⟨C1, hC1, hC1len, hC1loc⟩ := findStart_local I r1 hfs
    have hC1ne : C1 ≠ [] := by
      intro h; rw [h] at hC1len; simp at hC1len
    by_cases hsuf : HasSuffix (getLine r1).1 pemEndOfLine = true
    · cases hph : parseHeaders (getLine r1).2.length (getLine r1).2 [] with
      | none => exact Or.inr (Or.inl (by simp [attempt, hfs, hsuf, hph]))
      | some res =>
        obtain ⟨hd, r3⟩ := res
        obtain ⟨C3, hC3, hr3, hr3c, hloc⟩ := parseHeaders_local _ _ _ _ _ hph
        have hsnd : (getLine r1).2 ≠ [] := by
          rw [hC3]; simp [hr3]
        obtain ⟨L, hL, hLd, hgl⟩ := getLine_snd_ne_nil r1 hsnd
        refine Or.inr (Or.inr (Or.inr ⟨C1 ++ L ++ 10 :: C3,
          (getLine r1).1.take ((getLine r1).1.length - pemEndOfLine.length), hd, r3,
          ?_, by simp [hC1ne], ?_, hr3, hr3c, by simp [attempt, hfs, hsuf, hph], ?_⟩))
        · rw [hC1, hLd, hC3]; simp
        · exact fun h => getLine_fst_no_newline r1 (List.mem_of_mem_take h)
        · intro X hX hXc
          have h1 : C1 ++ L ++ 10 :: C3 ++ X = C1 ++ (L ++ 10 :: (C3 ++ X)) := by simp
          have h2 := hloc X (C3 ++ X).length hX hXc (le_refl _)
          simp only [attempt, h1, hC1loc, hgl, hsuf, h2]
          simp
    · have hretry : attempt I = .retry (getLine r1).2 := by simp [attempt, hfs, hsuf]
      obtain ⟨C2, hC2⟩ := getLine_suffix r1
      refine Or.inr (Or.inr (Or.inl ⟨C1 ++ C2, (getLine r1).2, ?_, by simp [hC1ne], hretry, ?_⟩))
      · rw [List.append_assoc, ← hC2]; exact hC1
      · intro hsnd X
        obtain ⟨L, hL, hLd, hgl⟩ := getLine_snd_ne_nil r1 hsnd
        have hC2eq : C2 = L ++ [10] := by
          have h1 : C2 ++ (getLine r1).2 = (L ++ [10]) ++ (getLine r1).2 := by
            rw [← hC2]; simpa using hLd
          exact List.append_cancel_right h1
        have h1 : C1 ++ C2 ++ X = C1 ++ (L ++ 10 :: X) := by rw [hC2eq]; simp
        simp only [attempt, h1, hC1loc, hgl, hsuf]
        simp

theorem attempt_retry_suffix (I I2 : Bytes) (h : attempt I = .retry I2) :
    ∃ C, I = C ++ I2 ∧ C ≠ [] := by
  rcases attempt_stage I with h1 | h1 | ⟨C, r2, hI, hC, hr, -⟩ | ⟨C, ty, hd, r3, hI, hC, -, -, -, hr, -⟩
  · rw [h1] at h; simp at h
  · rw [h1] at h; simp at h
  · rw [hr] at h
    simp only [Attempt.retry.injEq] at h
    exact ⟨C, h ▸ hI, hC⟩
  · rw [hr] at h
    have := decodeBody_retry _ _ _ _ h
    exact ⟨C, this ▸ hI, hC⟩

theorem attempt_done_suffix (I : Bytes) (p : Block) (R : Bytes) (h : attempt I = .done p R) :
    ∃ T, I = T ++ R := by
  rcases attempt_stage I with h1 | h1 | ⟨C, r2, hI, hC, hr, -⟩ | ⟨C, ty, hd, r3, hI, hC, -, -, -, hr, -⟩
  · rw [h1] at h; simp at h
  · rw [h1] at h; simp at h
  · rw [hr] at h; simp at h
  · rw [hr] at h
    obtain ⟨T3, hT3⟩ := decodeBody_done_suffix _ _ _ _ _ h
    exact ⟨C ++ T3, by rw [hI, hT3]; simp⟩

theorem decodeLoop_suffix : ∀ (fuel : Nat) (I : Bytes) (p : Block) (R : Bytes),
    decodeLoop fuel I = some (p, R) → ∃ T, I = T ++ R := by
  intro fuel
  induction fuel with
  | zero => intro I p R h; simp [decodeLoop] at h
  | succ fuel ih =>
    intro I p R h
    simp only [decodeLoop] at h
    split at h
    · simp at h
    · simp at h
    · rename_i r2 hat
      obtain ⟨C, hC, -⟩ := attempt_retry_suffix _ _ hat
      obtain ⟨T, hT⟩ := ih _ _ _ h
      exact ⟨C ++ T, by rw [hC, hT]; simp⟩
    · rename_i p2 r2 hat
      simp only [Option.some.injEq, Prod.mk.injEq] at h
      obtain ⟨rfl, rfl⟩ := h
      exact attempt_done_suffix _ _ _ hat

theorem attempt_retry_trunc (T T2 R : Bytes) (h : attempt (T ++ R) = .retry (T2 ++ R))
    (hT2 : T2 ≠ []) (hT : T.getLast? = some 10) :
    attempt T = .retry T2 ∧ T2.length < T.length ∧ T2.getLast? = some 10 := by
  have key : ∀ C, C ≠ [] → T ++ R = C ++ (T2 ++ R) →
      T = C ++ T2 ∧ T2.length < T.length ∧ T2.getLast? = some 10 := by
    intro C hC hI
    have hTeq : T = C ++ T2 := by
      rw [← List.append_assoc] at hI
      exact List.append_cancel_right hI
    refine ⟨hTeq, ?_, ?_⟩
    · rw [hTeq, List.length_append]
      have : 0 < C.length := List.length_pos.mpr hC
      omega
    · rw [hTeq, List.getLast?_append_of_ne_nil _ hT2] at hT
      exact hT
  rcases attempt_stage (T ++ R) with h1 | h1 | ⟨C, r2, hI, hC, hr, hloc⟩ |
      ⟨C, ty, hd, r3, hI, hC, hty, hr3, hr3c, hr, hloc⟩
  · rw [h1] at h; simp at h
  · rw [h1] at h; simp at h
  · rw [hr] at h
    simp only [Attempt.retry.injEq] at h
    subst h
    obtain ⟨hTeq, hlen, hlast⟩ := key C hC hI
    refine ⟨?_, hlen, hlast⟩
    rw [hTeq]
    exact hloc (by simp [hT2]) T2
  · rw [hr] at h
    have hr3eq := decodeBody_retry _ _ _ _ h
    subst hr3eq
    obtain ⟨hTeq, hlen, hlast⟩ := key C hC hI
    refine ⟨?_, hlen, hlast⟩
    rw [hTeq, hloc T2 hT2 (Cut_getLine_none_of_append T2 R hr3c)]
    rcases decodeBody_cases ty hd T2 with hc | ⟨p, r, hc⟩
    · exact hc
    · have := decodeBody_done_append ty hd T2 R p r hc hlast
      rw [this] at h
      simp at h

theorem attempt_done_trunc (T R : Bytes) (p : Block) (h : attempt (T ++ R) = .done p R)
    (hR : R ≠ []) : attempt T = .done p [] ∧ T.getLast? = some 10 := by
  rcases attempt_stage (T ++ R) with h1 | h1 | ⟨C, r2, hI, hC, hr, hloc⟩ |
      ⟨C, ty, hd, r3, hI, hC, hty, hr3, hr3c, hr, hloc⟩
  · rw [h1] at h; simp at h
  · rw [h1] at h; simp at h
  · rw [hr] at h; simp at h
  · rw [hr] at h
    obtain ⟨T3, hT3⟩ := decodeBody_done_suffix _ _ _ _ _ h
    subst hT3
    obtain ⟨hdone, hlast⟩ := decodeBody_done_of_append ty hd T3 R p h hR hty
    have hT3ne : T3 ≠ [] := by
      intro hn; rw [hn] at hlast; simp at hlast
    have hTeq : T = C ++ T3 := by
      rw [← List.append_assoc] at hI
      exact List.append_cancel_right hI
    refine ⟨?_, ?_⟩
    · rw [hTeq, hloc T3 hT3ne (Cut_getLine_none_of_append T3 R hr3c)]
      exact hdone
    · rw [hTeq, List.getLast?_append_of_ne_nil _ hT3ne]
      exact hlast

/-- The loop of `pem.Decode`, run on the input without what a successful run
leaves unread, finds the same block and leaves nothing. -/
theorem decodeLoop_trunc : ∀ (fuel : Nat) (I : Bytes) (p : Block) (R : Bytes),
    decodeLoop fuel I = some (p, R) → R ≠ [] → ∀ T, I = T ++ R →
    T.getLast? = some 10 ∧ ∀ fuel2, T.length < fuel2 → decodeLoop fuel2 T = some (p, []) := by
  intro fuel
  induction fuel with
  | zero => intro I p R h; simp [decodeLoop] at h
  | succ fuel ih =>
    intro I p R h hR T hI
    simp only [decodeLoop] at h
    split at h
    · simp at h
    · simp at h
    · rename_i r2 hat
      obtain ⟨T2, hT2⟩ := decodeLoop_suffix _ _ _ _ h
      obtain ⟨hlast2, hrun2⟩ := ih _ _ _ h hR T2 hT2
      have hT2ne : T2 ≠ [] := by
        intro hn; rw [hn] at hlast2; simp at hlast2
      obtain ⟨C, hC, hCne⟩ := attempt_retry_suffix _ _ hat
      have hTeq : T = C ++ T2 := by
        rw [hI, hT2, ← List.append_assoc] at hC
        exact List.append_cancel_right hC
      have hlast : T.getLast? = some 10 := by
        rw [hTeq, List.getLast?_append_of_ne_nil _ hT2ne]
        exact hlast2
      rw [hI, hT2] at hat
      obtain ⟨hat2, hlen, -⟩ := attempt_retry_trunc T T2 R hat hT2ne hlast
      refine ⟨hlast, ?_⟩
      intro fuel2 hf
      cases fuel2 with
      | zero => omega
      | succ f =>
        simp only [decodeLoop, hat2]
        exact hrun2 f (by omega)
    · rename_i p2 r2 hat
      simp only [Option.some.injEq, Prod.mk.injEq] at h
      obtain ⟨rfl, rfl⟩ := h
      rw [hI] at hat
      obtain ⟨hat2, hlast⟩ := attempt_done_trunc T _ _ hat hR
      refine ⟨hlast, ?_⟩
      intro fuel2 hf
      cases fuel2 with
      | zero => omega
      | succ f => simp only [decodeLoop, hat2]

theorem Decode_some (data : Bytes) (p : Block) (rest : Bytes)
    (h : Decode data = (some p, rest)) : decodeLoop (data.length + 1) data = some (p, rest) := by
  unfold Decode at h
  split at h
  · simp at h
  · rename_i p2 r2 hd
    simp only [Prod.mk.injEq, Option.some.injEq] at h
    rw [hd, h.1, h.2]

/-- C1: whenever `ScannerSplitPEM(data, atEOF)` returns a token, `pem.Decode` of
the token returns a block and an empty remainder; the block is the one
`pem.Decode` finds in `data`, and the token is the part of `data` before the
remainder of that call. -/
theorem ScannerSplitPEM_token_decodes (data : Bytes) (atEOF : Bool) (token : Bytes)
    (h : (ScannerSplitPEM data atEOF).2.1 = some token) :
    ∃ p, Decode token = (some p, []) ∧ (Decode data).1 = some p ∧
      data = token ++ (Decode data).2 := by
  unfold ScannerSplitPEM at h
  split at h
  · rename_i p rest hdec
    simp only [Option.some.injEq] at h
    have hloop := Decode_some data p rest hdec
    obtain ⟨T, hT⟩ := decodeLoop_suffix _ _ _ _ hloop
    have htok : token = T := by
      rw [← h, hT]
      simp
    subst htok
    refine ⟨p, ?_, by rw [hdec], by rw [hdec]; exact hT⟩
    by_cases hR : rest = []
    · subst hR
      simp only [List.append_nil] at hT
      rw [← hT]
      exact hdec
    · obtain ⟨-, hrun⟩ := decodeLoop_trunc _ _ _ _ hloop hR token hT
      simp only [Decode, hrun (token.length + 1) (Nat.lt_succ_self _)]
  · simp at h

/-- C1 at a concrete input: junk, one block, trailing junk. -/
theorem ScannerSplitPEM_token_decodes_witness :
    (ScannerSplitPEM (ascii "junk\n-----BEGIN X-----\nQUJD\n-----END X-----\ngoop") false).2.1 =
      some (ascii "junk\n-----BEGIN X-----\nQUJD\n-----END X-----\n") ∧
    ∃ p, Decode (ascii "junk\n-----BEGIN X-----\nQUJD\n-----END X-----\n") = (some p, []) ∧
      (Decode (ascii "junk\n-----BEGIN X-----\nQUJD\n-----END X-----\ngoop")).1 = some p ∧
      ascii "junk\n-----BEGIN X-----\nQUJD\n-----END X-----\ngoop" =
        ascii "junk\n-----BEGIN X-----\nQUJD\n-----END X-----\n" ++
          (Decode (ascii "junk\n-----BEGIN X-----\nQUJD\n-----END X-----\ngoop")).2 :=
  ⟨by decide,
   ScannerSplitPEM_token_decodes (ascii "junk\n-----BEGIN X-----\nQUJD\n-----END X-----\ngoop")
     false (ascii "junk\n-----BEGIN X-----\nQUJD\n-----END X-----\n") (by decide)⟩

/-! ## `pem.Decode` on the prefixes of a well-formed stream -/

theorem Index_le_of_occ (sep : Bytes) : ∀ (s : Bytes) (k : Nat),
    sep <+: s.drop k → k ≤ s.length → ∃ i, i ≤ k ∧ Index sep s = some i := by
  intro s
  induction s with
  | nil =>
    intro k h hk
    simp only [List.length_nil, Nat.le_zero_eq] at hk
    subst hk
    refine ⟨0, le_refl _, ?_⟩
    simp only [List.drop_nil] at h
    simp [Index, List.isPrefixOf_iff_prefix.mpr h]
  | cons c t ih =>
    intro k h hk
    by_cases hp : sep.isPrefixOf (c :: t) = true
    · exact ⟨0, Nat.zero_le _, by simp [Index, hp]⟩
    · cases k with
      | zero =>
        simp only [List.drop_zero] at h
        exact absurd (List.isPrefixOf_iff_prefix.mpr h) hp
      | succ k =>
        simp only [List.drop_succ_cons] at h
        obtain ⟨i, hi, hI⟩ := ih k h (by simpa using hk)
        exact ⟨i + 1, by omega, by simp [Index, hp, hI]⟩

theorem Index_eq_of_first (sep s : Bytes) (k : Nat) (hocc : sep <+: s.drop k) (hk : k ≤ s.length)
    (hnone : Index sep (s.take (k + sep.length - 1)) = none) : Index sep s = some k := by
  obtain ⟨i, hi, hI⟩ := Index_le_of_occ sep s k hocc hk
  by_cases hik : i = k
  · rw [← hik]; exact hI
  · exfalso
    have hs : s = s.take (k + sep.length - 1) ++ s.drop (k + sep.length - 1) :=
      (List.take_append_drop _ _).symm
    rw [hs] at hI
    have hb := Index_some_bound sep s i (by rw [hs]; exact hI)
    have := Index_of_append sep _ _ i hI (by
      rw [List.length_take]
      have : i + sep.length ≤ k + sep.length - 1 := by omega
      omega)
    rw [hnone] at this
    simp at this

theorem occ_getElem (sep s : Bytes) (i : Nat) (h : sep <+: s.drop i) (k : Nat) (c : Nat)
    (hc : sep[k]? = some c) : s[i + k]? = some c := by
  obtain ⟨t, ht⟩ := h
  have h1 : (s.drop i)[k]? = some c := by
    rw [← ht, List.getElem?_append_left (by
      have := List.getElem?_eq_some_iff.mp hc
      exact this.1)]
    exact hc
  rw [List.getElem?_drop] at h1
  exact h1

theorem getElem?_of_isPrefix (l m : Bytes) (h : l <+: m) (k : Nat) (c : Nat)
    (hc : l[k]? = some c) : m[k]? = some c := by
  obtain ⟨t, ht⟩ := h
  rw [← ht, List.getElem?_append_left (List.getElem?_eq_some_iff.mp hc).1]
  exact hc

theorem Index_none_of_isPrefix (sep P L : Bytes) (hP : P <+: L) (h : Index sep L = none) :
    Index sep P = none := by
  obtain ⟨X, rfl⟩ := hP
  cases hi : Index sep P with
  | none => rfl
  | some i =>
    rw [Index_append_some sep X P i hi] at h
    simp at h

theorem pemStart_length : pemStart.length = 12 := rfl

theorem pemStart_tail_length : pemStart.tail.length = 11 := rfl

theorem not_marker_isPrefix (J X : Bytes) (hJ : Junk J) (hl : J = [] ∨ J.getLast? = some 10)
    (hne : J ≠ []) : ¬ pemStart.tail <+: J ++ X := by
  intro h
  by_cases hlen : 11 ≤ J.length
  · have : pemStart.tail <+: J :=
      List.prefix_of_prefix_length_le h (List.prefix_append J X) (by rw [pemStart_tail_length]; exact hlen)
    rw [← HasPrefix_iff, hJ.1] at this
    simp at this
  · have hlast : J.getLast? = some 10 := by
      rcases hl with h0 | h0
      · exact absurd h0 hne
      · exact h0
    obtain ⟨J2, rfl⟩ := List.getLast?_eq_some_iff.mp hlast
    have h1 : (J2 ++ [10] ++ X)[J2.length]? = some 10 := by
      rw [List.getElem?_append_left (by simp), List.getElem?_concat_length]
    have hlt : J2.length < 11 := by
      simp only [List.length_append, List.length_singleton] at hlen
      omega
    have h2 : (pemStart.tail)[J2.length]? = some 10 := by
      obtain ⟨t, ht⟩ := h
      rw [← ht] at h1
      rw [List.getElem?_append_left (by rw [pemStart_tail_length]; exact hlt)] at h1
      exact h1
    have h3 : 10 ∈ pemStart.tail := List.getElem?_mem h2
    revert h3
    decide

theorem Index_pemStart_junk_incomplete (J : Bytes) (hJ : Junk J) :
    Index pemStart (J ++ pemStart.tail.dropLast) = none := by
  cases hi : Index pemStart (J ++ pemStart.tail.dropLast) with
  | none => rfl
  | some i =>
    exfalso
    have hb := Index_some_bound _ _ _ hi
    have hocc := Index_some_drop _ _ _ hi
    have h32 := occ_getElem pemStart _ i hocc 11 32 (by decide)
    by_cases hlt : i + 11 < J.length
    · have := Index_of_append pemStart _ J i hi (by rw [pemStart_length]; omega)
      rw [hJ.2] at this
      simp at this
    · rw [List.getElem?_append_right (by omega)] at h32
      have h3 : 32 ∈ pemStart.tail.dropLast := List.getElem?_mem h32
      revert h3
      decide

/-- No iteration of `pem.Decode` starts before the BEGIN marker of the first
block is complete. -/
theorem findStart_none_of_short (J P X : Bytes) (hJ : Junk J)
    (hl : J = [] ∨ J.getLast? = some 10) (hP : P <+: J ++ pemStart.tail ++ X)
    (hlen : P.length < J.length + 11) : findStart P = none := by
  have hP2 : P <+: J ++ pemStart.tail.dropLast := by
    have h1 : J ++ pemStart.tail.dropLast <+: J ++ pemStart.tail ++ X := by
      rw [List.append_assoc]
      apply (List.prefix_append_right_inj J).mpr
      exact (List.dropLast_prefix _).trans ( List.prefix_append _ _)
    exact List.prefix_of_prefix_length_le hP h1 (by
      simp only [List.length_append, List.length_dropLast, pemStart_tail_length]
      omega)
  have hidx : Index pemStart P = none :=
    Index_none_of_isPrefix _ _ _ hP2 (Index_pemStart_junk_incomplete J hJ)
  have hpre : HasPrefix P pemStart.tail = false := by
    cases hh : HasPrefix P pemStart.tail
    · rfl
    · exfalso
      have h1 : pemStart.tail <+: P := (HasPrefix_iff _ _).mp hh
      have hPlen := h1.length_le
      rw [pemStart_tail_length] at hPlen
      have hne : J ≠ [] := by
        intro h0
        rw [h0] at hlen
        simp at hlen
        omega
      exact not_marker_isPrefix J _ hJ hl hne (h1.trans hP2)
  simp [findStart, hpre, Cut, hidx]

/-- At the BEGIN marker of the first block an iteration of `pem.Decode` starts. -/
theorem findStart_junk_marker (J Q : Bytes) (hJ : Junk J)
    (hl : J = [] ∨ J.getLast? = some 10) : findStart (J ++ pemStart.tail ++ Q) = some Q := by
  by_cases hne : J = []
  · subst hne
    have : HasPrefix ([] ++ pemStart.tail ++ Q) pemStart.tail = true := by
      rw [HasPrefix_iff]
      simp
    simp only [findStart, this, if_true]
    rfl
  · have hpre : HasPrefix (J ++ pemStart.tail ++ Q) pemStart.tail = false := by
      cases hh : HasPrefix (J ++ pemStart.tail ++ Q) pemStart.tail
      · rfl
      · exfalso
        rw [List.append_assoc] at hh
        exact not_marker_isPrefix J _ hJ hl hne ((HasPrefix_iff _ _).mp hh)
    have hlast : J.getLast? = some 10 := by
      rcases hl with h0 | h0
      · exact absurd h0 hne
      · exact h0
    obtain ⟨J2, hJ2⟩ := List.getLast?_eq_some_iff.mp hlast
    have hidx : Index pemStart (J ++ pemStart.tail ++ Q) = some J2.length := by
      apply Index_eq_of_first
      · rw [hJ2]
        have : J2 ++ [10] ++ pemStart.tail ++ Q = J2 ++ (pemStart ++ Q) := by
          simp [pemStart]
        rw [this, List.drop_left]
        exact List.prefix_append _ _
      · rw [hJ2]; simp
      · have hJlen : J.length = J2.length + 1 := by rw [hJ2]; simp
        have h1 : (J ++ pemStart.tail ++ Q).take (J2.length + pemStart.length - 1) =
            J ++ pemStart.tail.dropLast := by
          rw [List.append_assoc, List.take_append_eq_append_take]
          have h2 : J2.length + pemStart.length - 1 - J.length = 10 := by
            rw [pemStart_length, hJlen]; omega
          rw [h2, List.take_of_length_le (by rw [pemStart_length, hJlen]; omega)]
          congr 1
        rw [h1]
        exact Index_pemStart_junk_incomplete J hJ
    simp only [findStart, hpre, Cut, hidx, Option.map_some', Bool.false_eq_true, if_false,
      Option.some.injEq]
    have hJlen : J.length = J2.length + 1 := by rw [hJ2]; simp
    have : J2.length + pemStart.length = (J ++ pemStart.tail).length := by
      rw [List.length_append, pemStart_length, pemStart_tail_length, hJlen]
    rw [this, List.drop_left]

theorem Junk_cons_newline (J : Bytes) (hJ : Junk J) : Junk (10 :: J) := by
  constructor
  · rfl
  · have h1 : pemStart.isPrefixOf (10 :: J) = false := by
      have := hJ.1
      simp only [HasPrefix, pemStart, List.tail_cons] at this
      simp [pemStart, List.isPrefixOf, this]
    simp [Index, h1, hJ.2]

theorem Junk_of_isPrefix (P J : Bytes) (hJ : Junk J) (hP : P <+: J) : Junk P := by
  constructor
  · cases hh : HasPrefix P pemStart.tail
    · rfl
    · exfalso
      obtain ⟨X, rfl⟩ := hP
      have := HasPrefix_append P X _ hh
      rw [hJ.1] at this
      simp at this
  · exact Index_none_of_isPrefix _ _ _ hP hJ.2

theorem findStart_junk (J : Bytes) (hJ : Junk J) : findStart J = none := by
  simp [findStart, hJ.1, Cut, hJ.2]

theorem isPrefix_append_cases (P A B : Bytes) (h : P <+: A ++ B) :
    P <+: A ∨ ∃ P2, P = A ++ P2 ∧ P2 <+: B := by
  by_cases hl : P.length ≤ A.length
  · exact Or.inl (List.prefix_of_prefix_length_le h (List.prefix_append A B) hl)
  · right
    have hA : A <+: P :=
      List.prefix_of_prefix_length_le (List.prefix_append A B) h (by omega)
    obtain ⟨P2, rfl⟩ := hA
    exact ⟨P2, rfl, (List.prefix_append_right_inj A).mp h⟩

theorem getElem?_append_body (body Z : Bytes) (k c : Nat) (h45 : c ∉ body)
    (h : (body ++ Z)[k]? = some c) : body.length ≤ k ∧ Z[k - body.length]? = some c := by
  by_cases hk : k < body.length
  · rw [List.getElem?_append_left hk] at h
    exact absurd (List.getElem?_mem h) h45
  · rw [List.getElem?_append_right (by omega)] at h
    exact ⟨by omega, h⟩

theorem not_mem_endLine (T : Bytes) (c : Nat) (hT : c ∉ T) (hE : c ∉ pemEnd.tail)
    (hD : c ∉ pemEndOfLine) : c ∉ pemEnd.tail ++ T ++ pemEndOfLine := by
  simp only [List.mem_append, not_or]
  exact ⟨⟨hE, hT⟩, hD⟩

/-- The body and END line of a block hold no BEGIN marker. -/
theorem Junk_body_endLine (T body : Bytes) (hT : 10 ∉ T) (hb : 45 ∉ body) :
    Junk (body ++ (pemEnd.tail ++ T ++ pemEndOfLine)) := by
  have h10 : 10 ∉ pemEnd.tail ++ T ++ pemEndOfLine :=
    not_mem_endLine T 10 hT (by decide) (by decide)
  constructor
  · cases hh : HasPrefix (body ++ (pemEnd.tail ++ T ++ pemEndOfLine)) pemStart.tail
    · rfl
    · exfalso
      have hp := (HasPrefix_iff _ _).mp hh
      have h0 := getElem?_of_isPrefix _ _ hp 0 45 (by decide)
      obtain ⟨hl, -⟩ := getElem?_append_body body _ 0 45 hb h0
      have hbl : body = [] := List.length_eq_zero.mp (by omega)
      subst hbl
      have h5 := getElem?_of_isPrefix _ _ hp 5 66 (by decide)
      simp only [List.nil_append, List.append_assoc] at h5
      rw [List.getElem?_append_left (by decide)] at h5
      revert h5
      decide
  · cases hi : Index pemStart (body ++ (pemEnd.tail ++ T ++ pemEndOfLine)) with
    | none => rfl
    | some i =>
      exfalso
      have hocc := Index_some_drop _ _ _ hi
      have h0 := occ_getElem pemStart _ i hocc 0 10 (by decide)
      have h1 := occ_getElem pemStart _ i hocc 1 45 (by decide)
      have h6 := occ_getElem pemStart _ i hocc 6 66 (by decide)
      obtain ⟨hl1, -⟩ := getElem?_append_body body _ (i + 1) 45 hb h1
      have hi0 : i < body.length := by
        by_contra hge
        rw [Nat.add_zero, List.getElem?_append_right (by omega)] at h0
        exact h10 (List.getElem?_mem h0)
      rw [List.getElem?_append_right (by omega)] at h6
      have h5 : i + 6 - body.length = 5 := by omega
      rw [h5, List.append_assoc, List.getElem?_append_left (by decide)] at h6
      revert h6
      decide

/-- An END marker found in a prefix of a block's body and END line lies at the
END line. -/
theorem findEnd_body_bound (body Q2 X : Bytes) (hb : 45 ∉ body) (hQ : Q2 <+: body ++ X)
    (e et : Nat) (hfe : findEnd [] Q2 = some (e, et)) : body.length + 9 ≤ et := by
  rcases findEnd_cases [] Q2 e et hfe with ⟨rfl, rfl, -, hp⟩ | ⟨rfl, hi, -⟩
  · have hp2 := (HasPrefix_iff _ _).mp hp
    have h0 := getElem?_of_isPrefix _ _ (hp2.trans hQ) 0 45 (by decide)
    obtain ⟨hl, -⟩ := getElem?_append_body body _ 0 45 hb h0
    omega
  · have hocc := Index_some_drop _ _ _ hi
    have h1 := occ_getElem pemEnd _ e hocc 1 45 (by decide)
    have h2 := getElem?_of_isPrefix _ _ hQ _ _ h1
    obtain ⟨hl, -⟩ := getElem?_append_body body _ (e + 1) 45 hb h2
    omega

/-- On a proper prefix of a block's body and END line, the body of the
iteration of `pem.Decode` fails. -/
theorem decodeBody_short (T body Q2 : Bytes) (hb : 45 ∉ body)
    (hQ : Q2 <+: body ++ (pemEnd.tail ++ T ++ pemEndOfLine))
    (hlen : Q2.length < body.length + (9 + T.length + 5)) :
    decodeBody T [] Q2 = .retry Q2 := by
  rcases decodeBody_cases T [] Q2 with h | ⟨p, R, h⟩
  · exact h
  · exfalso
    rw [decodeBody_eq_done_iff] at h
    obtain ⟨e, et, bytes, hfe, hl, -⟩ := h
    have := findEnd_body_bound body Q2 _ hb hQ e et hfe
    rw [List.length_drop] at hl
    omega

theorem attempt_nil : attempt [] = .notFound := by
  rfl

theorem decodeLoop_of_notFound (fuel : Nat) (I : Bytes) (h : findStart I = none) :
    decodeLoop fuel I = none := by
  cases fuel with
  | zero => rfl
  | succ f => simp [decodeLoop, attempt, h]

theorem lineBody_type (T : Bytes) : lineBody (T ++ pemEndOfLine) = T ++ pemEndOfLine := by
  have hlast : (T ++ pemEndOfLine).getLast? = some 45 := by
    simp [pemEndOfLine]
  have h1 : (T ++ pemEndOfLine) = (T ++ [45, 45, 45, 45]) ++ [45] := by
    simp [pemEndOfLine]
  unfold lineBody
  rw [hlast]
  simp only [Option.some.injEq, Nat.reduceEqDiff, if_false]
  rw [h1]
  exact List.rdropWhile_concat_neg (fun c => decide (c = 32 ∨ c = 9)) _ 45 (by decide)

theorem not_mem_type_dashes (T : Bytes) (hT : 10 ∉ T) : 10 ∉ T ++ pemEndOfLine := by
  simp [hT, pemEndOfLine]

/-- The iteration of `pem.Decode` that starts at the BEGIN line of a block,
once the whole line is there. -/
theorem attempt_begin_line (J T Q2 : Bytes) (hJ : Junk J)
    (hl : J = [] ∨ J.getLast? = some 10) (hT : 10 ∉ T) :
    attempt (J ++ pemStart.tail ++ (T ++ pemEndOfLine ++ 10 :: Q2)) =
      match parseHeaders Q2.length Q2 [] with
      | none => .eof
      | some (headers, rest3) => decodeBody T headers rest3 := by
  have hgl : getLine (T ++ pemEndOfLine ++ 10 :: Q2) = (T ++ pemEndOfLine, Q2) := by
    rw [getLine_newline _ _ (not_mem_type_dashes T hT), lineBody_type]
  have hsuf : HasSuffix (T ++ pemEndOfLine) pemEndOfLine = true := by
    rw [HasSuffix_iff]
    exact List.suffix_append _ _
  have htake : (T ++ pemEndOfLine).take ((T ++ pemEndOfLine).length - pemEndOfLine.length) = T := by
    simp
  cases hph : parseHeaders Q2.length Q2 [] with
  | none =>
    simp only [attempt, findStart_junk_marker J _ hJ hl, hgl, hsuf, hph]
    simp
  | some res =>
    obtain ⟨hd, r3⟩ := res
    simp only [attempt, findStart_junk_marker J _ hJ hl, hgl, hsuf, hph, htake]
    simp

/-- No block is found while the BEGIN line of the first block is incomplete. -/
theorem decodeLoop_begin_incomplete (J Q : Bytes) (hJ : Junk J)
    (hl : J = [] ∨ J.getLast? = some 10) (hQ : 10 ∉ Q) (fuel : Nat) :
    decodeLoop fuel (J ++ pemStart.tail ++ Q) = none := by
  cases fuel with
  | zero => rfl
  | succ f =>
    have hgl := getLine_no_newline Q hQ
    simp only [decodeLoop, attempt, findStart_junk_marker J _ hJ hl, hgl]
    by_cases hsuf : HasSuffix (trimRightSpaceTab Q) pemEndOfLine = true
    · simp [hsuf, parseHeaders]
    · simp only [hsuf]
      simp only [Bool.not_false, if_true]
      exact decodeLoop_of_notFound f [] rfl

theorem takeWhile_stop (L R : Bytes) :
    (L ++ 10 :: R).takeWhile (fun c => c ≠ 10) <+: L := by
  induction L with
  | nil => simp
  | cons c t ih =>
    simp only [List.cons_append, List.takeWhile]
    cases hc : decide (c ≠ 10)
    · simp
    · simpa using ih

/-- The header loop stops at once on a prefix of a headerless block's body. -/
theorem parseHeaders_body (Q2 L R : Bytes) (hne : Q2 ≠ []) (hQ : Q2 <+: L ++ 10 :: R)
    (hL : 58 ∉ L) : parseHeaders Q2.length Q2 [] = some ([], Q2) := by
  have hcut : Cut (getLine Q2).1 colon = none := by
    rw [Cut_getLine_none]
    obtain ⟨Y, hY⟩ := hQ
    intro hm
    have h1 := (takeWhile_prefix_append (fun c => c ≠ 10) Q2 Y).subset hm
    rw [hY] at h1
    exact hL ((takeWhile_stop L R).subset h1)
  have hlen : Q2.length ≠ 0 := by simpa using hne
  obtain ⟨n, hn⟩ := Nat.exists_eq_succ_of_ne_zero hlen
  rw [hn]
  simp only [parseHeaders]
  simp [hlen, hcut]

theorem getLine_after_end (Y X : Bytes) (hY : 10 ∉ Y) (hX : X = [] ∨ ∃ X2, X = 10 :: X2) :
    (getLine (Y ++ X)).2 = X.tail := by
  rcases hX with rfl | ⟨X2, rfl⟩
  · rw [List.append_nil, getLine_no_newline Y hY]
    rfl
  · rw [getLine_newline Y X2 hY]
    rfl

theorem getLine_fst_after_end (X : Bytes) (hX : X = [] ∨ ∃ X2, X = 10 :: X2) :
    (getLine X).1 = [] := by
  rcases hX with rfl | ⟨X2, rfl⟩
  · rfl
  · have := getLine_newline [] X2 (by simp)
    simp only [List.nil_append] at this
    rw [this]
    rfl

/-- The body of an iteration of `pem.Decode` succeeds when the END line of the
right type follows the END marker and the line ends there. -/
theorem decodeBody_at (T : Bytes) (hd : List (Bytes × Bytes)) (rest lead X payload : Bytes)
    (e et : Nat) (hfe : findEnd hd rest = some (e, et))
    (hdrop : rest.drop et = T ++ pemEndOfLine ++ X)
    (hlead : rest.drop (e + 9) = lead ++ (T ++ pemEndOfLine) ++ X) (hl10 : 10 ∉ lead)
    (hT : 10 ∉ T) (hX : X = [] ∨ ∃ X2, X = 10 :: X2)
    (hdec : decodeQuanta (removeSpacesAndTabs (rest.take e)) [] = some payload) :
    decodeBody T hd rest = .done { Typ := T, Headers := hd, Bytes := payload } X.tail := by
  rw [decodeBody_eq_done_iff]
  have hlen : (T ++ pemEndOfLine).length = T.length + 5 := by simp [pemEndOfLine]
  have htake : (rest.drop et).take (T.length + 5) = T ++ pemEndOfLine := by
    rw [hdrop, ← hlen, List.take_left]
  have hdrop2 : (rest.drop et).drop (T.length + 5) = X := by
    rw [hdrop, ← hlen, List.drop_left]
  refine ⟨e, et, payload, hfe, ?_, ?_, ?_, ?_, hdec, rfl, ?_⟩
  · rw [hdrop, List.length_append, hlen]; omega
  · rw [htake, HasPrefix_iff]; exact List.prefix_append _ _
  · rw [htake, HasSuffix_iff]; exact List.suffix_append _ _
  · rw [hdrop2]; exact getLine_fst_after_end X hX
  · rw [hlead, getLine_after_end _ X (by simp [hl10, hT, pemEndOfLine]) hX]

/-- On a headerless block's body and END line, whole, followed by nothing or by
a newline and more, the body of the iteration of `pem.Decode` succeeds with the
payload and leaves what follows the newline. -/
theorem decodeBody_full (T body payload X : Bytes) (hT : 10 ∉ T) (hb : 45 ∉ body)
    (hbl : body = [] ∨ body.getLast? = some 10)
    (hdec : decodeQuanta (removeSpacesAndTabs body.dropLast) [] = some payload)
    (hX : X = [] ∨ ∃ X2, X = 10 :: X2) :
    decodeBody T [] (body ++ (pemEnd.tail ++ T ++ pemEndOfLine) ++ X) =
      .done { Typ := T, Headers := [], Bytes := payload } X.tail := by
  by_cases hnil : body = []
  · subst hnil
    have hrest : [] ++ (pemEnd.tail ++ T ++ pemEndOfLine) ++ X =
        pemEnd.tail ++ (T ++ pemEndOfLine ++ X) := by simp
    rw [hrest]
    apply decodeBody_at T [] _ [] X payload 0 9
    · exact findEnd_special [] _ rfl ((HasPrefix_iff _ _).mpr (List.prefix_append _ _))
    · exact List.drop_left' pemEnd_tail_length
    · rw [Nat.zero_add, List.drop_left' pemEnd_tail_length]; simp
    · simp
    · exact hT
    · exact hX
    · exact hdec
  · have hlast : body.getLast? = some 10 := by
      rcases hbl with h | h
      · exact absurd h hnil
      · exact h
    obtain ⟨b2, hb2⟩ := List.getLast?_eq_some_iff.mp hlast
    have hb45 : 45 ∉ b2 := fun h => hb (by rw [hb2]; simp [h])
    have hdl : body.dropLast = b2 := by rw [hb2]; simp
    have hrest : body ++ (pemEnd.tail ++ T ++ pemEndOfLine) ++ X =
        b2 ++ (pemEnd ++ (T ++ pemEndOfLine ++ X)) := by
      rw [hb2]; simp [pemEnd]
    have hrest2 : body ++ (pemEnd.tail ++ T ++ pemEndOfLine) ++ X =
        (b2 ++ pemEnd.dropLast) ++ ([32] ++ (T ++ pemEndOfLine) ++ X) := by
      rw [hb2]; simp [pemEnd]
    have hidx : Index pemEnd (body ++ (pemEnd.tail ++ T ++ pemEndOfLine) ++ X) = some b2.length := by
      apply Index_eq_of_first
      · rw [hrest, List.drop_left]; exact List.prefix_append _ _
      · rw [hrest]; simp
      · cases hi : Index pemEnd ((body ++ (pemEnd.tail ++ T ++ pemEndOfLine) ++ X).take
            (b2.length + pemEnd.length - 1)) with
        | none => rfl
        | some i =>
          exfalso
          have hbnd := Index_some_bound _ _ _ hi
          rw [List.length_take, pemEnd_length] at hbnd
          have hocc := Index_some_drop _ _ _ hi
          have h1 := occ_getElem pemEnd _ i hocc 1 45 (by decide)
          have h2 := getElem?_of_isPrefix _ _ (List.take_prefix _ _) _ _ h1
          rw [List.append_assoc] at h2
          obtain ⟨hl, -⟩ := getElem?_append_body body _ (i + 1) 45 hb h2
          rw [hb2, List.length_append, List.length_singleton] at hl
          omega
    have hns : ¬ (([] : List (Bytes × Bytes)).length = 0 ∧
        HasPrefix (body ++ (pemEnd.tail ++ T ++ pemEndOfLine) ++ X) pemEnd.tail = true) := by
      rintro ⟨-, hp⟩
      have h0 := getElem?_of_isPrefix _ _ ((HasPrefix_iff _ _).mp hp) 0 45 (by decide)
      rw [List.append_assoc] at h0
      obtain ⟨hl, -⟩ := getElem?_append_body body _ 0 45 hb h0
      rw [hb2, List.length_append, List.length_singleton] at hl
      omega
    apply decodeBody_at T [] _ [32] X payload b2.length (b2.length + 10)
    · exact findEnd_index [] _ _ hidx hns
    · rw [hrest, ← List.append_assoc]
      exact List.drop_left' (by rw [List.length_append, pemEnd_length])
    · rw [hrest2]
      exact List.drop_left' (by simp [pemEnd])
    · decide
    · exact hT
    · exact hX
    · rw [hrest, List.take_left, ← hdl]; exact hdec

theorem blockCore_length (T body : Bytes) :
    (blockCore T body).length = 11 + T.length + 5 + 1 + (body.length + (9 + T.length + 5)) := by
  simp only [blockCore, List.length_append, List.length_cons, pemStart_tail_length,
    pemEnd_tail_length, pemEndOfLine, List.length_nil]
  omega

/-- No block is found in a proper prefix of the junk and the first block. -/
theorem decodeLoop_short (J T body P : Bytes) (hJ : Junk J)
    (hl : J = [] ∨ J.getLast? = some 10) (hT : 10 ∉ T) (hT58 : 58 ∉ T) (hb : 45 ∉ body)
    (hb58 : 58 ∉ body) (hP : P <+: J ++ blockCore T body)
    (hlen : P.length < J.length + (blockCore T body).length) (fuel : Nat) :
    decodeLoop fuel P = none := by
  rw [blockCore_length] at hlen
  by_cases hshort : P.length < J.length + 11
  · apply decodeLoop_of_notFound
    apply findStart_none_of_short J P _ hJ hl _ hshort
    · exact T ++ pemEndOfLine ++ 10 :: (body ++ pemEnd.tail ++ T ++ pemEndOfLine)
    · have : J ++ blockCore T body =
          J ++ pemStart.tail ++ (T ++ pemEndOfLine ++ 10 :: (body ++ pemEnd.tail ++ T ++ pemEndOfLine)) := by
        simp [blockCore]
      rw [← this]; exact hP
  · have hW : J ++ blockCore T body = (J ++ pemStart.tail) ++
        ((T ++ pemEndOfLine) ++ 10 :: (body ++ (pemEnd.tail ++ T ++ pemEndOfLine))) := by
      simp [blockCore]
    rw [hW] at hP
    rcases isPrefix_append_cases _ _ _ hP with h1 | ⟨Q, rfl, hQ⟩
    · have hle := h1.length_le
      rw [List.length_append, pemStart_tail_length] at hle
      have hPeq : P = J ++ pemStart.tail ++ [] := by
        rw [List.append_nil]
        exact h1.eq_of_length (by rw [List.length_append, pemStart_tail_length]; omega)
      rw [hPeq]
      exact decodeLoop_begin_incomplete J [] hJ hl (by simp) fuel
    · rcases isPrefix_append_cases _ _ _ hQ with h2 | ⟨Q1, rfl, hQ1⟩
      · apply decodeLoop_begin_incomplete J Q hJ hl
        exact fun hm => not_mem_type_dashes T hT (h2.subset hm)
      · cases Q1 with
        | nil =>
          rw [List.append_nil]
          exact decodeLoop_begin_incomplete J _ hJ hl (not_mem_type_dashes T hT) fuel
        | cons c Q2 =>
          have hc : c = 10 := by
            have := getElem?_of_isPrefix _ _ hQ1 0 c (by simp)
            simpa using this.symm
          subst hc
          have hQ2 : Q2 <+: body ++ (pemEnd.tail ++ T ++ pemEndOfLine) := by
            obtain ⟨t, ht⟩ := hQ1
            simp only [List.cons_append, List.cons.injEq, true_and] at ht
            exact ⟨t, ht⟩
          have hQ2len : Q2.length < body.length + (9 + T.length + 5) := by
            simp only [List.length_append, List.length_cons, pemStart_tail_length, pemEndOfLine,
              List.length_nil] at hlen
            omega
          cases fuel with
          | zero => rfl
          | succ f =>
            simp only [decodeLoop, attempt_begin_line J T Q2 hJ hl hT]
            by_cases hne : Q2 = []
            · subst hne
              simp [parseHeaders]
            · have h58 : 58 ∉ body ++ (pemEnd.tail ++ T ++ pemEndOfLine) := by
                simp only [List.mem_append, not_or]
                exact ⟨hb58, ⟨by decide, hT58⟩, by decide⟩
              have hQ2b : Q2 <+: (body ++ (pemEnd.tail ++ T ++ pemEndOfLine)) ++ 10 :: [] :=
                hQ2.trans ( List.prefix_append _ _)
              rw [parseHeaders_body Q2 _ [] hne hQ2b h58]
              simp only [decodeBody_short T body Q2 hb hQ2 hQ2len]
              exact decodeLoop_of_notFound f Q2
                (findStart_junk Q2 (Junk_of_isPrefix Q2 _ (Junk_body_endLine T body hT hb) hQ2))

/-- The first block is found once its END line is whole: then `pem.Decode`
returns its payload and leaves what follows the newline after it. -/
theorem decodeLoop_long (J T body payload X : Bytes) (hJ : Junk J)
    (hl : J = [] ∨ J.getLast? = some 10) (hT : 10 ∉ T) (hT58 : 58 ∉ T) (hb : 45 ∉ body)
    (hb58 : 58 ∉ body) (hbl : body = [] ∨ body.getLast? = some 10)
    (hdec : decodeQuanta (removeSpacesAndTabs body.dropLast) [] = some payload)
    (hX : X = [] ∨ ∃ X2, X = 10 :: X2) (fuel : Nat) :
    decodeLoop (fuel + 1) (J ++ blockCore T body ++ X) =
      some ({ Typ := T, Headers := [], Bytes := payload }, X.tail) := by
  have hW : J ++ blockCore T body ++ X = (J ++ pemStart.tail) ++
      ((T ++ pemEndOfLine) ++ 10 :: (body ++ (pemEnd.tail ++ T ++ pemEndOfLine) ++ X)) := by
    simp [blockCore]
  have h58 : 58 ∉ body ++ (pemEnd.tail ++ T ++ pemEndOfLine) := by
    simp only [List.mem_append, not_or]
    exact ⟨hb58, ⟨by decide, hT58⟩, by decide⟩
  have hne : body ++ (pemEnd.tail ++ T ++ pemEndOfLine) ++ X ≠ [] := by
    simp [pemEnd]
  have hpre : body ++ (pemEnd.tail ++ T ++ pemEndOfLine) ++ X <+:
      (body ++ (pemEnd.tail ++ T ++ pemEndOfLine)) ++ 10 :: X.tail := by
    rcases hX with rfl | ⟨X2, rfl⟩
    · rw [List.append_nil]; exact List.prefix_append _ _
    · exact List.prefix_refl _
  rw [hW]
  simp only [decodeLoop, attempt_begin_line J T _ hJ hl hT]
  rw [parseHeaders_body _ _ _ hne hpre h58]
  simp only [decodeBody_full T body payload X hT hb hbl hdec hX]

theorem Decode_of_loop_none (P : Bytes) (h : ∀ fuel, decodeLoop fuel P = none) :
    Decode P = (none, P) := by
  simp [Decode, h]

theorem ScannerSplitPEM_of_none (P : Bytes) (eof : Bool) (h : ∀ fuel, decodeLoop fuel P = none) :
    ScannerSplitPEM P eof = (0, none, none) := by
  simp [ScannerSplitPEM, Decode_of_loop_none P h]

/-- Junk alone gives `ScannerSplitPEM` no token, however much of it is there. -/
theorem ScannerSplitPEM_junk (J P : Bytes) (hJ : Junk J) (hP : P <+: J) (eof : Bool) :
    ScannerSplitPEM P eof = (0, none, none) :=
  ScannerSplitPEM_of_none P eof
    (fun fuel => decodeLoop_of_notFound fuel P (findStart_junk P (Junk_of_isPrefix P J hJ hP)))

/-- While the first block is incomplete `ScannerSplitPEM` asks for more input. -/
theorem ScannerSplitPEM_short (J T body P Y : Bytes) (hJ : Junk J)
    (hl : J = [] ∨ J.getLast? = some 10) (hT : 10 ∉ T) (hT58 : 58 ∉ T) (hb : 45 ∉ body)
    (hb58 : 58 ∉ body) (hP : P <+: J ++ blockCore T body ++ Y)
    (hlen : P.length < J.length + (blockCore T body).length) (eof : Bool) :
    ScannerSplitPEM P eof = (0, none, none) := by
  apply ScannerSplitPEM_of_none
  intro fuel
  have hP2 : P <+: J ++ blockCore T body :=
    List.prefix_of_prefix_length_le hP ( List.prefix_append _ _)
      (by rw [List.length_append]; omega)
  exact decodeLoop_short J T body P hJ hl hT hT58 hb hb58 hP2 hlen fuel

theorem Decode_long (J T body payload X : Bytes) (hJ : Junk J)
    (hl : J = [] ∨ J.getLast? = some 10) (hT : 10 ∉ T) (hT58 : 58 ∉ T) (hb : 45 ∉ body)
    (hb58 : 58 ∉ body) (hbl : body = [] ∨ body.getLast? = some 10)
    (hdec : decodeQuanta (removeSpacesAndTabs body.dropLast) [] = some payload)
    (hX : X = [] ∨ ∃ X2, X = 10 :: X2) :
    Decode (J ++ blockCore T body ++ X) =
      (some { Typ := T, Headers := [], Bytes := payload }, X.tail) := by
  simp only [Decode, decodeLoop_long J T body payload X hJ hl hT hT58 hb hb58 hbl hdec hX]

/-- Once the first block is whole `ScannerSplitPEM` returns it as a token: the
junk, the block, and the newline after it when that is there. -/
theorem ScannerSplitPEM_long (J T body payload P Rest : Bytes) (hJ : Junk J)
    (hl : J = [] ∨ J.getLast? = some 10) (hT : 10 ∉ T) (hT58 : 58 ∉ T) (hb : 45 ∉ body)
    (hb58 : 58 ∉ body) (hbl : body = [] ∨ body.getLast? = some 10)
    (hdec : decodeQuanta (removeSpacesAndTabs body.dropLast) [] = some payload)
    (hP : P <+: J ++ blockCore T body ++ 10 :: Rest)
    (hlen : J.length + (blockCore T body).length ≤ P.length) (eof : Bool) :
    ScannerSplitPEM P eof =
      (min (J.length + (blockCore T body).length + 1) P.length,
       some (P.take (min (J.length + (blockCore T body).length + 1) P.length)), none) ∧
    (Decode (P.take (min (J.length + (blockCore T body).length + 1) P.length))).1 =
      some { Typ := T, Headers := [], Bytes := payload } := by
  have hcases : ∃ X, P = J ++ blockCore T body ++ X ∧ (X = [] ∨ ∃ X2, X = 10 :: X2) := by
    rcases isPrefix_append_cases _ _ _ hP with h1 | ⟨X, hX, hX2⟩
    · refine ⟨[], ?_, Or.inl rfl⟩
      rw [List.append_nil]
      exact h1.eq_of_length (by
        have := h1.length_le
        rw [List.length_append] at this ⊢
        omega)
    · refine ⟨X, hX, ?_⟩
      cases X with
      | nil => exact Or.inl rfl
      | cons c X2 =>
        have := getElem?_of_isPrefix _ _ hX2 0 c (by simp)
        simp only [List.getElem?_cons_zero, Option.some.injEq] at this
        exact Or.inr ⟨X2, by rw [this]⟩
  obtain ⟨X, rfl, hX⟩ := hcases
  have hD := Decode_long J T body payload X hJ hl hT hT58 hb hb58 hbl hdec hX
  rcases hX with rfl | ⟨X2, rfl⟩
  · have hmin : min (J.length + (blockCore T body).length + 1)
        (J ++ blockCore T body ++ []).length = (J ++ blockCore T body ++ []).length := by
      simp only [List.append_nil, List.length_append]
      omega
    rw [hmin, List.take_length]
    refine ⟨?_, by rw [hD]⟩
    simp only [ScannerSplitPEM, hD, List.tail_nil, List.length_nil, Nat.sub_zero, List.take_length]
  · have hmin : min (J.length + (blockCore T body).length + 1)
        (J ++ blockCore T body ++ 10 :: X2).length = (J ++ blockCore T body ++ [10]).length := by
      simp only [List.length_append, List.length_cons, List.length_nil]
      omega
    have htake : (J ++ blockCore T body ++ 10 :: X2).take (J ++ blockCore T body ++ [10]).length
        = J ++ blockCore T body ++ [10] := by
      have : J ++ blockCore T body ++ 10 :: X2 = (J ++ blockCore T body ++ [10]) ++ X2 := by simp
      rw [this, List.take_left]
    rw [hmin, htake]
    refine ⟨?_, ?_⟩
    · simp only [ScannerSplitPEM, hD, List.tail_cons]
      have hsz : (J ++ blockCore T body ++ 10 :: X2).length - X2.length =
          (J ++ blockCore T body ++ [10]).length := by
        simp only [List.length_append, List.length_cons, List.length_nil]
        omega
      rw [hsz, htake]
    · rw [Decode_long J T body payload [10] hJ hl hT hT58 hb hb58 hbl hdec (Or.inr ⟨[], rfl⟩)]

/-! ## `bufio.Scanner` and `ReadCertificatePEM` -/

theorem shift_window (s : Scanner) : s.shift.window = s.window := by
  unfold Scanner.shift; split <;> rfl

theorem shift_r (s : Scanner) : s.shift.r = s.r := by
  unfold Scanner.shift; split <;> rfl

theorem shift_err (s : Scanner) : s.shift.err = s.err := by
  unfold Scanner.shift; split <;> rfl

theorem shift_bufLen (s : Scanner) : s.shift.bufLen = s.bufLen := by
  unfold Scanner.shift; split <;> rfl

theorem shift_start_le (s : Scanner) : s.shift.start ≤ s.start := by
  unfold Scanner.shift; split <;> simp

/-- After the shift a window that ends at the end of the buffer fills it. -/
theorem shift_full (s : Scanner) (h : s.shift.start + s.window.length = s.bufLen) :
    s.shift.start = 0 := by
  unfold Scanner.shift at h ⊢
  split
  · rfl
  · rename_i hc
    split at h
    · rename_i hc2; exact absurd hc2 hc
    · by_contra hne
      exact hc ⟨Nat.pos_of_ne_zero hne, Or.inl h⟩

theorem readMore_more (s : Scanner) (W : Bytes) (hwin : s.window ++ s.r.remaining = W)
    (hroom : s.start + s.window.length ≤ s.bufLen)
    (hmax : s.bufLen ≤ MaxScanTokenSize) :
    ∃ s2, s.readMore = .more s2 ∧ s2.Holds W ∧
      (s.r.remaining ≠ [] → s.start + s.window.length < s.bufLen →
        s2.r.remaining.length < s.r.remaining.length) := by
  unfold Scanner.readMore Reader.Read
  by_cases hrem : s.r.remaining.length = 0
  · have hnil : s.r.remaining = [] := List.length_eq_zero.mp hrem
    rw [if_pos hrem]
    refine ⟨_, rfl, ⟨?_, Or.inr ⟨rfl, hnil⟩, ?_, hmax⟩, fun h => absurd hnil h⟩
    · simpa [hnil] using hwin
    · simpa using hroom
  · rw [if_neg hrem]
    refine ⟨_, rfl, ⟨?_, Or.inl rfl, ?_, hmax⟩, ?_⟩
    · simp only [List.append_assoc, List.take_append_drop]
      exact hwin
    · simp only [List.length_append, List.length_take]
      omega
    · intro _ hlt
      simp only [List.length_drop]
      omega

theorem fill_stop_or_more (s : Scanner) (W : Bytes) (hH : s.Holds W) :
    (∃ s2, s.fill = .stop s2) ∨ (∃ s2, s.fill = .more s2 ∧ s2.Holds W) := by
  obtain ⟨hwin, herr, hroom, hmax⟩ := hH
  unfold Scanner.fill
  by_cases he : s.err.isSome = true
  · rw [if_pos he]
    exact Or.inl ⟨_, rfl⟩
  · have herr2 : s.err = none := by
      cases h : s.err with
      | none => rfl
      | some e => simp [h] at he
    rw [if_neg he]
    have hsl := shift_start_le s
    by_cases hfull : s.shift.start + s.shift.window.length = s.shift.bufLen
    · rw [if_pos hfull]
      by_cases hbig : s.shift.bufLen ≥ MaxScanTokenSize
      · rw [if_pos hbig]
        exact Or.inl ⟨_, rfl⟩
      · rw [if_neg hbig]
        right
        obtain ⟨s2, h1, h2, -⟩ := readMore_more s.shift.grow W
          (by simp only [Scanner.grow, shift_window, shift_r]; exact hwin)
          (by
            rw [shift_window, shift_bufLen] at hfull
            rw [shift_bufLen] at hbig
            simp only [Scanner.grow, shift_window, shift_bufLen, MaxScanTokenSize, startBufSize] at hbig ⊢
            split <;> omega)
          (by simp only [Scanner.grow]; exact Nat.min_le_right _ _)
        exact ⟨s2, h1, h2⟩
    · rw [if_neg hfull]
      right
      obtain ⟨s2, h1, h2, -⟩ := readMore_more s.shift W
        (by rw [shift_window, shift_r]; exact hwin)
        (by rw [shift_window, shift_bufLen]; omega) (by rw [shift_bufLen]; exact hmax)
      exact ⟨s2, h1, h2⟩

/-- While the window is shorter than a token that is still to come and fits in
the largest buffer, `fill` reads on. -/
theorem fill_more (s : Scanner) (W : Bytes) (n : Nat) (hH : s.Holds W)
    (hw : s.window.length < n) (hn : n ≤ W.length) (hmax : n ≤ MaxScanTokenSize) :
    ∃ s2, s.fill = .more s2 ∧ s2.Holds W ∧ s2.r.remaining.length < s.r.remaining.length := by
  obtain ⟨hwin, herr, hroom, hbmax⟩ := hH
  have hWlen : W.length = s.window.length + s.r.remaining.length := by
    rw [← hwin, List.length_append]
  have hrem : s.r.remaining ≠ [] := by
    intro h
    rw [h] at hWlen
    simp at hWlen
    omega
  have herr2 : s.err = none := by
    rcases herr with h | ⟨-, h⟩
    · exact h
    · exact absurd h hrem
  have he : ¬ s.err.isSome = true := by simp [herr2]
  unfold Scanner.fill
  rw [if_neg he]
  have hsl := shift_start_le s
  by_cases hfull : s.shift.start + s.shift.window.length = s.shift.bufLen
  · rw [if_pos hfull]
    rw [shift_window, shift_bufLen] at hfull
    have h0 := shift_full s hfull
    have hbig : ¬ s.shift.bufLen ≥ MaxScanTokenSize := by
      rw [shift_bufLen]
      omega
    rw [if_neg hbig]
    rw [shift_bufLen] at hbig
    have hlt : s.shift.grow.start + s.shift.grow.window.length < s.shift.grow.bufLen := by
      simp only [Scanner.grow, shift_window, shift_bufLen, MaxScanTokenSize, startBufSize] at hbig ⊢
      split <;> omega
    obtain ⟨s2, h1, h2, h3⟩ := readMore_more s.shift.grow W
      (by simp only [Scanner.grow, shift_window, shift_r]; exact hwin)
      (Nat.le_of_lt hlt)
      (by simp only [Scanner.grow]; exact Nat.min_le_right _ _)
    refine ⟨s2, h1, h2, ?_⟩
    have := h3 (by simp only [Scanner.grow, shift_r]; exact hrem) hlt
    simpa only [Scanner.grow, shift_r] using this
  · rw [if_neg hfull]
    have hlt : s.shift.start + s.shift.window.length < s.shift.bufLen := by
      rw [shift_window, shift_bufLen] at hfull ⊢
      omega
    obtain ⟨s2, h1, h2, h3⟩ := readMore_more s.shift W
      (by rw [shift_window, shift_r]; exact hwin)
      (Nat.le_of_lt hlt) (by rw [shift_bufLen]; exact hbmax)
    refine ⟨s2, h1, h2, ?_⟩
    have := h3 (by rw [shift_r]; exact hrem) hlt
    simpa only [shift_r] using this

theorem step_no_token (split : Bytes → Bool → Nat × Option Bytes × Option Unit) (s : Scanner)
    (h : split s.window s.err.isSome = (0, none, none)) : s.step split = s.fill := by
  unfold Scanner.step
  split
  · rw [h]
    rfl
  · rfl

theorem step_token (split : Bytes → Bool → Nat × Option Bytes × Option Unit) (s : Scanner)
    (a : Nat) (t : Bytes) (h : split s.window s.err.isSome = (a, some t, none))
    (h0 : 0 < a) (ha : a ≤ s.window.length) :
    s.step split =
      .token t { s with start := s.start + a, window := s.window.drop a, empties := 0 } := by
  unfold Scanner.step
  have hw : s.window.length > 0 ∨ s.err.isSome = true := Or.inl (by omega)
  rw [if_pos hw, h]
  simp only
  rw [if_neg (by omega), if_pos (Or.inr h0)]

/-- When the split function gives no token on any prefix of what is left,
`Scan` returns false. -/
theorem Scan_end (split : Bytes → Bool → Nat × Option Bytes × Option Unit) (W : Bytes)
    (hfail : ∀ P, P <+: W → ∀ eof, split P eof = (0, none, none)) :
    ∀ (fuel : Nat) (s : Scanner), s.Holds W → (Scanner.Scan split fuel s).1 = none := by
  intro fuel
  induction fuel with
  | zero => intro s _; rfl
  | succ fuel ih =>
    intro s hH
    have hpre : s.window <+: W := ⟨s.r.remaining, hH.1⟩
    simp only [Scanner.Scan, step_no_token split s (hfail _ hpre _)]
    rcases fill_stop_or_more s W hH with ⟨s2, h⟩ | ⟨s2, h, hH2⟩
    · rw [h]
    · rw [h]
      exact ih s2 hH2

/-- When the split function gives no token on the prefixes of what is left that
are shorter than `n` and a token of the first `min (n + 1) length` bytes on the
others, and `n` bytes fit in the largest buffer, `Scan` returns such a token and
leaves the rest. -/
theorem Scan_token (split : Bytes → Bool → Nat × Option Bytes × Option Unit) (W : Bytes)
    (n : Nat) (hn0 : 0 < n) (hnW : n ≤ W.length) (hmax : n ≤ MaxScanTokenSize)
    (hshort : ∀ P, P <+: W → P.length < n → ∀ eof, split P eof = (0, none, none))
    (hlong : ∀ P, P <+: W → n ≤ P.length → ∀ eof,
      split P eof = (min (n + 1) P.length, some (P.take (min (n + 1) P.length)), none)) :
    ∀ (fuel : Nat) (s : Scanner), s.Holds W → s.r.remaining.length < fuel →
      ∃ a s2, Scanner.Scan split fuel s = (some (W.take a), s2) ∧ n ≤ a ∧ a ≤ n + 1 ∧
        a ≤ W.length ∧ s2.Holds (W.drop a) ∧ s2.r.remaining.length ≤ s.r.remaining.length := by
  intro fuel
  induction fuel with
  | zero => intro s _ h; omega
  | succ fuel ih =>
    intro s hH hfuel
    have hpre : s.window <+: W := ⟨s.r.remaining, hH.1⟩
    by_cases hw : n ≤ s.window.length
    · have hsp := hlong _ hpre hw s.err.isSome
      have hmin0 : 0 < min (n + 1) s.window.length := by omega
      have hminle : min (n + 1) s.window.length ≤ s.window.length := Nat.min_le_right _ _
      refine ⟨min (n + 1) s.window.length,
        { s with start := s.start + min (n + 1) s.window.length,
                 window := s.window.drop (min (n + 1) s.window.length), empties := 0 },
        ?_, by omega, Nat.min_le_left _ _, ?_, ?_, ?_⟩
      · simp only [Scanner.Scan, step_token split s _ _ hsp hmin0 hminle]
        congr 2
        obtain ⟨hwin, -⟩ := hH
        rw [← hwin, List.take_append_of_le_length hminle]
      · have := hpre.length_le
        omega
      · obtain ⟨hwin, herr, hroom, hbmax⟩ := hH
        refine ⟨?_, herr, ?_, hbmax⟩
        · simp only
          rw [← hwin, List.drop_append_of_le_length hminle]
        · simp only [List.length_drop]
          omega
      · exact le_refl _
    · have hw2 : s.window.length < n := by omega
      simp only [Scanner.Scan, step_no_token split s (hshort _ hpre hw2 _)]
      obtain ⟨s2, h, hH2, hlt⟩ := fill_more s W n hH hw2 hnW hmax
      rw [h]
      obtain ⟨a, s3, h3, ha1, ha2, ha3, hH3, hle⟩ := ih s2 hH2 (by omega)
      exact ⟨a, s3, h3, ha1, ha2, ha3, hH3, by omega⟩

/-- When the split function gives no token on the prefixes of what is left that
are shorter than `n`, no token or a token with property `Q` on the longer ones,
and a token on those of `m` bytes or more, and `m` bytes fit in the largest
buffer, `Scan` returns a token with property `Q` and leaves the rest. -/
theorem Scan_found (split : Bytes → Bool → Nat × Option Bytes × Option Unit) (W : Bytes)
    (n m : Nat) (Q : Nat → Bytes → Prop) (hnm : n ≤ m) (hmW : m ≤ W.length) (hmax : m ≤ MaxScanTokenSize)
    (hshort : ∀ P, P <+: W → P.length < n → split P false = (0, none, none))
    (hmid : ∀ P, P <+: W → n ≤ P.length → ∀ eof, (eof = true → P = W) →
      split P eof = (0, none, none) ∨
        ∃ a t, split P eof = (a, some t, none) ∧ 0 < a ∧ a ≤ P.length ∧ Q a t)
    (hlong : ∀ P, P <+: W → m ≤ P.length → ∀ eof, (eof = true → P = W) →
      split P eof ≠ (0, none, none)) :
    ∀ (fuel : Nat) (s : Scanner), s.Holds W → s.r.remaining.length < fuel →
      ∃ a t s2, Scanner.Scan split fuel s = (some t, s2) ∧ Q a t ∧ a ≤ W.length ∧
        s2.Holds (W.drop a) ∧ s2.r.remaining.length ≤ s.r.remaining.length := by
  intro fuel
  induction fuel with
  | zero => intro s _ h; omega
  | succ fuel ih =>
    intro s hH hfuel
    have hpre : s.window <+: W := ⟨s.r.remaining, hH.1⟩
    have heof : s.err.isSome = true → s.window = W := by
      intro he
      obtain ⟨hwin, herr, -, -⟩ := hH
      rcases herr with h | ⟨-, h⟩
      · simp [h] at he
      · simpa [h] using hwin
    have hWlen : W.length = s.window.length + s.r.remaining.length := by
      rw [← hH.1, List.length_append]
    -- the two outcomes of the split function on the window
    have hcases : split s.window s.err.isSome = (0, none, none) ∧ s.window.length < m ∨
        ∃ a t, split s.window s.err.isSome = (a, some t, none) ∧ 0 < a ∧
          a ≤ s.window.length ∧ Q a t := by
      by_cases hw : n ≤ s.window.length
      · rcases hmid _ hpre hw _ heof with h | h
        · left
          refine ⟨h, ?_⟩
          by_contra hm
          exact hlong _ hpre (by omega) _ heof h
        · exact Or.inr h
      · left
        have hm : s.window.length < m := by omega
        have hfalse : s.err.isSome = false := by
          cases he : s.err.isSome with
          | false => rfl
          | true =>
            have := heof he
            rw [this] at hm
            omega
        rw [hfalse]
        exact ⟨hshort _ hpre (by omega), hm⟩
    rcases hcases with ⟨hnone, hm⟩ | ⟨a, t, hsp, ha0, hale, hQ⟩
    · simp only [Scanner.Scan, step_no_token split s hnone]
      obtain ⟨s2, h, hH2, hlt⟩ := fill_more s W m hH hm hmW hmax
      rw [h]
      obtain ⟨a, t, s3, h3, hQ, ha, hH3, hle⟩ := ih s2 hH2 (by omega)
      exact ⟨a, t, s3, h3, hQ, ha, hH3, by omega⟩
    · refine ⟨a, t, { s with start := s.start + a, window := s.window.drop a, empties := 0 },
        ?_, hQ, by omega, ?_, le_refl _⟩
      · simp only [Scanner.Scan, step_token split s a t hsp ha0 hale]
      · obtain ⟨hwin, herr, hroom, hbmax⟩ := hH
        refine ⟨?_, herr, ?_, hbmax⟩
        · simp only
          rw [← hwin, List.drop_append_of_le_length hale]
        · simp only [List.length_drop]
          omega

/-- With nothing left to read and room in the buffer, `fill` reads the end of
the file. -/
theorem fill_eof (s : Scanner) (W : Bytes) (hH : s.Holds W) (herr : s.err = none)
    (hrem : s.r.remaining = []) (hlen : s.window.length < MaxScanTokenSize) :
    ∃ s2, s.fill = .more s2 ∧ s2.Holds W ∧ s2.err = some .EOF ∧ s2.r.remaining = [] ∧
      s2.window = s.window := by
  obtain ⟨hwin, -, hroom, hbmax⟩ := hH
  have he : ¬ s.err.isSome = true := by simp [herr]
  unfold Scanner.fill
  rw [if_neg he]
  have hsl := shift_start_le s
  have hread : ∀ t : Scanner, t.r = s.r → t.window = s.window →
      t.start + t.window.length ≤ t.bufLen → t.bufLen ≤ MaxScanTokenSize →
      ∃ s2, t.readMore = .more s2 ∧ s2.Holds W ∧ s2.err = some .EOF ∧ s2.r.remaining = [] ∧
        s2.window = s.window := by
    intro t htr htw htroom htmax
    unfold Scanner.readMore Reader.Read
    have h0 : t.r.remaining.length = 0 := by rw [htr, hrem]; rfl
    rw [if_pos h0]
    refine ⟨_, rfl, ⟨?_, Or.inr ⟨rfl, by rw [htr]; exact hrem⟩, ?_, htmax⟩, rfl,
      by rw [htr]; exact hrem, ?_⟩
    · simp only [List.append_nil, htw, htr]
      exact hwin
    · simpa using htroom
    · simp [htw]
  by_cases hfull : s.shift.start + s.shift.window.length = s.shift.bufLen
  · rw [if_pos hfull]
    rw [shift_window, shift_bufLen] at hfull
    have h0 := shift_full s hfull
    have hbig : ¬ s.shift.bufLen ≥ MaxScanTokenSize := by
      rw [shift_bufLen]
      omega
    rw [if_neg hbig]
    rw [shift_bufLen] at hbig
    apply hread
    · simp only [Scanner.grow, shift_r]
    · simp only [Scanner.grow, shift_window]
    · simp only [Scanner.grow, shift_window, shift_bufLen, MaxScanTokenSize,
        startBufSize] at hbig ⊢
      split <;> omega
    · simp only [Scanner.grow]
      exact Nat.min_le_right _ _
  · rw [if_neg hfull]
    apply hread
    · exact shift_r s
    · exact shift_window s
    · rw [shift_window, shift_bufLen]; omega
    · rw [shift_bufLen]; exact hbmax

/-- At the end of the input, with an empty window, `Scan` returns false and
leaves `io.EOF` as the error of the scanner. -/
theorem Scan_eof (split : Bytes → Bool → Nat × Option Bytes × Option Unit)
    (hsplit : split [] true = (0, none, none)) (fuel : Nat) (s : Scanner) (hH : s.Holds [])
    (hfuel : 2 ≤ fuel) :
    ∃ s2, Scanner.Scan split fuel s = (none, s2) ∧ s2.err = some .EOF := by
  have hwin : s.window = [] := by
    have := hH.1
    exact (List.append_eq_nil.1 this).1
  have hrem : s.r.remaining = [] := (List.append_eq_nil.1 hH.1).2
  have hstop : ∀ (f : Nat) (t : Scanner), t.window = [] → t.err = some .EOF →
      ∃ s2, Scanner.Scan split (f + 1) t = (none, s2) ∧ s2.err = some .EOF := by
    intro f t htw hte
    have hst : t.step split = t.fill := by
      apply step_no_token
      rw [htw, hte]
      exact hsplit
    refine ⟨{ t with start := 0, window := [] }, ?_, hte⟩
    simp only [Scanner.Scan, hst]
    unfold Scanner.fill
    rw [if_pos (by simp [hte])]
  cases herr : s.err with
  | some e =>
    have he : s.err = some .EOF := by
      rcases hH.2.1 with h | ⟨h, -⟩
      · rw [h] at herr; cases herr
      · exact h
    obtain ⟨f, rfl⟩ : ∃ f, fuel = f + 1 := ⟨fuel - 1, by omega⟩
    exact hstop f s hwin he
  | none =>
    obtain ⟨f, rfl⟩ : ∃ f, fuel = f + 2 := ⟨fuel - 2, by omega⟩
    have hst : s.step split = s.fill := by
      unfold Scanner.step
      rw [if_neg (by simp [hwin, herr])]
    obtain ⟨s2, h2, hH2, he2, -, hw2⟩ := fill_eof s [] hH herr hrem
      (by rw [hwin]; simp [MaxScanTokenSize])
    obtain ⟨s3, h3, he3⟩ := hstop f s2 (by rw [hw2, hwin]) he2
    refine ⟨s3, ?_, he3⟩
    rw [Scanner.Scan, hst, h2]
    exact h3

/-- When the split function gives no token before the end of the input and the
whole of what is left as a token at the end, and that is shorter than the
largest buffer, `Scan` returns it. -/
theorem Scan_final (split : Bytes → Bool → Nat × Option Bytes × Option Unit) (W t : Bytes)
    (hW : W ≠ []) (hmax : W.length < MaxScanTokenSize)
    (hnone : ∀ P, P <+: W → split P false = (0, none, none))
    (hfin : split W true = (W.length, some t, none)) :
    ∀ (fuel : Nat) (s : Scanner), s.Holds W →
      s.r.remaining.length + (if s.err = none then 1 else 0) < fuel →
      ∃ s2, Scanner.Scan split fuel s = (some t, s2) ∧ s2.Holds [] := by
  intro fuel
  induction fuel with
  | zero => intro s _ h; omega
  | succ fuel ih =>
    intro s hH hfuel
    have hpre : s.window <+: W := ⟨s.r.remaining, hH.1⟩
    have hWlen : W.length = s.window.length + s.r.remaining.length := by
      rw [← hH.1, List.length_append]
    have hlen0 : 0 < W.length := List.length_pos.2 hW
    cases herr : s.err with
    | some e =>
      obtain ⟨hwin, herr2, hroom, hbmax⟩ := hH
      have hrem : s.r.remaining = [] := by
        rcases herr2 with h | ⟨-, h⟩
        · rw [h] at herr; cases herr
        · exact h
      have hw : s.window = W := by simpa [hrem] using hwin
      have hsp : split s.window s.err.isSome = (W.length, some t, none) := by
        rw [hw, herr]
        exact hfin
      refine ⟨{ s with start := s.start + W.length, window := s.window.drop W.length,
                       empties := 0 }, ?_, ?_⟩
      · simp only [Scanner.Scan, step_token split s _ t hsp hlen0 (by rw [hw])]
      · refine ⟨?_, herr2, ?_, hbmax⟩
        · simp only [hrem, List.append_nil, hw, List.drop_length]
        · have hwl := congrArg List.length hw
          simp only [List.length_drop]
          omega
    | none =>
      have hsp : split s.window s.err.isSome = (0, none, none) := by
        rw [herr]
        exact hnone _ hpre
      simp only [Scanner.Scan, step_no_token split s hsp]
      by_cases hrem : s.r.remaining = []
      · obtain ⟨s2, h2, hH2, he2, hr2, -⟩ := fill_eof s W hH herr hrem (by
          rw [hrem] at hWlen
          simp at hWlen
          omega)
        rw [h2]
        apply ih s2 hH2
        rw [he2, hr2]
        rw [herr, hrem] at hfuel
        simp at hfuel ⊢
        omega
      · have hlt : s.window.length < W.length := by
          have : 0 < s.r.remaining.length := List.length_pos.2 hrem
          omega
        obtain ⟨s2, h2, hH2, hlt2⟩ := fill_more s W W.length hH hlt (le_refl _)
          (Nat.le_of_lt hmax)
        rw [h2]
        apply ih s2 hH2
        rw [herr] at hfuel
        simp at hfuel
        split <;> omega

theorem pemStream_length (pieces : List Piece) (trailing : Bytes) :
    pieces.length ≤ (pemStream pieces trailing).length := by
  induction pieces with
  | nil => simp
  | cons pc rest ih =>
    simp only [pemStream, List.length_cons, List.length_append]
    omega

theorem Junk_lead (pre J : Bytes) (hpre : pre = [] ∨ pre = [10]) (hJ : Junk J) :
    Junk (pre ++ J) := by
  rcases hpre with rfl | rfl
  · exact hJ
  · exact Junk_cons_newline J hJ

theorem lead_last (pre J : Bytes) (hpre : pre = [] ∨ pre = [10])
    (hl : J = [] ∨ J.getLast? = some 10) :
    pre ++ J = [] ∨ (pre ++ J).getLast? = some 10 := by
  rcases hpre with rfl | rfl
  · exact hl
  · right
    rcases hl with rfl | h
    · rfl
    · rw [List.getLast?_append, h]
      rfl

/-- The loop of `ReadCertificatePEM`, from a scanner that has a well-formed
stream left (after at most the newline that ended the last token), sends the
payloads of its blocks, in order. -/
theorem scanPEM_stream : ∀ (pieces : List Piece) (trailing pre : Bytes) (s : Scanner)
    (fuel : Nat), (∀ pc ∈ pieces, pc.Conforming) → Junk trailing → (pre = [] ∨ pre = [10]) →
    s.Holds (pre ++ pemStream pieces trailing) → pieces.length < fuel →
    scanPEM fuel s = pieces.map (fun pc => pc.payload) := by
  intro pieces
  induction pieces with
  | nil =>
    intro trailing pre s fuel _ ht hpre hH hfuel
    cases fuel with
    | zero => rfl
    | succ f =>
      have hJ : Junk (pre ++ trailing) := Junk_lead pre trailing hpre ht
      have hend := Scan_end ScannerSplitPEM (pre ++ trailing)
        (fun P hP eof => ScannerSplitPEM_junk _ P hJ hP eof) (s.r.remaining.length + 2) s hH
      simp only [scanPEM, List.map_nil]
      cases hs : Scanner.Scan ScannerSplitPEM (s.r.remaining.length + 2) s with
      | mk tok s2 =>
        rw [hs] at hend
        simp only at hend
        subst hend
        rfl
  | cons pc rest ih =>
    intro trailing pre s fuel hall ht hpre hH hfuel
    obtain ⟨hJ, hl, hT, hT58, hb, hb58, hbl, hdec, hsize⟩ := hall pc (by simp)
    have hJ2 := Junk_lead pre pc.junk hpre hJ
    have hl2 := lead_last pre pc.junk hpre hl
    have hprelen : pre.length ≤ 1 := by
      rcases hpre with rfl | rfl <;> simp
    have hW : pre ++ pemStream (pc :: rest) trailing =
        (pre ++ pc.junk) ++ blockCore pc.typ pc.body ++ 10 :: pemStream rest trailing := by
      simp [pemStream]
    rw [hW] at hH
    cases fuel with
    | zero => omega
    | succ f =>
      have hcore : 0 < (blockCore pc.typ pc.body).length := by
        rw [blockCore_length]; omega
      obtain ⟨a, s2, hscan, ha1, ha2, ha3, hH2, -⟩ := Scan_token ScannerSplitPEM _
        ((pre ++ pc.junk).length + (blockCore pc.typ pc.body).length)
        (by omega)
        (by simp only [List.length_append, List.length_cons]; omega)
        (by rw [List.length_append]; omega)
        (fun P hP hlen eof =>
          ScannerSplitPEM_short _ pc.typ pc.body P _ hJ2 hl2 hT hT58 hb hb58 hP hlen eof)
        (fun P hP hlen eof =>
          (ScannerSplitPEM_long _ pc.typ pc.body pc.payload P _ hJ2 hl2 hT hT58 hb hb58 hbl hdec
            hP hlen eof).1)
        (s.r.remaining.length + 2) s hH (by omega)
      have hdecode := (ScannerSplitPEM_long _ pc.typ pc.body pc.payload
        (((pre ++ pc.junk) ++ blockCore pc.typ pc.body ++ 10 :: pemStream rest trailing).take a)
        (pemStream rest trailing) hJ2 hl2 hT hT58 hb hb58 hbl hdec (List.take_prefix _ _)
        (by rw [List.length_take]; omega) false).2
      have hmin : min ((pre ++ pc.junk).length + (blockCore pc.typ pc.body).length + 1)
          (((pre ++ pc.junk) ++ blockCore pc.typ pc.body ++ 10 :: pemStream rest trailing).take
            a).length = a := by
        rw [List.length_take]; omega
      rw [hmin, List.take_take, Nat.min_self] at hdecode
      simp only [scanPEM, hscan, hdecode, List.map_cons]
      congr 1
      have hdrop : ∃ pre2, (pre2 = [] ∨ pre2 = [10]) ∧
          ((pre ++ pc.junk) ++ blockCore pc.typ pc.body ++ 10 :: pemStream rest trailing).drop a =
            pre2 ++ pemStream rest trailing := by
        by_cases hcase : a = (pre ++ pc.junk).length + (blockCore pc.typ pc.body).length
        · refine ⟨[10], Or.inr rfl, ?_⟩
          rw [List.drop_left' (by rw [List.length_append]; exact hcase.symm)]
          rfl
        · refine ⟨[], Or.inl rfl, ?_⟩
          have h1 : (pre ++ pc.junk) ++ blockCore pc.typ pc.body ++ 10 :: pemStream rest trailing =
              ((pre ++ pc.junk) ++ blockCore pc.typ pc.body ++ [10]) ++ pemStream rest trailing := by
            simp
          rw [h1, List.drop_left' (by
            simp only [List.length_append, List.length_cons, List.length_nil] at ha1 ha2 hcase ⊢
            omega)]
          rfl
      obtain ⟨pre2, hpre2, hd⟩ := hdrop
      rw [hd] at hH2
      exact ih trailing pre2 s2 f (fun q hq => hall q (by simp [hq])) ht hpre2 hH2
        (by simp only [List.length_cons] at hfuel; omega)

theorem twoPieces_conforming : ∀ pc ∈ twoPieces, pc.Conforming := by
  intro pc hpc
  simp only [twoPieces, List.mem_cons, List.mem_singleton, List.not_mem_nil, or_false] at hpc
  rcases hpc with rfl | rfl <;> (unfold Piece.Conforming Junk; decide)

/-- C2, as stated, fails. A conforming block that follows a junk byte without a
newline between them is not found: one block, no RawBlock. And a malformed block
(bytes after the END line's dashes, which `pem.Decode` rejects) yields a RawBlock
when a read happens to end right after the dashes: no conforming block, one
RawBlock. -/
theorem ReadCertificatePEM_junk_counterexample :
    Decode (ascii "-----BEGIN X-----\nQUJD\n-----END X-----\n") =
      (some { Typ := ascii "X", Headers := [], Bytes := [65, 66, 67] }, []) ∧
    ReadCertificatePEM (ascii "x" ++ ascii "-----BEGIN X-----\nQUJD\n-----END X-----\n") [] = [] ∧
    (Decode (ascii "-----BEGIN X-----\nQUJD\n-----END X-----x\n")).1 = none ∧
    ReadCertificatePEM (ascii "-----BEGIN X-----\nQUJD\n-----END X-----x\n") [] = [] ∧
    ReadCertificatePEM (ascii "-----BEGIN X-----\nQUJD\n-----END X-----x\n") [38] =
      [[65, 66, 67]] := by
  decide

/-- C2, amended: on a stream of K conforming blocks, each on lines of its own
(BEGIN line, body lines without dash or colon whose base64 text decodes, END
line of the same type, newline), each after junk that holds no BEGIN marker and
is empty or ends in a newline, with trailing junk that holds no BEGIN marker,
and with every junk-and-block shorter than `MaxScanTokenSize`,
`ReadCertificatePEM` yields exactly the K payloads, in input order, however the
reads of the file are cut. -/
theorem ReadCertificatePEM_conforming (pieces : List Piece) (trailing : Bytes)
    (chunks : List Nat) (hp : ∀ pc ∈ pieces, pc.Conforming) (ht : Junk trailing) :
    ReadCertificatePEM (pemStream pieces trailing) chunks =
      pieces.map (fun pc => pc.payload) := by
  unfold ReadCertificatePEM
  apply scanPEM_stream pieces trailing [] _ _ hp ht (Or.inl rfl)
  · exact ⟨rfl, Or.inl rfl, le_refl _, Nat.zero_le _⟩
  · have := pemStream_length pieces trailing
    omega

/-- C2, amended, at a concrete input: junk, two blocks, trailing junk, read in
pieces of 3, 7 and 40 bytes and then whole. -/
theorem ReadCertificatePEM_conforming_witness :
    (∀ pc ∈ twoPieces, pc.Conforming) ∧ Junk (ascii "goop") ∧
    pemStream twoPieces (ascii "goop") =
      ascii "x\n-----BEGIN X-----\nQUJD\n-----END X-----\n-----BEGIN X-----\nQUJE\n-----END X-----\ngoop" ∧
    ReadCertificatePEM (pemStream twoPieces (ascii "goop")) [3, 7, 40] =
      twoPieces.map (fun pc => pc.payload) ∧
    twoPieces.map (fun pc => pc.payload) = [[65, 66, 67], [65, 66, 68]] :=
  ⟨twoPieces_conforming, by unfold Junk; decide, by decide,
   ReadCertificatePEM_conforming twoPieces (ascii "goop") [3, 7, 40] twoPieces_conforming
     (by unfold Junk; decide),
   by decide⟩

/-! ## `bufio.ScanLines` -/

theorem indexOf_no_newline (P : Bytes) (h : 10 ∉ P) : P.indexOf 10 = P.length :=
  List.indexOf_eq_length.2 h

theorem indexOf_line (l X : Bytes) (h : 10 ∉ l) : (l ++ 10 :: X).indexOf 10 = l.length := by
  induction l with
  | nil => simp
  | cons c l ih =>
    have hc : c ≠ 10 := fun hc => h (by simp [hc])
    have hl : 10 ∉ l := fun hl => h (by simp [hl])
    simp only [List.cons_append, List.length_cons]
    rw [List.indexOf_cons_ne _ hc, ih hl]

/-- Without a newline and before the end of the input, `ScanLines` asks for
more. -/
theorem ScanLines_wait (P : Bytes) (h : 10 ∉ P) : ScanLines P false = (0, none, none) := by
  unfold ScanLines
  rw [if_neg (by simp), indexOf_no_newline P h, if_neg (by omega), if_neg (by simp)]

/-- With a newline, `ScanLines` gives the first line. -/
theorem ScanLines_line (l X : Bytes) (eof : Bool) (h : 10 ∉ l) :
    ScanLines (l ++ 10 :: X) eof = (l.length + 1, some (dropCR l), none) := by
  unfold ScanLines
  rw [if_neg (by simp), indexOf_line l X h, if_pos (by simp)]
  simp

/-- At the end of the input, `ScanLines` gives what is left as the last line. -/
theorem ScanLines_last (W : Bytes) (hW : W ≠ []) (h : 10 ∉ W) :
    ScanLines W true = (W.length, some (dropCR W), none) := by
  unfold ScanLines
  have : 0 < W.length := List.length_pos.2 hW
  rw [if_neg (by rintro ⟨-, h0⟩; omega), indexOf_no_newline W h, if_neg (by omega), if_pos rfl]

theorem not_mem_of_isPrefix (P W : Bytes) (c : Nat) (hP : P <+: W) (h : c ∉ W) : c ∉ P :=
  fun hc => h (hP.subset hc)

/-- A prefix of a line and the rest of the file that does not reach the newline
of the line has no newline. -/
theorem isPrefix_line (l X P : Bytes) (h : 10 ∉ l) (hP : P <+: l ++ 10 :: X)
    (hlen : P.length < l.length + 1) : 10 ∉ P := by
  have hPl : P <+: l :=
    List.prefix_of_prefix_length_le hP (List.prefix_append l _) (by omega)
  exact not_mem_of_isPrefix P l 10 hPl h

/-- A prefix of a line and the rest of the file that reaches the newline of the
line is the line, the newline and more. -/
theorem isPrefix_line_long (l X P : Bytes) (hP : P <+: l ++ 10 :: X)
    (hlen : l.length + 1 ≤ P.length) : ∃ X2, P = l ++ 10 :: X2 := by
  have h1 : l ++ 10 :: X = (l ++ [10]) ++ X := by simp
  have h2 : l ++ [10] <+: P :=
    List.prefix_of_prefix_length_le (h1 ▸ List.prefix_append (l ++ [10]) X) hP (by simpa using hlen)
  obtain ⟨X2, hX2⟩ := h2
  exact ⟨X2, by rw [← hX2]; simp⟩

/-! ## `ReadCertificateBase64` -/

theorem fileOfLines_cons (l : Bytes) (lines : List Bytes) (last : Bytes) :
    fileOfLines (l :: lines) last = l ++ 10 :: fileOfLines lines last := by
  simp [fileOfLines]

theorem fileOfLines_length (lines : List Bytes) (last : Bytes) :
    lines.length ≤ (fileOfLines lines last).length := by
  induction lines with
  | nil => simp
  | cons l lines ih =>
    rw [fileOfLines_cons]
    simp only [List.length_append, List.length_cons]
    omega

theorem fileOfLines_length_last (lines : List Bytes) (last : Bytes) :
    lines.length + last.length ≤ (fileOfLines lines last).length := by
  induction lines with
  | nil => simp [fileOfLines]
  | cons l lines ih =>
    rw [fileOfLines_cons]
    simp only [List.length_append, List.length_cons]
    omega

/-- One round of the loop of `ReadCertificateBase64` on a line that is shorter
than the largest buffer: the line is decoded, and the scanner has the rest of
the file left. -/
theorem scanBase64_line (l rest : Bytes) (s : Scanner) (f : Nat) (hl : 10 ∉ l)
    (hlen : l.length < MaxScanTokenSize) (hH : s.Holds (l ++ 10 :: rest)) :
    ∃ s2, s2.Holds rest ∧
      scanBase64 (f + 1) s =
        match DecodeString (dropCR l) with
        | none => scanBase64 f s2
        | some certBytes => (certBytes :: (scanBase64 f s2).1, (scanBase64 f s2).2) := by
  obtain ⟨a, t, s2, h2, ⟨ha, ht⟩, -, hH2, -⟩ := Scan_found ScanLines
    (l ++ 10 :: rest) (l.length + 1) (l.length + 1)
    (fun a t => a = l.length + 1 ∧ t = dropCR l) (le_refl _)
    (by simp only [List.length_append, List.length_cons]; omega) (by omega)
    (fun P hP hlt => ScanLines_wait P (isPrefix_line l _ P hl hP hlt))
    (fun P hP hge eof _ => by
      obtain ⟨X2, rfl⟩ := isPrefix_line_long l _ P hP hge
      right
      refine ⟨l.length + 1, dropCR l, ScanLines_line l X2 eof hl, by omega,
        by simp only [List.length_append, List.length_cons]; omega, ?_⟩
      exact ⟨rfl, rfl⟩)
    (fun P hP hge eof _ => by
      obtain ⟨X2, rfl⟩ := isPrefix_line_long l _ P hP hge
      rw [ScanLines_line l X2 eof hl]
      simp)
    (s.r.remaining.length + 2) s hH (by omega)
  subst ha ht
  have hdrop : (l ++ 10 :: rest).drop (l.length + 1) = rest := by
    have h1 : l ++ 10 :: rest = (l ++ [10]) ++ rest := by simp
    rw [h1, List.drop_left' (by simp)]
  rw [hdrop] at hH2
  refine ⟨s2, hH2, ?_⟩
  simp only [scanBase64, h2]

/-- The loop of `ReadCertificateBase64`, from a scanner that has a file of lines
left, each shorter than the largest buffer: every line that decodes is sent, in
order, and the scanner ends without an error. -/
theorem scanBase64_lines : ∀ (lines : List Bytes) (last : Bytes) (s : Scanner) (fuel : Nat),
    (∀ l ∈ lines, 10 ∉ l ∧ l.length < MaxScanTokenSize) →
    10 ∉ last → last.length < MaxScanTokenSize →
    s.Holds (fileOfLines lines last) → lines.length + last.length < fuel →
    (scanBase64 fuel s).1 =
      (lines ++ (if last = [] then [] else [last])).filterMap
        (fun l => DecodeString (dropCR l)) ∧
    (scanBase64 fuel s).2.err = some .EOF := by
  intro lines
  induction lines with
  | nil =>
    intro last s fuel _ hl hlmax hH hfuel
    have hend : ∀ (f : Nat) (t : Scanner), t.Holds [] →
        (scanBase64 (f + 1) t).1 = [] ∧ (scanBase64 (f + 1) t).2.err = some .EOF := by
      intro f t ht
      obtain ⟨s2, h2, he2⟩ := Scan_eof ScanLines (by decide) (t.r.remaining.length + 2) t ht
        (by omega)
      rw [scanBase64, h2]
      exact ⟨rfl, he2⟩
    by_cases hlast : last = []
    · subst hlast
      obtain ⟨f, rfl⟩ : ∃ f, fuel = f + 1 := ⟨fuel - 1, by omega⟩
      simpa using hend f s (by simpa [fileOfLines] using hH)
    · have hW : fileOfLines [] last = last := by simp [fileOfLines]
      rw [hW] at hH
      have hpos : 0 < last.length := List.length_pos.2 hlast
      obtain ⟨f, rfl⟩ : ∃ f, fuel = f + 2 := ⟨fuel - 2, by simp at hfuel; omega⟩
      obtain ⟨s2, h2, hH2⟩ := Scan_final ScanLines last (dropCR last) hlast hlmax
        (fun P hP => ScanLines_wait P (not_mem_of_isPrefix P last 10 hP hl))
        (ScanLines_last last hlast hl) (s.r.remaining.length + 2) s hH (by split <;> omega)
      obtain ⟨h3, h4⟩ := hend f s2 hH2
      simp only [List.nil_append, if_neg hlast, List.filterMap_cons, List.filterMap_nil]
      rw [scanBase64, h2]
      simp only
      cases hd : DecodeString (dropCR last) with
      | none => exact ⟨h3, h4⟩
      | some certBytes => exact ⟨by simp [h3], h4⟩
  | cons l lines ih =>
    intro last s fuel hall hl hlmax hH hfuel
    obtain ⟨hl10, hlen⟩ := hall l (by simp)
    rw [fileOfLines_cons] at hH
    obtain ⟨f, rfl⟩ : ∃ f, fuel = f + 1 := ⟨fuel - 1, by omega⟩
    obtain ⟨s2, hH2, hscan⟩ := scanBase64_line l _ s f hl10 hlen hH
    obtain ⟨h3, h4⟩ := ih last s2 f (fun q hq => hall q (by simp [hq])) hl hlmax hH2
      (by simp only [List.length_cons] at hfuel; omega)
    rw [hscan]
    simp only [List.cons_append, List.filterMap_cons]
    cases hd : DecodeString (dropCR l) with
    | none => exact ⟨h3, h4⟩
    | some certBytes => exact ⟨by simp [h3], h4⟩

/-- A line that does not fit in the largest buffer: `Scan` returns false and
leaves `ErrTooLong` as the error of the scanner. -/
theorem Scan_tooLong (split : Bytes → Bool → Nat × Option Bytes × Option Unit) (W : Bytes)
    (hW : MaxScanTokenSize < W.length)
    (hnone : ∀ P, P <+: W → P.length ≤ MaxScanTokenSize → split P false = (0, none, none)) :
    ∀ (fuel : Nat) (s : Scanner), s.Holds W → s.r.remaining.length < fuel →
      ∃ s2, Scanner.Scan split fuel s = (none, s2) ∧ s2.err = some .ErrTooLong := by
  intro fuel
  induction fuel with
  | zero => intro s _ h; omega
  | succ fuel ih =>
    intro s hH hfuel
    have hpre : s.window <+: W := ⟨s.r.remaining, hH.1⟩
    obtain ⟨hwin, herr, hroom, hbmax⟩ := hH
    have hWlen : W.length = s.window.length + s.r.remaining.length := by
      rw [← hwin, List.length_append]
    have hrem : s.r.remaining ≠ [] := by
      intro h
      rw [h] at hWlen
      simp at hWlen
      omega
    have herr2 : s.err = none := by
      rcases herr with h | ⟨-, h⟩
      · exact h
      · exact absurd h hrem
    have hsp : split s.window s.err.isSome = (0, none, none) := by
      rw [herr2]
      exact hnone _ hpre (by omega)
    simp only [Scanner.Scan, step_no_token split s hsp]
    by_cases hlt : s.window.length < MaxScanTokenSize
    · obtain ⟨s2, h2, hH2, hlt2⟩ := fill_more s W MaxScanTokenSize ⟨hwin, herr, hroom, hbmax⟩
        hlt (by omega) (le_refl _)
      rw [h2]
      exact ih s2 hH2 (by omega)
    · have hlen : s.window.length = MaxScanTokenSize := by omega
      have hs0 : s.start = 0 := by omega
      have hb : s.bufLen = MaxScanTokenSize := by omega
      have hsl := shift_start_le s
      unfold Scanner.fill
      rw [if_neg (by simp [herr2]),
        if_pos (by rw [shift_window, shift_bufLen]; omega),
        if_pos (by rw [shift_bufLen]; omega)]
      exact ⟨_, rfl, rfl⟩

theorem EncodeToString_ge (bs : Bytes) : ∀ c ∈ EncodeToString bs, 43 ≤ c := by
  have henc : ∀ v, 43 ≤ encodeStd v := by
    intro v
    unfold encodeStd
    split
    · omega
    · split
      · omega
      · split
        · omega
        · split <;> omega
  induction bs using EncodeToString.induct with
  | case1 => simp [EncodeToString]
  | case2 b0 =>
    intro c hc
    simp only [EncodeToString, padChar, List.mem_cons, List.mem_singleton, List.not_mem_nil,
      or_false] at hc
    rcases hc with rfl | rfl | rfl | rfl
    · exact henc _
    · exact henc _
    · omega
    · omega
  | case3 b0 b1 =>
    intro c hc
    simp only [EncodeToString, padChar, List.mem_cons, List.mem_singleton, List.not_mem_nil,
      or_false] at hc
    rcases hc with rfl | rfl | rfl | rfl
    · exact henc _
    · exact henc _
    · exact henc _
    · omega
  | case4 b0 b1 b2 rest ih =>
    intro c hc
    simp only [EncodeToString, List.mem_cons] at hc
    rcases hc with rfl | rfl | rfl | rfl | hc
    · exact henc _
    · exact henc _
    · exact henc _
    · exact henc _
    · exact ih c hc

theorem dropCR_of_ge (l : Bytes) (h : ∀ c ∈ l, 43 ≤ c) : dropCR l = l := by
  unfold dropCR
  rw [if_neg]
  intro h13
  have := h 13 (List.mem_of_getLast?_eq_some h13)
  omega

theorem dropCR_append_cr (l : Bytes) : dropCR (l ++ [13]) = l := by
  unfold dropCR
  simp

theorem NewScanner_Holds (file : Bytes) (chunks : List Nat) :
    (NewScanner { remaining := file, chunks := chunks }).Holds file :=
  ⟨rfl, Or.inl rfl, le_refl _, Nat.zero_le _⟩

/-- A line of `MaxScanTokenSize` bytes or more, after lines that are shorter:
`ReadCertificateBase64` sends what the lines before it decode to and ends the
process, since `scanner.Err()` is `ErrTooLong`. -/
theorem ReadCertificateBase64_line_too_long (lines : List Bytes) (long rest : Bytes)
    (chunks : List Nat) (hlines : ∀ l ∈ lines, 10 ∉ l ∧ l.length < MaxScanTokenSize)
    (hlong : 10 ∉ long) (hlen : MaxScanTokenSize ≤ long.length) :
    (ReadCertificateBase64 (some (fileOfLines lines (long ++ 10 :: rest))) chunks).exited = true ∧
    (ReadCertificateBase64 (some (fileOfLines lines (long ++ 10 :: rest))) chunks).out =
      lines.filterMap (fun l => DecodeString (dropCR l)) := by
  have hgen : ∀ (lines : List Bytes) (s : Scanner) (fuel : Nat),
      (∀ l ∈ lines, 10 ∉ l ∧ l.length < MaxScanTokenSize) →
      s.Holds (fileOfLines lines (long ++ 10 :: rest)) → lines.length < fuel →
      (scanBase64 fuel s).1 = lines.filterMap (fun l => DecodeString (dropCR l)) ∧
      (scanBase64 fuel s).2.err = some .ErrTooLong := by
    intro lines
    induction lines with
    | nil =>
      intro s fuel _ hH hfuel
      obtain ⟨f, rfl⟩ : ∃ f, fuel = f + 1 := ⟨fuel - 1, by omega⟩
      have hW : fileOfLines [] (long ++ 10 :: rest) = long ++ 10 :: rest := by
        simp [fileOfLines]
      rw [hW] at hH
      obtain ⟨s2, h2, he2⟩ := Scan_tooLong ScanLines (long ++ 10 :: rest)
        (by simp only [List.length_append, List.length_cons]; omega)
        (fun P hP hle => ScanLines_wait P (isPrefix_line long rest P hlong hP (by omega)))
        (s.r.remaining.length + 2) s hH (by omega)
      rw [scanBase64, h2]
      exact ⟨rfl, he2⟩
    | cons l lines ih =>
      intro s fuel hall hH hfuel
      obtain ⟨hl10, hllen⟩ := hall l (by simp)
      rw [fileOfLines_cons] at hH
      obtain ⟨f, rfl⟩ : ∃ f, fuel = f + 1 := ⟨fuel - 1, by omega⟩
      obtain ⟨s2, hH2, hscan⟩ := scanBase64_line l _ s f hl10 hllen hH
      obtain ⟨h3, h4⟩ := ih s2 f (fun q hq => hall q (by simp [hq])) hH2
        (by simp only [List.length_cons] at hfuel; omega)
      rw [hscan]
      simp only [List.filterMap_cons]
      cases hd : DecodeString (dropCR l) with
      | none => exact ⟨h3, h4⟩
      | some certBytes => exact ⟨by simp [h3], h4⟩
  have hfuel : lines.length < (fileOfLines lines (long ++ 10 :: rest)).length + 1 := by
    have := fileOfLines_length lines (long ++ 10 :: rest)
    omega
  obtain ⟨h1, h2⟩ := hgen lines _ _ hlines (NewScanner_Holds _ chunks) hfuel
  unfold ReadCertificateBase64
  simp only
  refine ⟨?_, h1⟩
  simp [Scanner.Err, h2]

set_option maxRecDepth 100000 in
/-- C7, as stated, fails: the line `QR==` is accepted and decodes to the
one-byte block `A`, whose standard encoding is `QQ==`, not the line; the line
`Q\rQ==` is accepted too and gives the same block. -/
theorem base64_reencode_differs :
    ReadCertificateBase64 (some (ascii "QR==\n")) [] = { out := [[65]], exited := false } ∧
    DecodeString (ascii "QR==") = some [65] ∧
    EncodeToString [65] = ascii "QQ==" ∧
    EncodeToString [65] ≠ ascii "QR==" ∧
    DecodeString (ascii "Q\rQ==") = some [65] := by
  decide

/-- C7, amended: on a file whose lines are all shorter than `MaxScanTokenSize`
(64 KiB), `ReadCertificateBase64` does not end the process and sends what the
lines that decode decode to, in order. A line that is the standard base64
encoding of a byte sequence, with or without a carriage return before its
newline, is accepted, its RawBlock is that sequence, and re-encoding the
RawBlock reproduces the line; a file of such lines gives exactly the sequences.
For any accepted line, re-encoding the RawBlock gives a line that is accepted
and decodes to the same RawBlock. -/
theorem base64_canonical_roundtrip (lines : List Bytes) (last : Bytes) (chunks : List Nat)
    (hlines : ∀ l ∈ lines, 10 ∉ l ∧ l.length < MaxScanTokenSize)
    (hlast : 10 ∉ last ∧ last.length < MaxScanTokenSize) :
    (ReadCertificateBase64 (some (fileOfLines lines last)) chunks).exited = false ∧
    (ReadCertificateBase64 (some (fileOfLines lines last)) chunks).out =
      (lines ++ (if last = [] then [] else [last])).filterMap
        (fun l => DecodeString (dropCR l)) ∧
    (∀ l ∈ lines ++ (if last = [] then [] else [last]), ∀ bs : Bytes, (∀ b ∈ bs, b < 256) →
      (l = EncodeToString bs ∨ l = EncodeToString bs ++ [13]) →
      DecodeString (dropCR l) = some bs ∧ EncodeToString bs = dropCR l ∧
      bs ∈ (ReadCertificateBase64 (some (fileOfLines lines last)) chunks).out) ∧
    (∀ blocks : List Bytes, (∀ bs ∈ blocks, ∀ b ∈ bs, b < 256) →
      lines = blocks.map EncodeToString → last = [] →
      (ReadCertificateBase64 (some (fileOfLines lines last)) chunks).out = blocks) ∧
    (∀ l raw, DecodeString l = some raw → DecodeString (EncodeToString raw) = some raw) := by
  have hfuel : lines.length + last.length < (fileOfLines lines last).length + 1 := by
    have := fileOfLines_length_last lines last
    omega
  obtain ⟨h1, h2⟩ := scanBase64_lines lines last _ _ hlines hlast.1 hlast.2
    (NewScanner_Holds (fileOfLines lines last) chunks) hfuel
  have hout : (ReadCertificateBase64 (some (fileOfLines lines last)) chunks).out =
      (lines ++ (if last = [] then [] else [last])).filterMap
        (fun l => DecodeString (dropCR l)) := by
    unfold ReadCertificateBase64
    exact h1
  have hcanon : ∀ (l bs : Bytes), (∀ b ∈ bs, b < 256) →
      (l = EncodeToString bs ∨ l = EncodeToString bs ++ [13]) →
      dropCR l = EncodeToString bs := by
    intro l bs _ hl
    rcases hl with rfl | rfl
    · exact dropCR_of_ge _ (EncodeToString_ge bs)
    · exact dropCR_append_cr _
  refine ⟨?_, hout, ?_, ?_, ?_⟩
  · unfold ReadCertificateBase64
    simp [Scanner.Err, h2]
  · intro l hl bs hb hform
    have hd : DecodeString (dropCR l) = some bs := by
      rw [hcanon l bs hb hform]
      exact DecodeString_EncodeToString bs hb
    refine ⟨hd, (hcanon l bs hb hform).symm, ?_⟩
    rw [hout, List.mem_filterMap]
    exact ⟨l, hl, hd⟩
  · intro blocks hb hl hlast0
    rw [hout, hlast0, hl]
    simp only [if_true, List.append_nil, List.filterMap_map]
    clear hl hlines hfuel h1 h2 hout
    induction blocks with
    | nil => rfl
    | cons bs blocks ih =>
      have hbs : ∀ b ∈ bs, b < 256 := hb bs (by simp)
      simp only [List.filterMap_cons, Function.comp]
      rw [dropCR_of_ge _ (EncodeToString_ge bs), DecodeString_EncodeToString bs hbs]
      simp only
      rw [ih (fun q hq => hb q (by simp [hq]))]
  · intro l raw h
    exact DecodeString_EncodeToString raw (decodeQuanta_lt l [] raw h)

set_option maxRecDepth 100000 in
/-- C7, amended, at a concrete input: a file of four lines, one with a carriage
return, one that does not decode, one without a newline at the end, read in
pieces of 3 bytes, 1 byte and then whole. -/
theorem base64_canonical_roundtrip_witness :
    fileOfLines [ascii "QUJD\r", ascii "!!", ascii "QUJE"] (ascii "QUJF") =
      ascii "QUJD\r\n!!\nQUJE\nQUJF" ∧
    (ReadCertificateBase64
      (some (fileOfLines [ascii "QUJD\r", ascii "!!", ascii "QUJE"] (ascii "QUJF")))
      [3, 1]).exited = false ∧
    (ReadCertificateBase64
      (some (fileOfLines [ascii "QUJD\r", ascii "!!", ascii "QUJE"] (ascii "QUJF")))
      [3, 1]).out = [[65, 66, 67], [65, 66, 68], [65, 66, 69]] ∧
    EncodeToString [65, 66, 67] = ascii "QUJD" :=
  ⟨by decide,
   (base64_canonical_roundtrip [ascii "QUJD\r", ascii "!!", ascii "QUJE"] (ascii "QUJF") [3, 1]
      (by decide) (by decide)).1,
   (base64_canonical_roundtrip [ascii "QUJD\r", ascii "!!", ascii "QUJE"] (ascii "QUJF") [3, 1]
      (by decide) (by decide)).2.1.trans (by decide),
   by decide⟩

/-! ## The pipeline of `main` -/

theorem finishedCount_append (ws vs : List WorkerPc) :
    finishedCount (ws ++ vs) = finishedCount ws + finishedCount vs := by
  induction ws with
  | nil => simp [finishedCount]
  | cons w ws ih => simp [finishedCount, ih]; omega

theorem finishedCount_le_length (ws : List WorkerPc) : finishedCount ws ≤ ws.length := by
  induction ws with
  | nil => simp [finishedCount]
  | cons w ws ih => simp only [finishedCount, List.length_cons]; split <;> omega

theorem finishedCount_set (ws : List WorkerPc) (i : Nat) (w v : WorkerPc)
    (h : ws[i]? = some w) :
    finishedCount (ws.set i v) + (if w = .finished then 1 else 0) =
      finishedCount ws + (if v = .finished then 1 else 0) := by
  induction ws generalizing i with
  | nil => simp at h
  | cons a ws ih =>
    cases i with
    | zero =>
      simp at h
      subst h
      simp only [List.set_cons_zero, finishedCount]
      omega
    | succ i =>
      simp at h
      have := ih i h
      simp only [List.set_cons_succ, finishedCount]
      omega

theorem finishedCount_lt_length (ws : List WorkerPc) (i : Nat) (w : WorkerPc)
    (h : ws[i]? = some w) (hw : w ≠ .finished) : finishedCount ws < ws.length := by
  have h1 := finishedCount_set ws i w .finished h
  have h2 := finishedCount_le_length (ws.set i .finished)
  simp [hw] at h1 h2
  omega

theorem length_pos_of_getElem? (ws : List WorkerPc) (i : Nat) (w : WorkerPc)
    (h : ws[i]? = some w) : 0 < ws.length := by
  cases ws with
  | nil => simp at h
  | cons a ws => simp

theorem PipelineInv_init (fl : Flags) (input : List Bytes) :
    PipelineInv fl input Pipeline.init := by
  simp [PipelineInv, Pipeline.init, MainPc.rank, finishedCount, SinkPc.holding]

theorem workers_length_le (n : Nat) (s : Pipeline)
    (h7 : s.mainPc.rank < 5 → s.workers = [])
    (h8 : ∀ k, s.mainPc = .goWorkers k → s.workers.length = k ∧ k ≤ n)
    (h9 : 5 < s.mainPc.rank → s.workers.length = n) : s.workers.length ≤ n := by
  cases hpc : s.mainPc with
  | goWorkers k => exact (h8 k hpc).1 ▸ (h8 k hpc).2
  | addReader | goReader | addWriter | goWriter | addProc =>
    simp [hpc, MainPc.rank] at h7
    simp [h7]
  | waitReader | closeA | waitProc | closeB | waitWriter | returned =>
    simp [hpc, MainPc.rank] at h9
    omega

theorem PipelineInv_step {Cert Lint PErr : Type} (fl : Flags) (T : Transform Cert Lint PErr)
    (input : List Bytes) (s s2 : Pipeline) (hinv : PipelineInv fl input s)
    (hm : Move fl T input s s2) : PipelineInv fl input s2 := by
  obtain ⟨h1, h2, h3, h4, h5, h6, h7, h8, h9, h10, h11, h12, h13, h14, h15, h16, h17, h18, h19,
    h20, h21, h22, h23, h24⟩ :=
    hinv
  cases hm with
  | mainAddReader h =>
    simp only [h, MainPc.rank] at *
    simp only [PipelineInv, h, MainPc.rank]
    simp_all
  | mainGoReader h hf =>
    simp only [h, MainPc.rank] at *
    simp only [PipelineInv, h, MainPc.rank]
    simp_all
  | mainInvalidFormat h hf =>
    exact ⟨h1, h2, h3, h4, h5, h6, h7, h8, h9, h10, h11, h12, h13, h14, h15, h16, h17, h18, h19,
      h20, h21, h22, h23, h24⟩
  | mainAddWriter h =>
    simp only [h, MainPc.rank] at *
    simp only [PipelineInv, h, MainPc.rank]
    simp_all
  | mainGoWriter h =>
    simp only [h, MainPc.rank] at *
    simp only [PipelineInv, h, MainPc.rank]
    simp_all [SinkPc.holding]
  | mainAddProc h =>
    simp only [h, MainPc.rank] at *
    simp only [PipelineInv, h, MainPc.rank]
    simp_all [finishedCount]
  | mainGoWorker k h hk =>
    simp only [h, MainPc.rank] at *
    simp only [PipelineInv, h, MainPc.rank]
    simp_all [finishedCount, finishedCount_append]
    omega
  | mainLoopEnd k h hk =>
    simp only [h, MainPc.rank] at *
    simp only [PipelineInv, h, MainPc.rank]
    simp_all [finishedCount, finishedCount_append]
    omega
  | mainWaitReader h hwg =>
    simp only [h, MainPc.rank] at *
    simp only [PipelineInv, h, MainPc.rank]
    simp_all [finishedCount, finishedCount_append]
  | mainCloseA h hc =>
    simp only [h, MainPc.rank] at *
    simp only [PipelineInv, h, MainPc.rank]
    simp_all [finishedCount, finishedCount_append]
  | mainCloseAClosed h hc =>
    simp only [h, MainPc.rank] at *
    simp only [PipelineInv, h, MainPc.rank]
    simp_all [finishedCount, finishedCount_append]
  | mainWaitProc h hwg =>
    simp only [h, MainPc.rank] at *
    simp only [PipelineInv, h, MainPc.rank]
    simp_all [finishedCount, finishedCount_append]
  | mainCloseB h hc =>
    simp only [h, MainPc.rank] at *
    simp only [PipelineInv, h, MainPc.rank]
    simp_all [finishedCount, finishedCount_append]
  | mainCloseBClosed h hc =>
    simp only [h, MainPc.rank] at *
    simp only [PipelineInv, h, MainPc.rank]
    simp_all [finishedCount, finishedCount_append]
  | mainWaitWriter h hwg =>
    simp only [h, MainPc.rank] at *
    simp only [PipelineInv, h, MainPc.rank]
    simp_all [finishedCount, finishedCount_append]
  | segPut x rest h hc hroom =>
    simp only [PipelineInv]
    simp only [h] at h2 h3 h12 h19 h20 h21
    simp at h2 h3 h12 h19 h20 h21
    refine ⟨h1, ?_, ?_, h4, h5, h6, h7, h8, h9, h10, h11, ?_, h13, h14, ?_, h16, ?_, h18, ?_, ?_,
      ?_, h22, ?_, h24⟩
    · simpa using h2
    · simpa using h3
    · simpa using h12
    · intro hf
      have := h15 hf
      omega
    · rw [h17]; simp
    · intro todo ht
      injection ht with ht
      subst ht
      simpa using h19
    · simp
    · simp
    · simp only [List.length_append, List.length_singleton]
      omega
  | segPutClosed x rest h hc =>
    exfalso
    simp only [h] at h12
    simp at h12
    rw [h10] at hc
    simp at hc
    omega
  | segDone h hwg =>
    simp only [PipelineInv]
    simp only [h] at h2 h3 h12 h19 h20 h21
    simp at h2 h3 h12 h19 h20 h21
    refine ⟨h1, ?_, ?_, h4, h5, h6, h7, h8, h9, h10, h11, ?_, h13, h14, h15, h16, h17, h18, ?_, ?_,
      ?_, h22, h23, h24⟩
    · simp; split at h2 <;> omega
    · simp; omega
    · simp
    · simp
    · simp
    · simpa using h19
  | segDoneNegative h hwg =>
    exfalso
    simp only [h] at h2 h3
    simp at h2 h3
    rw [hwg] at h2
    split at h2 <;> omega
  | segFatal todo h =>
    exact ⟨h1, h2, h3, h4, h5, h6, h7, h8, h9, h10, h11, h12, h13, h14, h15, h16, h17, h18, h19,
      h20, h21, h22, h23, h24⟩
  | workerTake i x rest hw hq =>
    have hfc := finishedCount_set s.workers i _ (.working x) hw
    have hne : s.workers ≠ [] := by intro h0; simp [h0] at hw
    simp at hfc
    simp only [PipelineInv, hfc, List.length_set]
    refine ⟨h1, h2, h3, h4, h5, h6, ?_, h8, h9, h10, h11, h12, h13, h14, ?_, h16, ?_, h18, h19,
      h20, h21, h22, ?_, h24⟩
    · intro hr
      exact absurd (h7 hr) hne
    · intro hf
      have := (h15 hf).2
      simp [this] at hq
    · rw [h17, hq]; simp
    · rw [hq] at h23
      simp only [List.length_cons] at h23
      omega
  | workerReturn i hw hq hc hwg =>
    have hfc := finishedCount_set s.workers i _ .finished hw
    have hlt := finishedCount_lt_length s.workers i _ hw (by simp)
    have hne : s.workers ≠ [] := by intro h0; simp [h0] at hw
    simp at hfc
    simp only [PipelineInv, hfc, List.length_set]
    refine ⟨h1, h2, h3, h4, h5, ?_, ?_, h8, h9, h10, h11, h12, ?_, h14, ?_, h16, h17, h18, h19,
      h20, h21, h22, h23, h24⟩
    · omega
    · intro hr
      exact absurd (h7 hr) hne
    · intro hr
      have := h13 hr
      omega
    · intro _
      refine ⟨?_, hq⟩
      rw [h10] at hc ⊢
      split at hc <;> simp_all
  | workerReturnNegative i hw hq hc hwg =>
    exfalso
    have hlt := finishedCount_lt_length s.workers i _ hw (by simp)
    have hne : s.workers ≠ [] := by intro h0; simp [h0] at hw
    have hle := workers_length_le _ s h7 h8 h9
    have hr : 5 ≤ s.mainPc.rank := by
      by_contra hr
      exact hne (h7 (by omega))
    rw [hwg, if_pos hr] at h6
    omega
  | workerSkip i raw log hw hwork =>
    have hfc := finishedCount_set s.workers i _ .receiving hw
    have hne : s.workers ≠ [] := by intro h0; simp [h0] at hw
    simp at hfc
    simp only [PipelineInv, hfc, List.length_set]
    refine ⟨h1, h2, h3, h4, h5, h6, ?_, h8, h9, h10, h11, h12, h13, h14, h15, h16, h17, h18, h19,
      h20, h21, h22, h23, h24⟩
    intro hr
    exact absurd (h7 hr) hne
  | workerResult i raw json log hw hwork =>
    have hfc := finishedCount_set s.workers i _ (.sending json) hw
    have hne : s.workers ≠ [] := by intro h0; simp [h0] at hw
    simp at hfc
    simp only [PipelineInv, hfc, List.length_set]
    refine ⟨h1, h2, h3, h4, h5, h6, ?_, h8, h9, h10, h11, h12, h13, h14, h15, h16, h17, h18, h19,
      h20, h21, h22, h23, h24⟩
    intro hr
    exact absurd (h7 hr) hne
  | workerFatal i raw log hw hwork =>
    exact ⟨h1, h2, h3, h4, h5, h6, h7, h8, h9, h10, h11, h12, h13, h14, h15, h16, h17, h18, h19,
      h20, h21, h22, h23, h24⟩
  | workerPut i json hw hc hroom =>
    have hfc := finishedCount_set s.workers i _ .receiving hw
    have hne : s.workers ≠ [] := by intro h0; simp [h0] at hw
    simp at hfc
    simp only [PipelineInv, hfc, List.length_set]
    refine ⟨h1, h2, h3, h4, h5, h6, ?_, h8, h9, h10, h11, h12, h13, h14, h15, ?_, h17, ?_, h19,
      h20, h21, h22, h23, ?_⟩
    · intro hr
      exact absurd (h7 hr) hne
    · intro hs
      have := (h16 hs).1
      omega
    · rw [h18]; simp
    · simp only [List.length_append, List.length_singleton]
      omega
  | workerPutClosed i json hw hc =>
    exfalso
    have hlt := finishedCount_lt_length s.workers i _ hw (by simp)
    have hr : 10 ≤ s.mainPc.rank := by
      by_contra hr
      rw [h11, if_neg hr] at hc
      exact hc rfl
    have := h13 (by omega)
    omega
  | sinkTake json rest hs hq =>
    simp only [PipelineInv]
    simp only [hs] at h4 h5 h14 h16
    simp at h4 h5 h14 h16
    refine ⟨h1, h2, h3, ?_, ?_, h6, h7, h8, h9, h10, h11, h12, h13, ?_, h15, ?_, h17, ?_, h19,
      h20, h21, ?_, h23, ?_⟩
    · simpa using h4
    · simpa using h5
    · simpa using h14
    · simp
    · rw [h18, hq]; simp
    · rw [h22, hs]; simp [SinkPc.holding]
    · rw [hq] at h24
      simp only [List.length_cons] at h24
      omega
  | sinkWrite json hs =>
    simp only [PipelineInv]
    simp only [hs] at h4 h5 h14 h16
    simp at h4 h5 h14 h16
    refine ⟨h1, h2, h3, ?_, ?_, h6, h7, h8, h9, h10, h11, h12, h13, ?_, h15, ?_, h17, h18, h19,
      h20, h21, ?_, h23, h24⟩
    · simpa using h4
    · simpa using h5
    · simpa using h14
    · simp
    · rw [h22, hs]; simp [SinkPc.holding]
  | sinkReturn hs hq hc hwg =>
    simp only [PipelineInv]
    simp only [hs] at h4 h5 h14 h16
    simp at h4 h5 h14 h16
    refine ⟨h1, h2, h3, ?_, ?_, h6, h7, h8, h9, h10, h11, h12, h13, ?_, h15, ?_, h17, h18, h19,
      h20, h21, ?_, h23, h24⟩
    · simp; split at h4 <;> omega
    · simp; omega
    · simp
    · intro _
      refine ⟨?_, hq⟩
      rw [h11] at hc ⊢
      split at hc <;> simp_all
    · rw [h22, hs]; simp [SinkPc.holding]
  | sinkReturnNegative hs hq hc hwg =>
    exfalso
    simp only [hs] at h4 h5
    simp at h4 h5
    have hr : 10 ≤ s.mainPc.rank := by
      by_contra hr
      rw [h11, if_neg hr] at hc
      exact hc rfl
    rw [hwg] at h4
    split at h4 <;> omega

theorem Reachable_inv {Cert Lint PErr : Type} (fl : Flags) (T : Transform Cert Lint PErr)
    (input : List Bytes) (s : Pipeline) (hr : Reachable fl T input s) :
    PipelineInv fl input s := by
  induction hr with
  | init _ => exact PipelineInv_init _ _
  | step s s2 _ _ _ hm ih => exact PipelineInv_step fl T input s s2 ih hm

theorem all_finished_of_count (ws : List WorkerPc) (h : finishedCount ws = ws.length) :
    ∀ w ∈ ws, w = .finished := by
  intro w hw
  by_contra hne
  obtain ⟨i, hi⟩ := List.getElem?_of_mem hw
  have := finishedCount_lt_length ws i w hi hne
  omega

theorem finishedCount_pos_of_mem (ws : List WorkerPc) (h : .finished ∈ ws) :
    0 < finishedCount ws := by
  induction ws with
  | nil => simp at h
  | cons a ws ih =>
    simp only [finishedCount]
    rcases List.mem_cons.1 h with h | h
    · simp [← h]
    · have := ih h
      omega

theorem defaultFlags_format : defaultFlags.format.toLower = "pem" := by
  apply String.ext
  simp [defaultFlags, String.toLower, String.map_eq]

theorem completedRun_reachable :
    Reachable defaultFlags toyTransform [[48, 7]] completedRun := by
  have r0 : Reachable defaultFlags toyTransform [[48, 7]] Pipeline.init :=
    Reachable.init (by decide)
  have r1 := Reachable.step _ _ r0 rfl rfl (Move.mainAddReader _ rfl)
  have r2 := Reachable.step _ _ r1 rfl rfl (Move.mainGoReader _ rfl (Or.inl defaultFlags_format))
  have r3 := Reachable.step _ _ r2 rfl rfl (Move.mainAddWriter _ rfl)
  have r4 := Reachable.step _ _ r3 rfl rfl (Move.mainGoWriter _ rfl)
  have r5 := Reachable.step _ _ r4 rfl rfl (Move.mainAddProc _ rfl)
  have r6 := Reachable.step _ _ r5 rfl rfl (Move.mainGoWorker _ 0 rfl (by decide))
  have r7 := Reachable.step _ _ r6 rfl rfl (Move.mainLoopEnd _ 1 rfl (by decide))
  have r8 := Reachable.step _ _ r7 rfl rfl (Move.segPut _ [48, 7] [] rfl rfl (by decide))
  have r9 := Reachable.step _ _ r8 rfl rfl (Move.workerTake _ 0 [48, 7] [] rfl rfl)
  have r10 := Reachable.step _ _ r9 rfl rfl
    (Move.workerResult _ 0 [48, 7] [48, 7, 1, 2] [] rfl rfl)
  have r11 := Reachable.step _ _ r10 rfl rfl
    (Move.workerPut _ 0 [48, 7, 1, 2] rfl rfl (by decide))
  have r12 := Reachable.step _ _ r11 rfl rfl (Move.sinkTake _ [48, 7, 1, 2] [] rfl rfl)
  have r13 := Reachable.step _ _ r12 rfl rfl (Move.sinkWrite _ [48, 7, 1, 2] rfl)
  have r14 := Reachable.step _ _ r13 rfl rfl (Move.segDone _ rfl (by decide))
  have r15 := Reachable.step _ _ r14 rfl rfl (Move.mainWaitReader _ rfl rfl)
  have r16 := Reachable.step _ _ r15 rfl rfl (Move.mainCloseA _ rfl rfl)
  have r17 := Reachable.step _ _ r16 rfl rfl (Move.workerReturn _ 0 rfl rfl (by decide) (by decide))
  have r18 := Reachable.step _ _ r17 rfl rfl (Move.mainWaitProc _ rfl rfl)
  have r19 := Reachable.step _ _ r18 rfl rfl (Move.mainCloseB _ rfl rfl)
  have r20 := Reachable.step _ _ r19 rfl rfl (Move.sinkReturn _ rfl rfl (by decide) (by decide))
  have r21 := Reachable.step _ _ r20 rfl rfl (Move.mainWaitWriter _ rfl rfl)
  exact r21

/-! ## The pipeline of the legacy `main` -/

theorem LegacyInv_init (lf : LegacyFlags) (input : List Bytes) :
    LegacyInv lf input LegacyPipeline.init := by
  simp [LegacyInv, LegacyPipeline.init, LegacyMainPc.rank, LegacyMainPc.pending, finishedCount,
    LegacySinkPc.holding]

theorem LegacyInv_step {Cert Lint PErr : Type} (lf : LegacyFlags)
    (T : LegacyTransform Cert Lint PErr) (input : List Bytes) (s s2 : LegacyPipeline)
    (hinv : LegacyInv lf input s) (hm : LegacyMove lf T input s s2) :
    LegacyInv lf input s2 := by
  obtain ⟨h1, h2, h3, h4, h5, h6, h7, h8, h9, h10, h11, h12, h13, h14, h15, h16, h17, h18, h19,
    h20, h21, h22, h23, h24, h25, h26⟩ := hinv
  cases hm with
  | mainAddReader h =>
    simp only [h, LegacyMainPc.rank, LegacyMainPc.pending] at *
    simp only [LegacyInv, h, LegacyMainPc.rank, LegacyMainPc.pending]
    simp_all [finishedCount, finishedCount_append, LegacySinkPc.holding]
  | mainAddWriter h =>
    simp only [h, LegacyMainPc.rank, LegacyMainPc.pending] at *
    simp only [LegacyInv, h, LegacyMainPc.rank, LegacyMainPc.pending]
    simp_all [finishedCount, finishedCount_append, LegacySinkPc.holding]
  | mainGoReader h hf =>
    simp only [h, LegacyMainPc.rank, LegacyMainPc.pending] at *
    simp only [LegacyInv, h, LegacyMainPc.rank, LegacyMainPc.pending]
    simp_all [finishedCount, finishedCount_append, LegacySinkPc.holding]
  | mainGoWriter h =>
    simp only [h, LegacyMainPc.rank, LegacyMainPc.pending] at *
    simp only [LegacyInv, h, LegacyMainPc.rank, LegacyMainPc.pending]
    simp_all [finishedCount, finishedCount_append, LegacySinkPc.holding]
  | mainLoopAdd k h hk =>
    simp only [h, LegacyMainPc.rank, LegacyMainPc.pending] at *
    simp only [LegacyInv, h, LegacyMainPc.rank, LegacyMainPc.pending]
    simp_all [finishedCount, finishedCount_append, LegacySinkPc.holding]
  | mainLoopGo k h =>
    simp only [h, LegacyMainPc.rank, LegacyMainPc.pending] at *
    simp only [LegacyInv, h, LegacyMainPc.rank, LegacyMainPc.pending]
    simp_all [finishedCount, finishedCount_append, LegacySinkPc.holding]
    omega
  | mainLoopEnd k h hk =>
    simp only [h, LegacyMainPc.rank, LegacyMainPc.pending] at *
    simp only [LegacyInv, h, LegacyMainPc.rank, LegacyMainPc.pending]
    simp_all [finishedCount, finishedCount_append, LegacySinkPc.holding]
    omega
  | mainGoCloser h =>
    simp only [h, LegacyMainPc.rank, LegacyMainPc.pending] at *
    simp only [LegacyInv, h, LegacyMainPc.rank, LegacyMainPc.pending]
    simp_all [finishedCount, finishedCount_append, LegacySinkPc.holding]
  | mainWaitProc h hwg =>
    simp only [h, LegacyMainPc.rank, LegacyMainPc.pending] at *
    simp only [LegacyInv, h, LegacyMainPc.rank, LegacyMainPc.pending]
    simp_all [finishedCount, finishedCount_append, LegacySinkPc.holding]
  | mainCloseB h hc =>
    simp only [h, LegacyMainPc.rank, LegacyMainPc.pending] at *
    simp only [LegacyInv, h, LegacyMainPc.rank, LegacyMainPc.pending]
    simp_all [finishedCount, finishedCount_append, LegacySinkPc.holding]
  | mainCloseBClosed h hc =>
    simp only [h, LegacyMainPc.rank, LegacyMainPc.pending] at *
    simp only [LegacyInv, h, LegacyMainPc.rank, LegacyMainPc.pending]
    simp_all [finishedCount, finishedCount_append, LegacySinkPc.holding]
  | mainWaitWriter h hwg =>
    simp only [h, LegacyMainPc.rank, LegacyMainPc.pending] at *
    simp only [LegacyInv, h, LegacyMainPc.rank, LegacyMainPc.pending]
    simp_all [finishedCount, finishedCount_append, LegacySinkPc.holding]
  | mainInvalidFormat h hf =>
    exact ⟨h1, h2, h3, h4, h5, h6, h7, h8, h9, h10, h11, h12,
      h13, h14, h15, h16, h17, h18, h19, h20, h21, h22, h23, h24, h25, h26⟩
  | closerWait h hwg =>
    simp only [LegacyInv]
    simp only [h] at h11 h13 h14
    simp at h11 h13 h14
    have hseg : s.seg = .finished := by
      by_contra hne
      rw [hwg, if_pos ⟨by omega, hne⟩] at h2
      omega
    refine ⟨h1, h2, h3, h4, h5, h6, h7, h8, h9, h10, ?_, h12, ?_, ?_, h15, h16, h17, h18, h19,
      h20, h21, h22, h23, h24, h25, h26⟩
    · simpa using h11
    · simpa using h13
    · intro _; exact hseg
  | closerClose h hc =>
    simp only [LegacyInv]
    simp only [h] at h11 h13 h14
    simp at h11 h13 h14
    refine ⟨h1, h2, h3, h4, h5, h6, h7, h8, h9, h10, ?_, h12, ?_, ?_, h15, h16, ?_, h18, h19,
      h20, h21, h22, h23, h24, h25, h26⟩
    · simp [hc]
    · simpa using h13
    · intro _; exact h14
    · intro hf
      have := (h17 hf).1
      omega
  | closerCloseClosed h hc =>
    exfalso
    simp only [h] at h11
    simp at h11
    exact hc h11
  | segPut x rest h hc hroom =>
    simp only [LegacyInv]
    simp only [h] at h2 h3 h14 h21 h22 h23
    simp at h2 h3 h14 h21 h22 h23
    refine ⟨h1, ?_, ?_, h4, h5, h6, h7, h8, h9, h10, h11, h12, h13, ?_, h15, h16, ?_, h18, ?_,
      h20, ?_, ?_, ?_, h24, ?_, h26⟩
    · simpa using h2
    · simpa using h3
    · simpa using h14
    · intro hf
      have := h17 hf
      omega
    · rw [h19]; simp
    · intro todo ht
      injection ht with ht
      subst ht
      simpa using h21
    · simp
    · simp
    · simp only [List.length_append, List.length_singleton]
      omega
  | segHandOver x rest i h hc hcap hw =>
    have hq : s.queueA = [] := List.length_eq_zero.1 (by omega)
    have hfc := finishedCount_set s.workers i _ (.working x) hw
    have hne : s.workers ≠ [] := by intro h0; simp [h0] at hw
    simp only [LegacyInv]
    simp only [h] at h2 h3 h14 h21 h22 h23
    simp at h2 h3 h14 h21 h22 h23 hfc
    simp only [hfc, List.length_set]
    refine ⟨h1, ?_, ?_, h4, h5, h6, ?_, h8, h9, h10, h11, h12, h13, ?_, h15, h16, ?_, h18, ?_,
      h20, ?_, ?_, ?_, h24, h25, h26⟩
    · simpa using h2
    · simpa using h3
    · intro hr
      exact absurd (h7 hr) hne
    · simpa using h14
    · intro hf
      have := h17 hf
      omega
    · rw [h19, hq]; simp
    · intro todo ht
      injection ht with ht
      subst ht
      simpa using h21
    · simp
    · simp
  | segPutClosed x rest h hc =>
    exfalso
    simp only [h] at h14
    simp at h14
    have hcl : s.closer = .finished := by
      by_contra hne
      rw [h11, if_neg hne] at hc
      exact hc rfl
    exact h14.2 hcl
  | segDone h hwg =>
    simp only [LegacyInv]
    simp only [h] at h2 h3 h14 h21 h22 h23
    simp at h2 h3 h14 h21 h22 h23
    refine ⟨h1, ?_, ?_, h4, h5, h6, h7, h8, h9, h10, h11, h12, h13, ?_, h15, h16, h17, h18, h19,
      h20, ?_, ?_, ?_, h24, h25, h26⟩
    · simp; split at h2 <;> omega
    · simp; omega
    · simp
    · simp
    · simp
    · simpa using h21
  | segDoneNegative h hwg =>
    exfalso
    simp only [h] at h2 h3
    simp at h2 h3
    rw [hwg] at h2
    split at h2 <;> omega
  | segFatal todo h =>
    exact ⟨h1, h2, h3, h4, h5, h6, h7, h8, h9, h10, h11, h12,
      h13, h14, h15, h16, h17, h18, h19, h20, h21, h22, h23, h24, h25, h26⟩
  | workerTake i x rest hw hq =>
    have hfc := finishedCount_set s.workers i _ (.working x) hw
    have hne : s.workers ≠ [] := by intro h0; simp [h0] at hw
    simp at hfc
    simp only [LegacyInv, hfc, List.length_set]
    refine ⟨h1, h2, h3, h4, h5, h6, ?_, h8, h9, h10, h11, h12, h13, h14, h15, h16, ?_, h18, ?_,
      h20, h21, h22, h23, h24, ?_, h26⟩
    · intro hr
      exact absurd (h7 hr) hne
    · intro hf
      have := (h17 hf).2
      simp [this] at hq
    · rw [h19, hq]; simp
    · rw [hq] at h25
      simp only [List.length_cons] at h25
      omega
  | workerReturn i hw hq hc hwg =>
    have hfc := finishedCount_set s.workers i _ .finished hw
    have hlt := finishedCount_lt_length s.workers i _ hw (by simp)
    have hne : s.workers ≠ [] := by intro h0; simp [h0] at hw
    simp at hfc
    simp only [LegacyInv, hfc, List.length_set]
    refine ⟨h1, h2, h3, h4, h5, ?_, ?_, h8, h9, h10, h11, h12, h13, h14, ?_, h16, ?_, h18, h19,
      h20, h21, h22, h23, h24, h25, h26⟩
    · omega
    · intro hr
      exact absurd (h7 hr) hne
    · intro hr
      have := h15 hr
      omega
    · intro _
      refine ⟨?_, hq⟩
      rw [h11] at hc ⊢
      split at hc <;> simp_all
  | workerReturnNegative i hw hq hc hwg =>
    exfalso
    have hlt := finishedCount_lt_length s.workers i _ hw (by simp)
    omega
  | workerSkip i raw log hw hwork =>
    have hfc := finishedCount_set s.workers i _ .receiving hw
    have hne : s.workers ≠ [] := by intro h0; simp [h0] at hw
    simp at hfc
    simp only [LegacyInv, hfc, List.length_set]
    refine ⟨h1, h2, h3, h4, h5, h6, ?_, h8, h9, h10, h11, h12, h13, h14, h15, h16, h17, h18, h19,
      h20, h21, h22, h23, h24, h25, h26⟩
    intro hr
    exact absurd (h7 hr) hne
  | workerResult i raw json log hw hwork =>
    have hfc := finishedCount_set s.workers i _ (.sending json) hw
    have hne : s.workers ≠ [] := by intro h0; simp [h0] at hw
    simp at hfc
    simp only [LegacyInv, hfc, List.length_set]
    refine ⟨h1, h2, h3, h4, h5, h6, ?_, h8, h9, h10, h11, h12, h13, h14, h15, h16, h17, h18, h19,
      h20, h21, h22, h23, h24, h25, h26⟩
    intro hr
    exact absurd (h7 hr) hne
  | workerFatal i raw log hw hwork =>
    exact ⟨h1, h2, h3, h4, h5, h6, h7, h8, h9, h10, h11, h12,
      h13, h14, h15, h16, h17, h18, h19, h20, h21, h22, h23, h24, h25, h26⟩
  | workerPut i json hw hc hroom =>
    have hfc := finishedCount_set s.workers i _ .receiving hw
    have hne : s.workers ≠ [] := by intro h0; simp [h0] at hw
    simp at hfc
    simp only [LegacyInv, hfc, List.length_set]
    refine ⟨h1, h2, h3, h4, h5, h6, ?_, h8, h9, h10, h11, h12, h13, h14, h15, h16, h17, ?_, h19,
      ?_, h21, h22, h23, h24, h25, ?_⟩
    · intro hr
      exact absurd (h7 hr) hne
    · intro hs
      have := (h18 hs).1
      omega
    · rw [h20]; simp
    · simp only [List.length_append, List.length_singleton]
      omega
  | workerHandOver i json hw hc hcap hs =>
    have hq : s.queueB = [] := List.length_eq_zero.1 (by omega)
    have hfc := finishedCount_set s.workers i _ .receiving hw
    have hne : s.workers ≠ [] := by intro h0; simp [h0] at hw
    simp at hfc
    simp only [LegacyInv, hfc, List.length_set]
    simp only [hs] at h4 h5 h16 h18 h24
    simp [LegacySinkPc.holding] at h4 h5 h16 h18 h24
    refine ⟨h1, h2, h3, ?_, ?_, h6, ?_, h8, h9, h10, h11, h12, h13, h14, h15, ?_, h17, ?_, h19,
      ?_, h21, h22, h23, ?_, h25, h26⟩
    · simpa using h4
    · simpa using h5
    · intro hr
      exact absurd (h7 hr) hne
    · simpa using h16
    · simp
    · rw [h20, hq]; simp
    · rw [h24]; simp [LegacySinkPc.holding]
  | workerPutClosed i json hw hc =>
    exfalso
    have hlt := finishedCount_lt_length s.workers i _ hw (by simp)
    have hr : 8 ≤ s.mainPc.rank := by
      by_contra hr
      rw [h12, if_neg hr] at hc
      exact hc rfl
    have := h15 (by omega)
    omega
  | sinkOpen hs =>
    simp only [LegacyInv]
    simp only [hs] at h4 h5 h16 h18 h24
    simp [LegacySinkPc.holding] at h4 h5 h16 h18 h24
    refine ⟨h1, h2, h3, ?_, ?_, h6, h7, h8, h9, h10, h11, h12, h13, h14, h15, ?_, h17, ?_, h19,
      h20, h21, h22, h23, ?_, h25, h26⟩
    · simpa using h4
    · simpa using h5
    · simpa using h16
    · simp
    · rw [h24]; simp [LegacySinkPc.holding]
  | sinkCreateFails hs hname =>
    exact ⟨h1, h2, h3, h4, h5, h6, h7, h8, h9, h10, h11, h12,
      h13, h14, h15, h16, h17, h18, h19, h20, h21, h22, h23, h24, h25, h26⟩
  | sinkTake json rest hs hq =>
    simp only [LegacyInv]
    simp only [hs] at h4 h5 h16 h18 h24
    simp [LegacySinkPc.holding] at h4 h5 h16 h18 h24
    refine ⟨h1, h2, h3, ?_, ?_, h6, h7, h8, h9, h10, h11, h12, h13, h14, h15, ?_, h17, ?_, h19,
      ?_, h21, h22, h23, ?_, h25, ?_⟩
    · simpa using h4
    · simpa using h5
    · simpa using h16
    · simp
    · rw [h20, hq]; simp
    · rw [h24]; simp [LegacySinkPc.holding]
    · rw [hq] at h26
      simp only [List.length_cons] at h26
      omega
  | sinkWrite json hs =>
    simp only [LegacyInv]
    simp only [hs] at h4 h5 h16 h18 h24
    simp [LegacySinkPc.holding] at h4 h5 h16 h18 h24
    refine ⟨h1, h2, h3, ?_, ?_, h6, h7, h8, h9, h10, h11, h12, h13, h14, h15, ?_, h17, ?_, h19,
      h20, h21, h22, h23, ?_, h25, h26⟩
    · simpa using h4
    · simpa using h5
    · simpa using h16
    · simp
    · rw [h24]; simp [LegacySinkPc.holding]
  | sinkReturn hs hq hc hwg =>
    simp only [LegacyInv]
    simp only [hs] at h4 h5 h16 h18 h24
    simp [LegacySinkPc.holding] at h4 h5 h16 h18 h24
    refine ⟨h1, h2, h3, ?_, ?_, h6, h7, h8, h9, h10, h11, h12, h13, h14, h15, ?_, h17, ?_, h19,
      h20, h21, h22, h23, ?_, h25, h26⟩
    · simp; split at h4 <;> omega
    · simp; omega
    · simp
    · intro _
      refine ⟨?_, hq⟩
      rw [h12] at hc ⊢
      split at hc <;> simp_all
    · rw [h24]; simp [LegacySinkPc.holding]
  | sinkReturnNegative hs hq hc hwg =>
    exfalso
    simp only [hs] at h4 h5
    simp at h4 h5
    have hr : 8 ≤ s.mainPc.rank := by
      by_contra hr
      rw [h12, if_neg hr] at hc
      exact hc rfl
    rw [hwg] at h4
    split at h4 <;> omega

theorem LegacyReachable_inv {Cert Lint PErr : Type} (lf : LegacyFlags)
    (T : LegacyTransform Cert Lint PErr) (input : List Bytes) (s : LegacyPipeline)
    (hr : LegacyReachable lf T input s) : LegacyInv lf input s := by
  induction hr with
  | init _ _ => exact LegacyInv_init _ _
  | step s s2 _ _ _ _ hm ih => exact LegacyInv_step lf T input s s2 ih hm

theorem legacyCompletedRun_reachable :
    LegacyReachable legacyDefaultFlags legacyToyTransform [[48, 7]] legacyCompletedRun := by
  have r0 : LegacyReachable legacyDefaultFlags legacyToyTransform [[48, 7]]
      LegacyPipeline.init := LegacyReachable.init rfl (by decide)
  have r1 := LegacyReachable.step _ _ r0 rfl rfl (by decide) (LegacyMove.mainAddReader _ rfl)
  have r2 := LegacyReachable.step _ _ r1 rfl rfl (by decide) (LegacyMove.mainAddWriter _ rfl)
  have r3 := LegacyReachable.step _ _ r2 rfl rfl (by decide)
    (LegacyMove.mainGoReader _ rfl (Or.inl (by decide)))
  have r4 := LegacyReachable.step _ _ r3 rfl rfl (by decide) (LegacyMove.mainGoWriter _ rfl)
  have r5 := LegacyReachable.step _ _ r4 rfl rfl (by decide)
    (LegacyMove.mainLoopAdd _ 0 rfl (by decide))
  have r6 := LegacyReachable.step _ _ r5 rfl rfl (by decide) (LegacyMove.mainLoopGo _ 0 rfl)
  have r7 := LegacyReachable.step _ _ r6 rfl rfl (by decide)
    (LegacyMove.mainLoopEnd _ 1 rfl (by decide))
  have r8 := LegacyReachable.step _ _ r7 rfl rfl (by decide) (LegacyMove.mainGoCloser _ rfl)
  have r9 := LegacyReachable.step _ _ r8 rfl rfl (by decide) (LegacyMove.sinkOpen _ rfl)
  have r10 := LegacyReachable.step _ _ r9 rfl rfl (by decide)
    (LegacyMove.segPut _ [48, 7] [] rfl rfl (by decide))
  have r11 := LegacyReachable.step _ _ r10 rfl rfl (by decide)
    (LegacyMove.workerTake _ 0 [48, 7] [] rfl rfl)
  have r12 := LegacyReachable.step _ _ r11 rfl rfl (by decide)
    (LegacyMove.workerResult _ 0 [48, 7] [48, 7, 1, 2] [] rfl rfl)
  have r13 := LegacyReachable.step _ _ r12 rfl rfl (by decide)
    (LegacyMove.workerPut _ 0 [48, 7, 1, 2] rfl rfl (by decide))
  have r14 := LegacyReachable.step _ _ r13 rfl rfl (by decide)
    (LegacyMove.sinkTake _ [48, 7, 1, 2] [] rfl rfl)
  have r15 := LegacyReachable.step _ _ r14 rfl rfl (by decide)
    (LegacyMove.sinkWrite _ [48, 7, 1, 2] rfl)
  have r16 := LegacyReachable.step _ _ r15 rfl rfl (by decide)
    (LegacyMove.segDone _ rfl (by decide))
  have r17 := LegacyReachable.step _ _ r16 rfl rfl (by decide) (LegacyMove.closerWait _ rfl rfl)
  have r18 := LegacyReachable.step _ _ r17 rfl rfl (by decide) (LegacyMove.closerClose _ rfl rfl)
  have r19 := LegacyReachable.step _ _ r18 rfl rfl (by decide)
    (LegacyMove.workerReturn _ 0 rfl rfl (by decide) (by decide))
  have r20 := LegacyReachable.step _ _ r19 rfl rfl (by decide) (LegacyMove.mainWaitProc _ rfl rfl)
  have r21 := LegacyReachable.step _ _ r20 rfl rfl (by decide) (LegacyMove.mainCloseB _ rfl rfl)
  have r22 := LegacyReachable.step _ _ r21 rfl rfl (by decide)
    (LegacyMove.sinkReturn _ rfl rfl (by decide) (by decide))
  have r23 := LegacyReachable.step _ _ r22 rfl rfl (by decide)
    (LegacyMove.mainWaitWriter _ rfl rfl)
  exact r23

/-! ## The order of the closes, in both entry points -/

/-- C9, as stated, fails for the legacy `main` of `cmd/main.go` with `-threads 0`
on an input of one block. `main` returns, the process ends normally, both
queues have been closed once, and the block that was put on queue A before the
close is still queued: it was delivered to no consumer. -/
theorem legacy_no_threads_undelivered :
    LegacyReachable legacyNoThreads legacyToyTransform [[48, 7]] legacyNoThreadsRun ∧
    legacyNoThreadsRun.mainPc = .returned ∧ legacyNoThreadsRun.exited = false ∧
    legacyNoThreadsRun.panicked = false ∧ legacyNoThreadsRun.closesA = 1 ∧
    legacyNoThreadsRun.putA = [[48, 7]] ∧ legacyNoThreadsRun.takenA = [] ∧
    legacyNoThreadsRun.queueA = [[48, 7]] := by
  refine ⟨?_, rfl, rfl, rfl, rfl, rfl, rfl, rfl⟩
  have r0 : LegacyReachable legacyNoThreads legacyToyTransform [[48, 7]]
      LegacyPipeline.init := LegacyReachable.init rfl (by decide)
  have r1 := LegacyReachable.step _ _ r0 rfl rfl (by decide) (LegacyMove.mainAddReader _ rfl)
  have r2 := LegacyReachable.step _ _ r1 rfl rfl (by decide) (LegacyMove.mainAddWriter _ rfl)
  have r3 := LegacyReachable.step _ _ r2 rfl rfl (by decide)
    (LegacyMove.mainGoReader _ rfl (Or.inl (by decide)))
  have r4 := LegacyReachable.step _ _ r3 rfl rfl (by decide) (LegacyMove.mainGoWriter _ rfl)
  have r5 := LegacyReachable.step _ _ r4 rfl rfl (by decide)
    (LegacyMove.mainLoopEnd _ 0 rfl (by decide))
  have r6 := LegacyReachable.step _ _ r5 rfl rfl (by decide) (LegacyMove.mainGoCloser _ rfl)
  have r7 := LegacyReachable.step _ _ r6 rfl rfl (by decide) (LegacyMove.sinkOpen _ rfl)
  have r8 := LegacyReachable.step _ _ r7 rfl rfl (by decide)
    (LegacyMove.segPut _ [48, 7] [] rfl rfl (by decide))
  have r9 := LegacyReachable.step _ _ r8 rfl rfl (by decide)
    (LegacyMove.segDone _ rfl (by decide))
  have r10 := LegacyReachable.step _ _ r9 rfl rfl (by decide) (LegacyMove.closerWait _ rfl rfl)
  have r11 := LegacyReachable.step _ _ r10 rfl rfl (by decide) (LegacyMove.closerClose _ rfl rfl)
  have r12 := LegacyReachable.step _ _ r11 rfl rfl (by decide) (LegacyMove.mainWaitProc _ rfl rfl)
  have r13 := LegacyReachable.step _ _ r12 rfl rfl (by decide) (LegacyMove.mainCloseB _ rfl rfl)
  have r14 := LegacyReachable.step _ _ r13 rfl rfl (by decide)
    (LegacyMove.sinkReturn _ rfl rfl (by decide) (by decide))
  have r15 := LegacyReachable.step _ _ r14 rfl rfl (by decide)
    (LegacyMove.mainWaitWriter _ rfl rfl)
  exact r15

/-- C9, amended: in every state the pipeline of `main` can reach, in
`cmd/zcertificate/main.go` and in the legacy `cmd/main.go`, each queue has been
closed at most once; if queue A is closed, the Segmenter has signalled
completion (and has put its whole input); if queue B is closed, every one of
the configured workers has signalled completion; no runtime panic has happened,
that is, no send on a closed channel, no second close and no negative
`WaitGroup` counter was attempted; the values sent on a queue are the values
received from it followed by the values still queued; a worker has returned
only if queue A is closed and drained, and the sink only if queue B is closed
and drained and every record sent was written. When `main` has returned, queue
B was closed exactly once, is empty, and every record sent was written; queue A
was closed exactly once, is empty, and every block of the input was received by
a worker, which in `cmd/main.go` needs at least one worker thread. -/
theorem pipeline_close_order :
    (∀ (Cert Lint PErr : Type) (fl : Flags) (T : Transform Cert Lint PErr)
      (input : List Bytes) (s : Pipeline), Reachable fl T input s →
      s.closesA ≤ 1 ∧ s.closesB ≤ 1 ∧
      (s.closesA ≠ 0 → s.seg = .finished ∧ s.putA = input) ∧
      (s.closesB ≠ 0 →
        s.workers.length = fl.workers.toNat ∧ ∀ w ∈ s.workers, w = WorkerPc.finished) ∧
      s.panicked = false ∧
      s.putA = s.takenA ++ s.queueA ∧ s.putB = s.takenB ++ s.queueB ∧
      (WorkerPc.finished ∈ s.workers →
        s.closesA = 1 ∧ s.queueA = [] ∧ s.takenA = s.putA) ∧
      (s.sink = .finished →
        s.closesB = 1 ∧ s.queueB = [] ∧ s.takenB = s.putB ∧ s.written = s.putB) ∧
      (s.mainPc = .returned →
        s.closesB = 1 ∧ s.queueB = [] ∧ s.written = s.putB ∧
        s.closesA = 1 ∧ s.queueA = [] ∧ s.takenA = input)) ∧
    (∀ (Cert Lint PErr : Type) (lf : LegacyFlags) (T : LegacyTransform Cert Lint PErr)
      (input : List Bytes) (s : LegacyPipeline), LegacyReachable lf T input s →
      s.closesA ≤ 1 ∧ s.closesB ≤ 1 ∧
      (s.closesA ≠ 0 → s.seg = .finished ∧ s.putA = input) ∧
      (s.closesB ≠ 0 →
        s.workers.length = lf.numCertThreads.toNat ∧
        ∀ w ∈ s.workers, w = WorkerPc.finished) ∧
      s.panicked = false ∧
      s.putA = s.takenA ++ s.queueA ∧ s.putB = s.takenB ++ s.queueB ∧
      (WorkerPc.finished ∈ s.workers →
        s.closesA = 1 ∧ s.queueA = [] ∧ s.takenA = s.putA) ∧
      (s.sink = .finished →
        s.closesB = 1 ∧ s.queueB = [] ∧ s.takenB = s.putB ∧ s.written = s.putB) ∧
      (s.mainPc = .returned →
        s.closesB = 1 ∧ s.queueB = [] ∧ s.written = s.putB ∧
        (0 < lf.numCertThreads → s.closesA = 1 ∧ s.queueA = [] ∧ s.takenA = input))) := by
  constructor
  · intro Cert Lint PErr fl T input s hr
    obtain ⟨h1, _, _, _, _, _, _, _, h9, h10, h11, h12, h13, h14, h15, h16, h17, h18, _, _, h21,
      h22, h23, _⟩ := Reachable_inv fl T input s hr
    have hA : s.closesA ≠ 0 → 8 ≤ s.mainPc.rank := by
      intro hc
      by_contra hlt
      rw [h10, if_neg hlt] at hc
      exact hc rfl
    have hB : s.closesB ≠ 0 → 10 ≤ s.mainPc.rank := by
      intro hc
      by_contra hlt
      rw [h11, if_neg hlt] at hc
      exact hc rfl
    have hW : WorkerPc.finished ∈ s.workers →
        s.closesA = 1 ∧ s.queueA = [] ∧ s.takenA = s.putA := by
      intro hm
      obtain ⟨hc, hq⟩ := h15 (finishedCount_pos_of_mem _ hm)
      refine ⟨hc, hq, ?_⟩
      rw [h17, hq, List.append_nil]
    have hS : s.sink = .finished →
        s.closesB = 1 ∧ s.queueB = [] ∧ s.takenB = s.putB ∧ s.written = s.putB := by
      intro hs
      obtain ⟨hc, hq⟩ := h16 hs
      have ht : s.takenB = s.putB := by rw [h18, hq, List.append_nil]
      refine ⟨hc, hq, ht, ?_⟩
      rw [← ht, h22, hs]
      simp [SinkPc.holding]
    refine ⟨?_, ?_, ?_, ?_, h1, h17, h18, hW, hS, ?_⟩
    · rw [h10]; split <;> omega
    · rw [h11]; split <;> omega
    · intro hc
      have hseg := h12 (by have := hA hc; omega)
      exact ⟨hseg, h21 hseg⟩
    · intro hc
      have h10r := hB hc
      exact ⟨h9 (by omega), all_finished_of_count _ (h13 (by omega))⟩
    · intro hret
      have hrank : s.mainPc.rank = 11 := by rw [hret]; rfl
      have hseg := h12 (by omega)
      obtain ⟨hcB, hqB, _, hwr⟩ := hS (h14 (by omega))
      have hcA : s.closesA = 1 := by rw [h10, if_pos (by omega)]
      have hqA : s.queueA = [] := by
        by_cases hn : fl.workers.toNat = 0
        · have : s.queueA.length = 0 := by omega
          exact List.length_eq_zero.1 this
        · have hlen := h9 (by omega)
          have hfc := h13 (by omega)
          exact (h15 (by omega)).2
      refine ⟨hcB, hqB, hwr, hcA, hqA, ?_⟩
      have := h21 hseg
      rw [h17, hqA, List.append_nil] at this
      exact this
  · intro Cert Lint PErr lf T input s hr
    obtain ⟨h1, _, _, _, _, _, _, _, _, h10, h11, h12, _, h14, h15, h16, h17, h18, h19, h20, _, _,
      h23, h24, _, _⟩ := LegacyReachable_inv lf T input s hr
    have hA : s.closesA ≠ 0 → s.closer = .finished := by
      intro hc
      by_contra hne
      rw [h11, if_neg hne] at hc
      exact hc rfl
    have hB : s.closesB ≠ 0 → 8 ≤ s.mainPc.rank := by
      intro hc
      by_contra hlt
      rw [h12, if_neg hlt] at hc
      exact hc rfl
    have hW : WorkerPc.finished ∈ s.workers →
        s.closesA = 1 ∧ s.queueA = [] ∧ s.takenA = s.putA := by
      intro hm
      obtain ⟨hc, hq⟩ := h17 (finishedCount_pos_of_mem _ hm)
      refine ⟨hc, hq, ?_⟩
      rw [h19, hq, List.append_nil]
    have hS : s.sink = .finished →
        s.closesB = 1 ∧ s.queueB = [] ∧ s.takenB = s.putB ∧ s.written = s.putB := by
      intro hs
      obtain ⟨hc, hq⟩ := h18 hs
      have ht : s.takenB = s.putB := by rw [h20, hq, List.append_nil]
      refine ⟨hc, hq, ht, ?_⟩
      rw [← ht, h24, hs]
      simp [LegacySinkPc.holding]
    have hAfin : s.closesA ≠ 0 → s.seg = .finished ∧ s.putA = input := by
      intro hc
      have hseg := h14 (Or.inr (hA hc))
      exact ⟨hseg, h23 hseg⟩
    refine ⟨?_, ?_, hAfin, ?_, h1, h19, h20, hW, hS, ?_⟩
    · rw [h11]; split <;> omega
    · rw [h12]; split <;> omega
    · intro hc
      have h8r := hB hc
      exact ⟨h10 (by omega), all_finished_of_count _ (h15 (by omega))⟩
    · intro hret
      have hrank : s.mainPc.rank = 9 := by rw [hret]; rfl
      obtain ⟨hcB, hqB, _, hwr⟩ := hS (h16 (by omega))
      refine ⟨hcB, hqB, hwr, ?_⟩
      intro hn
      have hlen := h10 (by omega)
      have hfc := h15 (by omega)
      obtain ⟨hcA, hqA⟩ := h17 (by omega)
      refine ⟨hcA, hqA, ?_⟩
      have := (hAfin (by omega)).2
      rw [h19, hqA, List.append_nil] at this
      exact this

/-- C9, amended, at concrete inputs: the complete runs of both entry points with
one worker on the single block `[48, 7]`. -/
theorem pipeline_close_order_witness :
    (completedRun.closesA ≤ 1 ∧ completedRun.closesB ≤ 1 ∧
      (completedRun.closesA ≠ 0 →
        completedRun.seg = .finished ∧ completedRun.putA = [[48, 7]]) ∧
      (completedRun.closesB ≠ 0 →
        completedRun.workers.length = defaultFlags.workers.toNat ∧
        ∀ w ∈ completedRun.workers, w = WorkerPc.finished) ∧
      completedRun.panicked = false ∧
      completedRun.putA = completedRun.takenA ++ completedRun.queueA ∧
      completedRun.putB = completedRun.takenB ++ completedRun.queueB ∧
      (WorkerPc.finished ∈ completedRun.workers →
        completedRun.closesA = 1 ∧ completedRun.queueA = [] ∧
        completedRun.takenA = completedRun.putA) ∧
      (completedRun.sink = .finished →
        completedRun.closesB = 1 ∧ completedRun.queueB = [] ∧
        completedRun.takenB = completedRun.putB ∧ completedRun.written = completedRun.putB) ∧
      (completedRun.mainPc = .returned →
        completedRun.closesB = 1 ∧ completedRun.queueB = [] ∧
        completedRun.written = completedRun.putB ∧
        completedRun.closesA = 1 ∧ completedRun.queueA = [] ∧
        completedRun.takenA = [[48, 7]])) ∧
    (legacyCompletedRun.closesA ≤ 1 ∧ legacyCompletedRun.closesB ≤ 1 ∧
      (legacyCompletedRun.closesA ≠ 0 →
        legacyCompletedRun.seg = .finished ∧ legacyCompletedRun.putA = [[48, 7]]) ∧
      (legacyCompletedRun.closesB ≠ 0 →
        legacyCompletedRun.workers.length = legacyDefaultFlags.numCertThreads.toNat ∧
        ∀ w ∈ legacyCompletedRun.workers, w = WorkerPc.finished) ∧
      legacyCompletedRun.panicked = false ∧
      legacyCompletedRun.putA = legacyCompletedRun.takenA ++ legacyCompletedRun.queueA ∧
      legacyCompletedRun.putB = legacyCompletedRun.takenB ++ legacyCompletedRun.queueB ∧
      (WorkerPc.finished ∈ legacyCompletedRun.workers →
        legacyCompletedRun.closesA = 1 ∧ legacyCompletedRun.queueA = [] ∧
        legacyCompletedRun.takenA = legacyCompletedRun.putA) ∧
      (legacyCompletedRun.sink = .finished →
        legacyCompletedRun.closesB = 1 ∧ legacyCompletedRun.queueB = [] ∧
        legacyCompletedRun.takenB = legacyCompletedRun.putB ∧
        legacyCompletedRun.written = legacyCompletedRun.putB) ∧
      (legacyCompletedRun.mainPc = .returned →
        legacyCompletedRun.closesB = 1 ∧ legacyCompletedRun.queueB = [] ∧
        legacyCompletedRun.written = legacyCompletedRun.putB ∧
        (0 < legacyDefaultFlags.numCertThreads →
          legacyCompletedRun.closesA = 1 ∧ legacyCompletedRun.queueA = [] ∧
          legacyCompletedRun.takenA = [[48, 7]]))) :=
  ⟨pipeline_close_order.1 Unit Unit Unit defaultFlags toyTransform [[48, 7]] completedRun
      completedRun_reachable,
    pipeline_close_order.2 Bytes Unit Unit legacyDefaultFlags legacyToyTransform [[48, 7]]
      legacyCompletedRun legacyCompletedRun_reachable⟩

end ZCertificate
